import Mathlib

/-!
Verification of the Main_Parser JSON utility library (`src/parser.rs`) against its
specification.  The Rust sources are shallowly embedded: `serde_json::Value` becomes
the inductive `Value`, pest token trees become `Span` trees, fallible Rust functions
return `Except`/`Option`, and the one place the Rust code can panic is modelled with
an explicit `RustResult.panic` constructor.  Definitions keep the source names where
Lean allows it.  Artifacts of the repository that are not present in `src/`
(the `json.pest` grammar file and the map type chosen in `Cargo.toml`) are modelled
from the specification; each such definition carries a doc comment saying so.
-/

namespace MainParser

/-- The value model: `serde_json::Value`.  The `Number` payload is kept as the matched
numeral text.  Modelled from the spec: §3 defines `Number` as "a lossless numeric
representation supporting integer and floating forms"; the numeral string is such a
representation (the crate-internal `serde_json::Number` layout is not part of `src/`). -/
inductive Value where
  | null
  | bool (b : Bool)
  | num (n : String)
  | str (s : String)
  | arr (items : List Value)
  | obj (entries : List (String × Value))

/-- First-match association lookup: `serde_json::Map::get`.  Stored maps always have
unique keys, so first match is the match. -/
def lookupFirst : List (String × Value) → String → Option Value
  | [], _ => none
  | (k', v) :: rest, k => if k' = k then some v else lookupFirst rest k

/-- `serde_json::Value::get` with a string index: `Some` only on objects having the key. -/
def Value.getKey : Value → String → Option Value
  | .obj entries, k => lookupFirst entries k
  | _, _ => none

/-- `serde_json::Value::get` with a `usize` index: `Some` only on arrays, in range. -/
def Value.getIdx : Value → Nat → Option Value
  | .arr items, i => items[i]?
  | _, _ => none

/-- `Value::is_object`. -/
def Value.isObj : Value → Bool
  | .obj _ => true
  | _ => false

/-- Top-level key list of an object (`as_object().unwrap().keys()`); empty elsewhere. -/
def keysOf : Value → List String
  | .obj entries => entries.map Prod.fst
  | _ => []

/-- `as_object().unwrap().contains_key(key)` on objects; `false` elsewhere. -/
def hasKey : Value → String → Bool
  | .obj entries, k => entries.any (fun e => e.1 == k)
  | _, _ => false

/-- The error enum of `parser.rs` (the file-read variant plays no role here). -/
inductive ParserError where
  | JsonParseError
  | SchemaValidationError
  deriving Repr, DecidableEq

/-- `serde_json::Map::insert`.  Modelled from the spec: `Cargo.toml` is not in `src/`,
so the concrete map type is unknown; §3 fixes its behaviour — "insertion order
preserved, keys unique — last write wins on duplicate keys during construction".
A present key keeps its position and gets the new value; a new key is appended. -/
def insertKV : List (String × Value) → String → Value → List (String × Value)
  | [], k, v => [(k, v)]
  | (k', v') :: rest, k, v =>
    if k' = k then (k', v) :: rest else (k', v') :: insertKV rest k v

/-- `validate_json_schema` from `parser.rs`: both arguments must be objects and every
candidate key must be present in the schema. -/
def validate_json_schema (json schema : Value) : Except ParserError Unit :=
  if json.isObj && schema.isObj then
    if (keysOf json).all (fun k => hasKey schema k) then
      .ok ()
    else
      .error .SchemaValidationError
  else
    .error .SchemaValidationError

/-- `edit_json` from `parser.rs`.  The Rust function mutates `&mut Value`; the embedding
passes the state explicitly and returns (success flag, post-state).  On a non-object the
Rust function returns `Err` without touching the value, so the post-state is the input. -/
def edit_json (json : Value) (key : String) (new_value : Value) : Bool × Value :=
  match json with
  | .obj entries => (true, .obj (insertKV entries key new_value))
  | _ => (false, json)

theorem lookupFirst_insertKV_self (es : List (String × Value)) (k : String) (v : Value) :
    lookupFirst (insertKV es k v) k = some v := by
  induction es with
  | nil => simp [insertKV, lookupFirst]
  | cons e rest ih =>
    by_cases h : e.1 = k
    · simp [insertKV, lookupFirst, h]
    · simp [insertKV, lookupFirst, h, ih]

theorem lookupFirst_insertKV_other (es : List (String × Value)) (k k' : String) (v : Value)
    (hne : k' ≠ k) : lookupFirst (insertKV es k v) k' = lookupFirst es k' := by
  induction es with
  | nil =>
    simp only [insertKV, lookupFirst]
    rw [if_neg (fun h => hne h.symm)]
  | cons e rest ih =>
    obtain ⟨ek, ev⟩ := e
    by_cases h : ek = k
    · subst h
      have hne' : ¬ ek = k' := fun hh => hne (hh.symm)
      simp [insertKV, lookupFirst, hne']
    · by_cases h' : ek = k'
      · simp [insertKV, lookupFirst, h, h', hne]
      · simp [insertKV, lookupFirst, h, h', ih]

theorem isObj_iff_exists (v : Value) : v.isObj = true ↔ ∃ es, v = .obj es := by
  cases v with
  | obj es => exact ⟨fun _ => ⟨es, rfl⟩, fun _ => rfl⟩
  | null => exact ⟨fun h => Bool.noConfusion h, fun ⟨es, h⟩ => Value.noConfusion h⟩
  | bool b => exact ⟨fun h => Bool.noConfusion h, fun ⟨es, h⟩ => Value.noConfusion h⟩
  | num n => exact ⟨fun h => Bool.noConfusion h, fun ⟨es, h⟩ => Value.noConfusion h⟩
  | str s => exact ⟨fun h => Bool.noConfusion h, fun ⟨es, h⟩ => Value.noConfusion h⟩
  | arr items => exact ⟨fun h => Bool.noConfusion h, fun ⟨es, h⟩ => Value.noConfusion h⟩

theorem hasKey_obj_iff (se : List (String × Value)) (k : String) :
    hasKey (.obj se) k = true ↔ k ∈ se.map Prod.fst := by
  simp [hasKey, List.any_eq_true, beq_iff_eq, List.mem_map]

theorem validate_ok_iff (c s : Value) :
    validate_json_schema c s = .ok () ↔
      (c.isObj = true ∧ s.isObj = true ∧ ∀ k ∈ keysOf c, hasKey s k = true) := by
  unfold validate_json_schema
  by_cases h1 : (c.isObj && s.isObj) = true
  · by_cases h2 : (keysOf c).all (fun k => hasKey s k) = true
    · rw [if_pos h1, if_pos h2]
      simp only [Bool.and_eq_true] at h1
      constructor
      · intro _
        exact ⟨h1.1, h1.2, fun k hk => List.all_eq_true.mp h2 k hk⟩
      · intro _
        rfl
    · rw [if_pos h1, if_neg h2]
      constructor
      · intro h
        exact Except.noConfusion h
      · rintro ⟨-, -, hall⟩
        exact absurd (List.all_eq_true.mpr hall) h2
  · rw [if_neg h1]
    simp only [Bool.and_eq_true] at h1
    constructor
    · intro h
      exact Except.noConfusion h
    · rintro ⟨hc, hs, -⟩
      exact absurd ⟨hc, hs⟩ h1

theorem validate_ok_or_error (c s : Value) :
    validate_json_schema c s = .ok () ∨
      validate_json_schema c s = .error .SchemaValidationError := by
  unfold validate_json_schema
  by_cases h1 : (c.isObj && s.isObj) = true
  · by_cases h2 : (keysOf c).all (fun k => hasKey s k) = true
    · rw [if_pos h1, if_pos h2]
      exact Or.inl rfl
    · rw [if_pos h1, if_neg h2]
      exact Or.inr rfl
  · rw [if_neg h1]
    exact Or.inr rfl

/-- C4: `validate_json_schema` succeeds exactly when both arguments are objects and
every candidate key occurs among the schema keys; in particular the candidate
`{"name":"John","age":30}` passes against both `{"name":"","age":0}` and
`{"name":"","age":0,"extra_key":""}`, while a candidate key absent from the schema,
or a non-object argument, fails. -/
theorem C4_validate_schema :
    (∀ c s : Value,
      validate_json_schema c s = .ok () ↔
        (∃ ce se, c = .obj ce ∧ s = .obj se ∧
          ∀ k, k ∈ ce.map Prod.fst → k ∈ se.map Prod.fst)) ∧
    validate_json_schema
        (.obj [("name", .str "John"), ("age", .num "30")])
        (.obj [("name", .str ""), ("age", .num "0")]) = .ok () ∧
    validate_json_schema
        (.obj [("name", .str "John"), ("age", .num "30")])
        (.obj [("name", .str ""), ("age", .num "0"), ("extra_key", .str "")]) = .ok () := by
  refine ⟨?_, rfl, rfl⟩
  intro c s
  rw [validate_ok_iff]
  constructor
  · rintro ⟨hc, hs, hall⟩
    obtain ⟨ce, rfl⟩ := (isObj_iff_exists c).mp hc
    obtain ⟨se, rfl⟩ := (isObj_iff_exists s).mp hs
    refine ⟨ce, se, rfl, rfl, ?_⟩
    intro k hk
    have := hall k (by simpa [keysOf] using hk)
    rwa [hasKey_obj_iff] at this
  · rintro ⟨ce, se, rfl, rfl, hall⟩
    refine ⟨rfl, rfl, ?_⟩
    intro k hk
    rw [hasKey_obj_iff]
    exact hall k (by simpa [keysOf] using hk)

/-- C10: the accept/reject answer of `validate_json_schema` depends only on the
top-level key sets of the two objects, not on any stored values or nested structure. -/
theorem C10_validate_depends_only_on_key_sets (c₁ c₂ s₁ s₂ : Value)
    (hc₁ : c₁.isObj = true) (hc₂ : c₂.isObj = true)
    (hs₁ : s₁.isObj = true) (hs₂ : s₂.isObj = true)
    (hc : ∀ k, k ∈ keysOf c₁ ↔ k ∈ keysOf c₂)
    (hs : ∀ k, k ∈ keysOf s₁ ↔ k ∈ keysOf s₂) :
    validate_json_schema c₁ s₁ = validate_json_schema c₂ s₂ := by
  obtain ⟨ce₁, rfl⟩ : ∃ ce, c₁ = .obj ce := by
    cases c₁ <;> simp [Value.isObj] at hc₁ ⊢
  obtain ⟨ce₂, rfl⟩ : ∃ ce, c₂ = .obj ce := by
    cases c₂ <;> simp [Value.isObj] at hc₂ ⊢
  obtain ⟨se₁, rfl⟩ : ∃ se, s₁ = .obj se := by
    cases s₁ <;> simp [Value.isObj] at hs₁ ⊢
  obtain ⟨se₂, rfl⟩ : ∃ se, s₂ = .obj se := by
    cases s₂ <;> simp [Value.isObj] at hs₂ ⊢
  have hk₁ : ∀ k, hasKey (Value.obj se₁) k = true ↔ hasKey (Value.obj se₂) k = true := by
    intro k
    rw [hasKey_obj_iff, hasKey_obj_iff]
    simpa [keysOf] using hs k
  have key : validate_json_schema (.obj ce₁) (.obj se₁) = .ok () ↔
      validate_json_schema (.obj ce₂) (.obj se₂) = .ok () := by
    rw [validate_ok_iff, validate_ok_iff]
    constructor
    · rintro ⟨-, -, hall⟩
      refine ⟨rfl, rfl, fun k hk => ?_⟩
      exact (hk₁ k).mp (hall k ((hc k).mpr hk))
    · rintro ⟨-, -, hall⟩
      refine ⟨rfl, rfl, fun k hk => ?_⟩
      exact (hk₁ k).mpr (hall k ((hc k).mp hk))
  rcases validate_ok_or_error (.obj ce₁) (.obj se₁) with h₁ | h₁ <;>
    rcases validate_ok_or_error (.obj ce₂) (.obj se₂) with h₂ | h₂ <;>
      simp_all

/-- Witness for C10 at concrete inputs: same key sets, different stored values. -/
theorem C10_validate_depends_only_on_key_sets_witness :
    validate_json_schema (.obj [("a", .str "x")]) (.obj [("a", .null)]) =
      validate_json_schema (.obj [("a", .num "1")]) (.obj [("a", .obj [])]) :=
  C10_validate_depends_only_on_key_sets
    (.obj [("a", .str "x")]) (.obj [("a", .num "1")])
    (.obj [("a", .null)]) (.obj [("a", .obj [])])
    rfl rfl rfl rfl
    (by intro k; simp [keysOf]) (by intro k; simp [keysOf])

/-- C9: `edit_json` on a non-object fails and leaves the value unchanged; on an object
it succeeds and changes exactly the entry of the given key, leaving every other
key's lookup unchanged. -/
theorem C9_edit_json (v : Value) (key : String) (nv : Value) :
    ((¬ ∃ es, v = .obj es) → edit_json v key nv = (false, v)) ∧
    (∀ es, v = .obj es →
      ∃ es', edit_json v key nv = (true, .obj es') ∧
        lookupFirst es' key = some nv ∧
        ∀ k', k' ≠ key → lookupFirst es' k' = lookupFirst es k') := by
  constructor
  · intro hno
    cases v with
    | obj es => exact absurd ⟨es, rfl⟩ hno
    | null => rfl
    | bool b => rfl
    | num n => rfl
    | str s => rfl
    | arr items => rfl
  · rintro es rfl
    exact ⟨insertKV es key nv, rfl, lookupFirst_insertKV_self es key nv,
      fun k' hk' => lookupFirst_insertKV_other es key k' nv hk'⟩

/-- Witness for C9 at a concrete non-object and a concrete object. -/
theorem C9_edit_json_witness :
    edit_json (.str "x") "age" (.num "35") = (false, .str "x") ∧
    ∃ es', edit_json (.obj [("name", .str "John"), ("age", .num "30")]) "age" (.num "35") =
        (true, .obj es') ∧
      lookupFirst es' "age" = some (.num "35") ∧
      ∀ k', k' ≠ "age" →
        lookupFirst es' k' = lookupFirst [("name", .str "John"), ("age", .num "30")] k' :=
  ⟨(C9_edit_json (.str "x") "age" (.num "35")).1 (by rintro ⟨es, h⟩; cases h),
    (C9_edit_json (.obj [("name", .str "John"), ("age", .num "30")]) "age" (.num "35")).2
      [("name", .str "John"), ("age", .num "30")] rfl⟩

/-! ## Decimal rendering and `usize` parsing

`get_by_path` and `search_by_value` print and parse decimal indices.  `Nat.repr` is
the embedding of Rust's decimal `Display`; the fuel-free `decDigits` below is its
proof-friendly description, and `parseUsize` embeds `usize::from_str`. -/

/-- The decimal digit characters of `n`, most significant first. -/
def decDigits (n : Nat) : List Char :=
  if _ : n < 10 then [Nat.digitChar n]
  else decDigits (n / 10) ++ [Nat.digitChar (n % 10)]
decreasing_by exact Nat.div_lt_self (by omega) (by omega)

theorem toDigitsCore_eq_decDigits :
    ∀ (f n : Nat) (acc : List Char), n < f →
      Nat.toDigitsCore 10 f n acc = decDigits n ++ acc := by
  intro f
  induction f with
  | zero => intro n acc h; omega
  | succ f ih =>
    intro n acc h
    show (if n / 10 = 0 then Nat.digitChar (n % 10) :: acc
          else Nat.toDigitsCore 10 f (n / 10) (Nat.digitChar (n % 10) :: acc)) = _
    by_cases h0 : n / 10 = 0
    · have hn : n < 10 := by omega
      rw [if_pos h0, decDigits, dif_pos hn, Nat.mod_eq_of_lt hn]
      rfl
    · have hge : 10 ≤ n := by
        by_contra hlt
        exact h0 (Nat.div_eq_of_lt (by omega))
      have hdiv : n / 10 < f := by
        have := Nat.div_lt_self (by omega : 0 < n) (by omega : 1 < 10)
        omega
      rw [if_neg h0, ih (n / 10) _ hdiv]
      conv_rhs => rw [decDigits]
      rw [dif_neg (show ¬ n < 10 by omega), List.append_assoc]
      rfl

theorem nat_repr_eq_decDigits (n : Nat) : Nat.repr n = String.mk (decDigits n) := by
  show (Nat.toDigits 10 n).asString = _
  rw [Nat.toDigits, toDigitsCore_eq_decDigits (n + 1) n [] (by omega), List.append_nil]
  rfl

theorem digitChar_isDigit (m : Nat) (h : m < 10) : (Nat.digitChar m).isDigit = true := by
  interval_cases m <;> decide

theorem digitChar_toNat (m : Nat) (h : m < 10) : (Nat.digitChar m).toNat = 48 + m := by
  interval_cases m <;> decide

theorem decDigits_all_isDigit (n : Nat) : ∀ c ∈ decDigits n, c.isDigit = true := by
  induction n using Nat.strong_induction_on with
  | _ n ih =>
    by_cases h : n < 10
    · rw [decDigits, dif_pos h]
      intro c hc
      simp only [List.mem_singleton] at hc
      exact hc ▸ digitChar_isDigit n h
    · rw [decDigits, dif_neg h]
      intro c hc
      rcases List.mem_append.mp hc with hc | hc
      · exact ih (n / 10) (Nat.div_lt_self (by omega) (by omega)) c hc
      · simp only [List.mem_singleton] at hc
        exact hc ▸ digitChar_isDigit (n % 10) (Nat.mod_lt n (by omega))

theorem decDigits_ne_nil (n : Nat) : decDigits n ≠ [] := by
  by_cases h : n < 10
  · rw [decDigits, dif_pos h]
    exact fun hh => List.noConfusion hh
  · rw [decDigits, dif_neg h]
    simp

theorem decDigits_foldl (n : Nat) :
    ∃ M, 0 < M ∧ ∀ a : Nat,
      List.foldl (fun a c => a * 10 + (c.toNat - 48)) a (decDigits n) = a * M + n := by
  induction n using Nat.strong_induction_on with
  | _ n ih =>
    by_cases h : n < 10
    · refine ⟨10, by omega, fun a => ?_⟩
      rw [decDigits, dif_pos h]
      simp [List.foldl, digitChar_toNat n h]
    · obtain ⟨M, hM, hfold⟩ := ih (n / 10) (Nat.div_lt_self (by omega) (by omega))
      refine ⟨M * 10, by positivity, fun a => ?_⟩
      rw [decDigits, dif_neg h, List.foldl_append, hfold a]
      simp only [List.foldl]
      rw [digitChar_toNat (n % 10) (Nat.mod_lt n (by omega))]
      have := Nat.div_add_mod n 10
      ring_nf
      omega

/-- Digit-run parsing inside `usize::from_str`: one or more ASCII decimal digits,
rejected on empty input, other characters, or overflow past `usize::MAX`. -/
def parseDigitRun (ds : List Char) : Option Nat :=
  if !ds.isEmpty && ds.all Char.isDigit then
    if ds.foldl (fun a c => a * 10 + (c.toNat - 48)) 0 < 2 ^ 64 then
      some (ds.foldl (fun a c => a * 10 + (c.toNat - 48)) 0)
    else
      none
  else
    none

/-- `usize::from_str`: an optional leading `+`, then a digit run. -/
def parseUsize (s : String) : Option Nat :=
  parseDigitRun (if s.toList.head? = some '+' then s.toList.tail else s.toList)

theorem parseDigitRun_decDigits (i : Nat) (h : i < 2 ^ 64) :
    parseDigitRun (decDigits i) = some i := by
  unfold parseDigitRun
  have hne : (decDigits i).isEmpty = false := by
    rcases hd : decDigits i with _ | ⟨c, rest⟩
    · exact absurd hd (decDigits_ne_nil i)
    · rfl
  have hall : (decDigits i).all Char.isDigit = true :=
    List.all_eq_true.mpr (fun c hc => decDigits_all_isDigit i c hc)
  rw [hne, hall]
  obtain ⟨M, -, hfold⟩ := decDigits_foldl i
  simp only [Bool.not_false, Bool.and_self, if_true, hfold 0, Nat.zero_mul, Nat.zero_add]
  rw [if_pos h]

theorem parseUsize_mk_decDigits (i : Nat) (h : i < 2 ^ 64) :
    parseUsize (String.mk (decDigits i)) = some i := by
  have hhead : (String.mk (decDigits i)).toList.head? ≠ some '+' := by
    intro hh
    rcases hd : decDigits i with _ | ⟨c, rest⟩
    · exact decDigits_ne_nil i hd
    · have htl : (String.mk (decDigits i)).toList = c :: rest := by rw [← hd]; rfl
      rw [htl] at hh
      have hc : c = '+' := by simpa using hh
      have hdig := decDigits_all_isDigit i c (hd ▸ List.mem_cons_self c rest)
      rw [hc] at hdig
      exact absurd hdig (by decide)
  unfold parseUsize
  rw [if_neg hhead]
  exact parseDigitRun_decDigits i h

theorem parseUsize_repr (i : Nat) (h : i < 2 ^ 64) : parseUsize (Nat.repr i) = some i := by
  rw [nat_repr_eq_decDigits]
  exact parseUsize_mk_decDigits i h

/-! ## `get_by_path` -/

/-- Result of a Rust computation that can panic: either a value or an aborted process. -/
inductive RustResult (α : Type) where
  | ok (val : α)
  | panic

/-- First index of character `c` (Rust `str::find`).  The Rust function returns a byte
index; every path segment is sliced at the positions of ASCII `[` and `]`, where byte
and character positions select the same prefixes and infixes, so character indices
model the slicing faithfully. -/
def firstIdx (c : Char) : List Char → Option Nat
  | [] => none
  | x :: rest => if x = c then some 0 else (firstIdx c rest).map (· + 1)

/-- Rust `str::split('.')`: every `.` separates two (possibly empty) parts, and the
empty string yields one empty part. -/
def splitDots : List Char → List (List Char)
  | [] => [[]]
  | c :: rest =>
    if c = '.' then
      [] :: splitDots rest
    else
      match splitDots rest with
      | p :: ps => (c :: p) :: ps
      | [] => [[c]]

/-- The per-segment loop of `get_by_path`.  A segment containing `[` and `]` is split
at the first occurrence of each; Rust's slice `part[i+1..j]` panics when `i + 1 > j`
(the first `]` precedes the first `[`), modelled by `RustResult.panic`; `unwrap` of a
failed `find` is likewise a panic (unreachable under the `contains` guard). -/
def getByPathParts (current : Value) : List String → RustResult (Option Value)
  | [] => .ok (some current)
  | part :: rest =>
    if part.toList.contains '[' && part.toList.contains ']' then
      match firstIdx '[' part.toList, firstIdx ']' part.toList with
      | some i, some j =>
        if i + 1 > j then
          .panic
        else
          let name := String.mk (part.toList.take i)
          let idxStr := String.mk ((part.toList.drop (i + 1)).take (j - (i + 1)))
          match parseUsize idxStr with
          | none => .ok none
          | some index =>
            match current.getKey name with
            | none => .ok none
            | some v =>
              match v.getIdx index with
              | none => .ok none
              | some v' => getByPathParts v' rest
      | _, _ => .panic
    else
      match current.getKey part with
      | none => .ok none
      | some v => getByPathParts v rest

/-- `get_by_path` from `parser.rs`: split the path on `.` and walk the segments. -/
def get_by_path (json : Value) (json_path : String) : RustResult (Option Value) :=
  getByPathParts json ((splitDots json_path.toList).map String.mk)

/-- A structurally well-formed path segment: a bare object key, or a key with one
array index. -/
inductive Seg where
  | key (k : String)
  | keyIdx (k : String) (i : Nat)

/-- The textual form of a segment, as the path grammar `segment(.segment)*` writes it. -/
def renderSeg : Seg → String
  | .key k => k
  | .keyIdx k i => k ++ "[" ++ Nat.repr i ++ "]"

/-- Specification-level path resolution: descend into the object key, then (for an
indexed segment) into the array element; any miss resolves to `none`. -/
def resolveSegs : Value → List Seg → Option Value
  | v, [] => some v
  | v, .key k :: rest =>
    match v.getKey k with
    | none => none
    | some v' => resolveSegs v' rest
  | v, .keyIdx k i :: rest =>
    match v.getKey k with
    | none => none
    | some v' =>
      match v'.getIdx i with
      | none => none
      | some v'' => resolveSegs v'' rest

/-- Keys may not contain the bracket characters (those delimit indices in the path
grammar) and indices must fit in `usize`. -/
def segWF : Seg → Prop
  | .key k => ('[' ∉ k.toList) ∧ (']' ∉ k.toList)
  | .keyIdx k i => ('[' ∉ k.toList) ∧ (']' ∉ k.toList) ∧ i < 2 ^ 64

theorem firstIdx_eq_length_append (c : Char) (xs ys : List Char) (h : ∀ x ∈ xs, x ≠ c) :
    firstIdx c (xs ++ c :: ys) = some xs.length := by
  induction xs with
  | nil => simp [firstIdx]
  | cons x rest ih =>
    have hx : ¬ x = c := h x (List.mem_cons_self x rest)
    show (if x = c then some 0 else (firstIdx c (rest ++ c :: ys)).map (· + 1)) = _
    rw [if_neg hx, ih (fun y hy => h y (List.mem_cons_of_mem x hy))]
    rfl

theorem contains_of_mem {c : Char} {xs : List Char} (h : c ∈ xs) : xs.contains c = true := by
  simp [List.contains, List.elem_iff, h]

theorem contains_eq_false_of_not_mem {c : Char} {xs : List Char} (h : c ∉ xs) :
    xs.contains c = false := by
  cases hc : xs.contains c
  · rfl
  · exact absurd (by simpa [List.contains, List.elem_iff] using hc) h

theorem renderSeg_keyIdx_toList (k : String) (i : Nat) :
    (renderSeg (.keyIdx k i)).toList = k.toList ++ '[' :: (decDigits i ++ [']']) := by
  show (k ++ "[" ++ Nat.repr i ++ "]").toList = _
  rw [nat_repr_eq_decDigits]
  show ((k.toList ++ ['[']) ++ decDigits i) ++ [']'] = _
  simp [List.append_assoc]

/-- On a path whose segments are well formed, `get_by_path`'s loop never panics and
computes exactly the specification-level resolution. -/
theorem getByPathParts_renderSegs (segs : List Seg) (v : Value)
    (hwf : ∀ s ∈ segs, segWF s) :
    getByPathParts v (segs.map renderSeg) = .ok (resolveSegs v segs) := by
  induction segs generalizing v with
  | nil => rfl
  | cons seg rest ih =>
    have hwfs := hwf seg (List.mem_cons_self seg rest)
    have hwfr : ∀ s ∈ rest, segWF s := fun s hs => hwf s (List.mem_cons_of_mem seg hs)
    cases seg with
    | key k =>
      obtain ⟨hk1, _⟩ := hwfs
      have hmk : renderSeg (Seg.key k) = k := rfl
      have hcond : (k.toList.contains '[' && k.toList.contains ']') = false := by
        rw [contains_eq_false_of_not_mem hk1, Bool.false_and]
      show (if (k.toList.contains '[' && k.toList.contains ']') = true
          then _ else _) = _
      rw [hcond]
      simp only [Bool.false_eq_true, if_false]
      rw [hmk]
      rcases hk : v.getKey k with _ | v'
      · simp [resolveSegs, hk]
      · simp only [resolveSegs, hk]
        exact ih v' hwfr
    | keyIdx k i =>
      obtain ⟨hk1, hk2, hlt⟩ := hwfs
      have hpart := renderSeg_keyIdx_toList k i
      have hmem1 : '[' ∈ (renderSeg (.keyIdx k i)).toList := by
        rw [hpart]
        exact List.mem_append.mpr (Or.inr (List.mem_cons_self _ _))
      have hmem2 : ']' ∈ (renderSeg (.keyIdx k i)).toList := by
        rw [hpart]
        refine List.mem_append.mpr (Or.inr (List.mem_cons_of_mem _ ?_))
        exact List.mem_append.mpr (Or.inr (List.mem_singleton_self _))
      have hcond : ((renderSeg (.keyIdx k i)).toList.contains '[' &&
          (renderSeg (.keyIdx k i)).toList.contains ']') = true := by
        rw [contains_of_mem hmem1, contains_of_mem hmem2]
        rfl
      have hfind1 : firstIdx '[' (renderSeg (.keyIdx k i)).toList = some k.toList.length := by
        rw [hpart]
        exact firstIdx_eq_length_append '[' k.toList _
          (fun x hx he => hk1 (he ▸ hx))
      have hfind2 : firstIdx ']' (renderSeg (.keyIdx k i)).toList =
          some ((k.toList ++ '[' :: decDigits i).length) := by
        have hsh : (renderSeg (.keyIdx k i)).toList =
            (k.toList ++ '[' :: decDigits i) ++ (']' :: []) := by
          rw [hpart]
          simp [List.append_assoc]
        rw [hsh]
        refine firstIdx_eq_length_append ']' _ _ ?_
        intro x hx
        rcases List.mem_append.mp hx with hx | hx
        · exact fun he => hk2 (he ▸ hx)
        · rcases List.mem_cons.mp hx with hx | hx
          · subst hx
            decide
          · intro he
            have := decDigits_all_isDigit i x hx
            rw [he] at this
            exact absurd this (by decide)
      have hlen2 : (k.toList ++ '[' :: decDigits i).length =
          k.toList.length + 1 + (decDigits i).length := by
        simp [List.length_append, List.length_cons]
        omega
      show (if ((renderSeg (.keyIdx k i)).toList.contains '[' &&
          (renderSeg (.keyIdx k i)).toList.contains ']') = true then _ else _) = _
      rw [hcond]
      simp only [if_true]
      rw [hfind1, hfind2, hlen2]
      show (if k.toList.length + 1 > k.toList.length + 1 + (decDigits i).length
          then RustResult.panic else _) = _
      rw [if_neg (by omega)]
      have hname : String.mk ((renderSeg (.keyIdx k i)).toList.take k.toList.length) = k := by
        rw [hpart, List.take_left' rfl]
        cases k
        rfl
      have hidxStr :
          String.mk (((renderSeg (.keyIdx k i)).toList.drop (k.toList.length + 1)).take
            (k.toList.length + 1 + (decDigits i).length - (k.toList.length + 1))) =
          String.mk (decDigits i) := by
        have hsh : (renderSeg (.keyIdx k i)).toList =
            (k.toList ++ ['[']) ++ (decDigits i ++ [']']) := by
          rw [hpart]
          simp [List.append_assoc]
        rw [hsh, List.drop_left' (by simp)]
        have : k.toList.length + 1 + (decDigits i).length - (k.toList.length + 1) =
            (decDigits i).length := by omega
        rw [this, List.take_left' rfl]
      rw [hname, hidxStr, parseUsize_mk_decDigits i hlt]
      rcases hk : v.getKey k with _ | v'
      · simp [resolveSegs, hk]
      · rcases hidx : v'.getIdx i with _ | v''
        · simp [resolveSegs, hk, hidx]
        · simp only [resolveSegs, hk, hidx]
          exact ih v'' hwfr

/-- C2: `get_by_path` is claimed total with `None` on every malformed segment, but on
a segment whose `]` precedes its `[` the Rust slice `part[i+1..j]` has its start
beyond its end and panics.  The other miss conditions named by the claim (missing
key, non-container mid-path, out-of-range index, non-numeric index) do yield `None`. -/
theorem C2_get_by_path_panics :
    get_by_path (.obj []) "]0[" = .panic ∧
    get_by_path (.obj [("a", .str "x")]) "b" = .ok none ∧
    get_by_path (.obj [("a", .str "x")]) "a.b" = .ok none ∧
    get_by_path (.obj [("a", .arr [.str "x"])]) "a[5]" = .ok none ∧
    get_by_path (.obj [("a", .arr [.str "x"])]) "a[z]" = .ok none :=
  ⟨rfl, rfl, rfl, rfl, rfl⟩

/-- C7: on the documented example tree the path `data.items[1].name` resolves to
`"Item2"`, and on every tree, any path made of well-formed segments that misses
(in particular through a key absent at any depth) yields `None`. -/
theorem C7_get_by_path :
    get_by_path
        (.obj [("data", .obj [("items", .arr [.obj [("name", .str "Item1")],
          .obj [("name", .str "Item2")]])])])
        "data.items[1].name" = .ok (some (.str "Item2")) ∧
    ∀ (tree : Value) (path : String) (segs : List Seg),
      (splitDots path.toList).map String.mk = segs.map renderSeg →
      (∀ s ∈ segs, segWF s) →
      resolveSegs tree segs = none →
      get_by_path tree path = .ok none := by
  constructor
  · rfl
  · intro tree path segs hsplit hwf hres
    unfold get_by_path
    rw [hsplit, getByPathParts_renderSegs segs tree hwf, hres]

/-- Witness for C7's universal part: a key missing from the root object. -/
theorem C7_get_by_path_witness : get_by_path (.obj []) "missing" = .ok none :=
  C7_get_by_path.2 (.obj []) "missing" [.key "missing"] rfl
    (by
      intro s hs
      rcases List.mem_singleton.mp hs with rfl
      exact ⟨by decide, by decide⟩)
    rfl

/-! ## `search_by_value` -/

/-- `str::trim_start_matches('.')`: drop every leading `.`. -/
def trimDots (s : String) : String :=
  String.mk (s.toList.dropWhile (fun c => c = '.'))

/-- `search_recursive` from `parser.rs`.  The Rust function pushes into a `&mut Vec`;
the embedding returns the pushed paths in push order.  Object entries are visited in
stored order, the matching check happens before descending into the entry's value,
and array elements are visited by ascending index; non-container values contribute
nothing (in particular a `String` that is an array element or the root is never
checked against the target). -/
def search_recursive (json : Value) (target : String) (path : String) : List String :=
  match json with
  | .obj entries => goObj entries target path
  | .arr items => goArr items target path 0
  | _ => []
where
  goObj : List (String × Value) → String → String → List String
    | [], _, _ => []
    | (key, value) :: rest, target, path =>
      let new_path := trimDots (path ++ "." ++ key)
      (match value with
       | .str s => if s = target then [new_path] else []
       | _ => []) ++ search_recursive value target new_path ++ goObj rest target path
  goArr : List Value → String → String → Nat → List String
    | [], _, _, _ => []
    | item :: rest, target, path, index =>
      search_recursive item target (path ++ "[" ++ Nat.repr index ++ "]") ++
        goArr rest target path (index + 1)

/-- `search_by_value` from `parser.rs`. -/
def search_by_value (json : Value) (target_value : String) : List String :=
  search_recursive json target_value ""

/-- One step of a root-relative tree address. -/
inductive Step where
  | key (k : String)
  | idx (i : Nat)

/-- Claim-literal leaf enumeration: every `String` leaf anywhere in the tree — object
entry values, array elements, and a root `String` — with its address, in depth-first
order (object entries in stored order, array elements by ascending index). -/
def strLeaves : Value → List (List Step × String)
  | .str s => [([], s)]
  | .obj entries => goObj entries
  | .arr items => goArr items 0
  | _ => []
where
  goObj : List (String × Value) → List (List Step × String)
    | [] => []
    | (k, v) :: rest =>
      (strLeaves v).map (fun pr => (Step.key k :: pr.1, pr.2)) ++ goObj rest
  goArr : List Value → Nat → List (List Step × String)
    | [], _ => []
    | v :: rest, i =>
      (strLeaves v).map (fun pr => (Step.idx i :: pr.1, pr.2)) ++ goArr rest (i + 1)

/-- Claim-literal path rendering: keys are dot-separated with the leading separator
trimmed at the root, indices are a `[i]` suffix with no separator before the bracket. -/
def renderLit (steps : List Step) : String :=
  steps.foldl
    (fun acc st =>
      match st with
      | .key k => if acc = "" then k else acc ++ "." ++ k
      | .idx i => acc ++ "[" ++ Nat.repr i ++ "]")
    ""

/-- The claim-literal reading of the search contract: the rendered addresses of all
`String` leaves equal to the target, in traversal order. -/
def searchLit (v : Value) (target : String) : List String :=
  ((strLeaves v).filter (fun pr => pr.2 == target)).map (fun pr => renderLit pr.1)

/-- Leaf enumeration matching the code: only `String` values of object entries count
as reportable leaves; array elements and a root `String` are skipped. -/
def objLeaves : Value → List (List Step × String)
  | .obj entries => goObj entries
  | .arr items => goArr items 0
  | _ => []
where
  goObj : List (String × Value) → List (List Step × String)
    | [] => []
    | (k, v) :: rest =>
      (match v with
       | .str s => [([Step.key k], s)]
       | _ => []) ++
        (objLeaves v).map (fun pr => (Step.key k :: pr.1, pr.2)) ++ goObj rest
  goArr : List Value → Nat → List (List Step × String)
    | [], _ => []
    | v :: rest, i =>
      (objLeaves v).map (fun pr => (Step.idx i :: pr.1, pr.2)) ++ goArr rest (i + 1)

/-- Path rendering matching the code: at each key step the separator is prepended and
then every leading `.` of the accumulated path is trimmed. -/
def renderFrom (p : String) (steps : List Step) : String :=
  steps.foldl
    (fun acc st =>
      match st with
      | .key k => trimDots (acc ++ "." ++ k)
      | .idx i => acc ++ "[" ++ Nat.repr i ++ "]")
    p

/-- The amended search contract: rendered addresses of the object-entry `String`
leaves equal to the target, in traversal order. -/
def searchAmended (v : Value) (target : String) : List String :=
  ((objLeaves v).filter (fun pr => pr.2 == target)).map (fun pr => renderFrom "" pr.1)

/-- Structural induction for `Value` through its nested lists. -/
def value_induction (P : Value → Prop)
    (hnull : P .null) (hbool : ∀ b, P (.bool b)) (hnum : ∀ n, P (.num n))
    (hstr : ∀ s, P (.str s))
    (harr : ∀ items, (∀ v ∈ items, P v) → P (.arr items))
    (hobj : ∀ entries, (∀ kv ∈ entries, P kv.2) → P (.obj entries)) :
    ∀ v, P v := fun v =>
  match v with
  | .null => hnull
  | .bool b => hbool b
  | .num n => hnum n
  | .str s => hstr s
  | .arr items => harr items (goList items)
  | .obj entries => hobj entries (goEntries entries)
where
  goList : ∀ (items : List Value), ∀ v ∈ items, P v
    | [] => fun v hv => absurd hv (List.not_mem_nil v)
    | x :: rest => by
      intro v hv
      rcases List.mem_cons.mp hv with h | h
      · exact h ▸ value_induction P hnull hbool hnum hstr harr hobj x
      · exact goList rest v h
  goEntries : ∀ (entries : List (String × Value)), ∀ kv ∈ entries, P kv.2
    | [] => fun kv hkv => absurd hkv (List.not_mem_nil kv)
    | (k, x) :: rest => by
      intro kv hkv
      rcases List.mem_cons.mp hkv with h | h
      · exact h ▸ value_induction P hnull hbool hnum hstr harr hobj x
      · exact goEntries rest kv h

theorem renderFrom_key (p k : String) (steps : List Step) :
    renderFrom p (Step.key k :: steps) = renderFrom (trimDots (p ++ "." ++ k)) steps := rfl

theorem renderFrom_idx (p : String) (i : Nat) (steps : List Step) :
    renderFrom p (Step.idx i :: steps) = renderFrom (p ++ "[" ++ Nat.repr i ++ "]") steps := rfl

/-- The effect of one rendering step: filtering and rendering after prefixing every
address with `st` is rendering from the extended accumulated path. -/
theorem filter_render_step (p : String) (st : Step) (t : String)
    (l : List (List Step × String)) :
    ((l.map (fun pr => (st :: pr.1, pr.2))).filter (fun pr => pr.2 == t)).map
        (fun pr => renderFrom p pr.1) =
      (l.filter (fun pr => pr.2 == t)).map
        (fun pr => renderFrom
          (match st with
           | .key k => trimDots (p ++ "." ++ k)
           | .idx i => p ++ "[" ++ Nat.repr i ++ "]") pr.1) := by
  induction l with
  | nil => rfl
  | cons x rest ih =>
    obtain ⟨steps, s⟩ := x
    by_cases h : (s == t) = true
    · simp only [List.map_cons, List.filter_cons, h, if_true]
      rw [ih]
      cases st <;> rfl
    · have hf : (s == t) = false := by simpa using h
      simp only [List.map_cons, List.filter_cons, hf, Bool.false_eq_true, if_false]
      exact ih

theorem search_recursive_eq_spec (v : Value) :
    ∀ t p, search_recursive v t p =
      ((objLeaves v).filter (fun pr => pr.2 == t)).map (fun pr => renderFrom p pr.1) := by
  induction v using value_induction with
  | hnull => intro t p; rfl
  | hbool b => intro t p; rfl
  | hnum n => intro t p; rfl
  | hstr s => intro t p; rfl
  | harr items ih =>
    intro t p
    suffices h : ∀ (its : List Value) (i : Nat), (∀ v ∈ its, ∀ t p,
        search_recursive v t p =
          ((objLeaves v).filter (fun pr => pr.2 == t)).map (fun pr => renderFrom p pr.1)) →
        search_recursive.goArr its t p i =
          ((objLeaves.goArr its i).filter (fun pr => pr.2 == t)).map
            (fun pr => renderFrom p pr.1) by
      exact h items 0 ih
    intro its
    induction its with
    | nil => intro i _; rfl
    | cons x rest ihl =>
      intro i hmem
      have hx := hmem x (List.mem_cons_self x rest)
      have hrest := fun v hv => hmem v (List.mem_cons_of_mem x hv)
      simp only [search_recursive.goArr, objLeaves.goArr]
      rw [hx t (p ++ "[" ++ Nat.repr i ++ "]"), ihl (i + 1) hrest]
      rw [List.filter_append, List.map_append, filter_render_step]
  | hobj entries ih =>
    intro t p
    induction entries with
    | nil => rfl
    | cons kv rest ihl =>
      obtain ⟨k, v⟩ := kv
      have hv := ih (k, v) (List.mem_cons_self _ rest)
      have hrest : ∀ kv' ∈ rest, ∀ t p, search_recursive kv'.2 t p =
          ((objLeaves kv'.2).filter (fun pr => pr.2 == t)).map
            (fun pr => renderFrom p pr.1) :=
        fun kv' hkv' => ih kv' (List.mem_cons_of_mem _ hkv')
      have hrestscope : search_recursive (Value.obj rest) t p =
          ((objLeaves (Value.obj rest)).filter (fun pr => pr.2 == t)).map
            (fun pr => renderFrom p pr.1) := ihl hrest
      simp only [search_recursive, search_recursive.goObj, objLeaves, objLeaves.goObj]
        at hrestscope ⊢
      rw [hv t (trimDots (p ++ "." ++ k)), hrestscope]
      rw [List.filter_append, List.filter_append, List.map_append, List.map_append,
        filter_render_step]
      congr 2
      cases v with
      | str s =>
        by_cases hst : s = t
        · simp only [hst, List.filter_cons, beq_self_eq_true, if_true, List.filter_nil,
            List.map_cons, List.map_nil]
          rfl
        · simp only [List.filter_cons, (by simpa using hst : (s == t) = false)]
          rw [if_neg hst]
          rfl
      | null => rfl
      | bool b => rfl
      | num n => rfl
      | arr its => rfl
      | obj es => rfl

/-- C1 counterexample: on `{".a":"t","b":["t"]}` with target `"t"` the code returns
`["a"]` — the `String` array element `b[0]` is never reported (`search_recursive`
only tests object entry values), and the root key `".a"` loses its own leading dot to
`trim_start_matches('.')` — while the claim's reading of the contract demands
`[".a", "b[0]"]`. -/
theorem C1_search_counterexample :
    searchLit (.obj [(".a", .str "t"), ("b", .arr [.str "t"])]) "t" = [".a", "b[0]"] ∧
    search_by_value (.obj [(".a", .str "t"), ("b", .arr [.str "t"])]) "t" = ["a"] ∧
    search_by_value (.obj [(".a", .str "t"), ("b", .arr [.str "t"])]) "t" ≠
      searchLit (.obj [(".a", .str "t"), ("b", .arr [.str "t"])]) "t" :=
  ⟨rfl, rfl, by decide⟩

/-- C1 (amended): `search_by_value` returns exactly the paths of the `String` leaves
equal to the target that are values of object entries (a `String` array element or a
root `String` is not reported), in depth-first traversal order with object entries in
stored order and array elements by ascending index, array steps rendered as a `[i]`
suffix with no separator before the bracket, and at each object step every leading
`.` of the accumulated path trimmed (which trims the separator at the root, and also
any leading dots of a root-level key). -/
theorem C1_search_by_value_amended (v : Value) (t : String) :
    search_by_value v t = searchAmended v t :=
  search_recursive_eq_spec v t ""

/-! ## Token spans and the value-tree builder

Modelled from the spec: the grammar file `json.pest` is not under `src/`, so the
token-span tree shape follows §3 ("Token-Span — a node tagged with the grammar rule it
matched, the exact matched substring, and an ordered sequence of child Token-Spans")
and the productions of §4.1: a `json` span has the top-level `object`/`array` span as
its first child; an `object` span's children are `pair` spans; a `pair` span's
children are the key `string` span followed by the value span; an `array` span's
children are `value` wrapper spans each holding the element span; a `string` span's
children are `character` and `escape_sequence` spans.  The matched-substring field is
populated where the builder consults it (`number`, `boolean`, `character`,
`escape_sequence`). -/

inductive Rule where
  | json
  | object
  | array
  | pair
  | string
  | number
  | boolean
  | null
  | character
  | escape_sequence
  | value
  deriving Repr, DecidableEq

/-- A pest token span: matched rule, matched text, child spans. -/
inductive Span where
  | mk (rule : Rule) (text : String) (children : List Span)

def Span.rule : Span → Rule
  | .mk r _ _ => r

def Span.text : Span → String
  | .mk _ t _ => t

def Span.children : Span → List Span
  | .mk _ _ cs => cs

/-- One hexadecimal digit's value (`char::to_digit(16)`). -/
def hexVal? (c : Char) : Option Nat :=
  if '0' ≤ c ∧ c ≤ '9' then some (c.toNat - 48)
  else if 'a' ≤ c ∧ c ≤ 'f' then some (c.toNat - 87)
  else if 'A' ≤ c ∧ c ≤ 'F' then some (c.toNat - 55)
  else none

/-- `u32::from_str_radix(s, 16)`: an optional leading `+`, then one or more hex
digits, rejected on empty input, a non-digit, or overflow past `u32::MAX`. -/
def from_str_radix16 (s : String) : Option Nat :=
  let ds := if s.toList.head? = some '+' then s.toList.tail else s.toList
  if ds.isEmpty then none
  else
    match ds.foldl
      (fun acc c =>
        match acc, hexVal? c with
        | some a, some d => some (a * 16 + d)
        | _, _ => none)
      (some 0) with
    | none => none
    | some n => if n < 2 ^ 32 then some n else none

/-- `char::from_u32`: `Some` exactly on Unicode scalar values (not a surrogate in
`0xD800..=0xDFFF`, not above `0x10FFFF`). -/
def from_u32 (n : Nat) : Option Char :=
  if n.isValidChar then some (Char.ofNat n) else none

/-- The escape-sequence arm of `parse_string`: the eight named escapes, then the
`\u` guard decoding the trailing hex digits, anything else an error. -/
def decodeEscape (e : String) : Option String :=
  if e = "\\\"" then some "\""
  else if e = "\\\\" then some "\\"
  else if e = "\\/" then some "/"
  else if e = "\\b" then some "\x08"
  else if e = "\\f" then some "\x0C"
  else if e = "\\n" then some "\n"
  else if e = "\\r" then some "\r"
  else if e = "\\t" then some "\t"
  else if e.toList.take 2 = ['\\', 'u'] then
    match from_str_radix16 (String.mk (e.toList.drop 2)) with
    | none => none
    | some code_point =>
      match from_u32 code_point with
      | none => none
      | some unicode_char => some (String.mk [unicode_char])
  else none

/-- The child loop of `parse_string`: `character` spans pass through, escape spans
decode (any failure aborts with `JsonParseError`), other rules are skipped. -/
def strLoop : List Span → String → Except ParserError String
  | [], result => .ok result
  | .mk r t _ :: rest, result =>
    match r with
    | .character => strLoop rest (result ++ t)
    | .escape_sequence =>
      match decodeEscape t with
      | none => .error .JsonParseError
      | some escaped => strLoop rest (result ++ escaped)
    | _ => strLoop rest result

/-- `parse_string` from `parser.rs`. -/
def parse_string (sp : Span) : Except ParserError String :=
  strLoop sp.children ""

/-- `parse_number` from `parser.rs`.  Modelled from the spec: §3 makes `Number`
lossless and §4.6 notes the conversion guard is "practically unreachable given
grammar pre-validation", so the grammar-matched numeral is kept as is. -/
def parse_number (sp : Span) : Except ParserError String :=
  .ok sp.text

/-- `parse_value`/`parse_object`/`parse_array` from `parser.rs` as one structural
recursion over a span.  `goValue` is `parse_value` on a pest `Pairs` sequence (take
the first span or fail); `goObject` is `parse_object`'s loop (skip non-`pair`
children, decode key then value, `Map::insert`); `goArray` is `parse_array`'s loop
(build each child's inner span sequence, push in order). -/
def parse_value_pair : Span → Except ParserError Value
  | .mk r t cs =>
    match r with
    | .json => goValue cs
    | .object => Value.obj <$> goObject cs []
    | .array => Value.arr <$> goArray cs
    | .string => Value.str <$> parse_string (Span.mk .string t cs)
    | .number => Value.num <$> parse_number (Span.mk .number t cs)
    | .boolean => .ok (.bool (t = "true"))
    | .null => .ok .null
    | _ => .error .JsonParseError
where
  goValue : List Span → Except ParserError Value
    | [] => .error .JsonParseError
    | sp :: _ => parse_value_pair sp
  goObject : List Span → List (String × Value) → Except ParserError (List (String × Value))
    | [], map => .ok map
    | .mk r _ pcs :: rest, map =>
      if r = .pair then
        match pcs with
        | [] => .error .JsonParseError
        | kSpan :: vspans =>
          match parse_string kSpan with
          | .error e => .error e
          | .ok key =>
            match goValue vspans with
            | .error e => .error e
            | .ok value => goObject rest (insertKV map key value)
      else
        goObject rest map
  goArray : List Span → Except ParserError (List Value)
    | [] => .ok []
    | .mk _ _ ecs :: rest =>
      match goValue ecs with
      | .error e => .error e
      | .ok value => (fun vs => value :: vs) <$> goArray rest

/-- `parse_value` from `parser.rs` (on a pest `Pairs` sequence). -/
def parse_value (pairs : List Span) : Except ParserError Value :=
  parse_value_pair.goValue pairs

/-- `parse_object` from `parser.rs`. -/
def parse_object (sp : Span) : Except ParserError Value :=
  Value.obj <$> parse_value_pair.goObject sp.children []

/-- `parse_array` from `parser.rs`. -/
def parse_array (sp : Span) : Except ParserError Value :=
  Value.arr <$> parse_value_pair.goArray sp.children

/-! ## Object construction: duplicate keys and order (C6) -/

/-- Fold `Map::insert` over decoded pairs in source order. -/
def insertAll (map : List (String × Value)) : List (String × Value) → List (String × Value)
  | [] => map
  | (k, v) :: rest => insertAll (insertKV map k v) rest

/-- The value of the last occurrence of `k` among the source pairs. -/
def lookupLast : List (String × Value) → String → Option Value
  | [], _ => none
  | (k', v) :: rest, k =>
    match lookupLast rest k with
    | some v' => some v'
    | none => if k' = k then some v else none

/-- Source keys in order of first occurrence, skipping keys already seen. -/
def newKeys (seen : List String) : List String → List String
  | [] => []
  | k :: rest => if k ∈ seen then newKeys seen rest else k :: newKeys (k :: seen) rest

/-- The decoded (key, value) pairs of an object span's children, in source order:
the pure content of `parse_object`'s loop without the insertions. -/
def decodePairs : List Span → Except ParserError (List (String × Value))
  | [] => .ok []
  | .mk r _ pcs :: rest =>
    if r = .pair then
      match pcs with
      | [] => .error .JsonParseError
      | kSpan :: vspans =>
        match parse_string kSpan with
        | .error e => .error e
        | .ok key =>
          match parse_value_pair.goValue vspans with
          | .error e => .error e
          | .ok value => (fun ps => (key, value) :: ps) <$> decodePairs rest
    else
      decodePairs rest

theorem goObject_eq_insertAll (children : List Span) :
    ∀ map, parse_value_pair.goObject children map =
      (fun ps => insertAll map ps) <$> decodePairs children := by
  induction children with
  | nil => intro map; rfl
  | cons c rest ih =>
    intro map
    obtain ⟨r, t, pcs⟩ := c
    cases r with
    | json => exact ih map
    | object => exact ih map
    | array => exact ih map
    | string => exact ih map
    | number => exact ih map
    | boolean => exact ih map
    | null => exact ih map
    | character => exact ih map
    | escape_sequence => exact ih map
    | value => exact ih map
    | pair =>
      cases pcs with
      | nil => rfl
      | cons kSpan vspans =>
        show (match parse_string kSpan with
              | Except.error e => Except.error e
              | Except.ok key =>
                match parse_value_pair.goValue vspans with
                | Except.error e => Except.error e
                | Except.ok value => parse_value_pair.goObject rest (insertKV map key value)) =
            (fun ps => insertAll map ps) <$>
              (match parse_string kSpan with
               | Except.error e => Except.error e
               | Except.ok key =>
                 match parse_value_pair.goValue vspans with
                 | Except.error e => Except.error e
                 | Except.ok value => (fun ps => (key, value) :: ps) <$> decodePairs rest)
        rcases hps : parse_string kSpan with e | key
        · rfl
        · show (match parse_value_pair.goValue vspans with
                | Except.error e => Except.error e
                | Except.ok value => parse_value_pair.goObject rest (insertKV map key value)) =
              (fun ps => insertAll map ps) <$>
                (match parse_value_pair.goValue vspans with
                 | Except.error e => Except.error e
                 | Except.ok value => (fun ps => (key, value) :: ps) <$> decodePairs rest)
          rcases hgv : parse_value_pair.goValue vspans with e | value
          · rfl
          · show parse_value_pair.goObject rest (insertKV map key value) = _
            rw [ih (insertKV map key value)]
            rcases hdp : decodePairs rest with e | ps
            · rfl
            · rfl

theorem keys_insertKV_mem (map : List (String × Value)) (k : String) (v : Value)
    (h : k ∈ map.map Prod.fst) :
    (insertKV map k v).map Prod.fst = map.map Prod.fst := by
  induction map with
  | nil => simp at h
  | cons e rest ih =>
    obtain ⟨ek, ev⟩ := e
    by_cases hek : ek = k
    · simp [insertKV, hek]
    · have hmem : k ∈ rest.map Prod.fst := by
        rcases List.mem_cons.mp h with h' | h'
        · exact absurd h'.symm hek
        · exact h'
      simp [insertKV, hek, ih hmem]

theorem keys_insertKV_not_mem (map : List (String × Value)) (k : String) (v : Value)
    (h : k ∉ map.map Prod.fst) :
    (insertKV map k v).map Prod.fst = map.map Prod.fst ++ [k] := by
  induction map with
  | nil => simp [insertKV]
  | cons e rest ih =>
    obtain ⟨ek, ev⟩ := e
    have hek : ¬ ek = k := fun hh => h (by simp [hh])
    have hrest : k ∉ rest.map Prod.fst := fun hh => h (by simp [hh])
    simp [insertKV, hek, ih hrest]

theorem nodup_keys_insertKV (map : List (String × Value)) (k : String) (v : Value)
    (h : (map.map Prod.fst).Nodup) : ((insertKV map k v).map Prod.fst).Nodup := by
  by_cases hmem : k ∈ map.map Prod.fst
  · rw [keys_insertKV_mem map k v hmem]
    exact h
  · rw [keys_insertKV_not_mem map k v hmem]
    simp [List.nodup_append, h, hmem]

theorem nodup_keys_insertAll (ps : List (String × Value)) :
    ∀ map, (map.map Prod.fst).Nodup → ((insertAll map ps).map Prod.fst).Nodup := by
  induction ps with
  | nil => intro map h; exact h
  | cons p rest ih =>
    obtain ⟨k, v⟩ := p
    intro map h
    exact ih (insertKV map k v) (nodup_keys_insertKV map k v h)

theorem lookupFirst_insertAll (ps : List (String × Value)) :
    ∀ (map : List (String × Value)) (k : String),
      lookupFirst (insertAll map ps) k =
        match lookupLast ps k with
        | some v => some v
        | none => lookupFirst map k := by
  induction ps with
  | nil => intro map k; rfl
  | cons p rest ih =>
    obtain ⟨k0, v0⟩ := p
    intro map k
    show lookupFirst (insertAll (insertKV map k0 v0) rest) k = _
    rw [ih (insertKV map k0 v0) k]
    rcases hlast : lookupLast rest k with _ | v'
    · by_cases hk : k0 = k
      · subst hk
        simp [lookupLast, hlast, lookupFirst_insertKV_self]
      · simp [lookupLast, hlast, hk,
          lookupFirst_insertKV_other map k0 k v0 (fun hh => hk hh.symm)]
    · simp [lookupLast, hlast]

theorem newKeys_congr (l : List String) :
    ∀ s₁ s₂, (∀ x, x ∈ s₁ ↔ x ∈ s₂) → newKeys s₁ l = newKeys s₂ l := by
  induction l with
  | nil => intro s₁ s₂ _; rfl
  | cons k rest ih =>
    intro s₁ s₂ hiff
    by_cases h : k ∈ s₁
    · simp only [newKeys, if_pos h, if_pos ((hiff k).mp h)]
      exact ih s₁ s₂ hiff
    · simp only [newKeys, if_neg h, if_neg (fun hh => h ((hiff k).mpr hh))]
      refine congrArg (k :: ·) (ih _ _ ?_)
      intro x
      simp [hiff x]

theorem keys_insertAll (ps : List (String × Value)) :
    ∀ map, (insertAll map ps).map Prod.fst =
      map.map Prod.fst ++ newKeys (map.map Prod.fst) (ps.map Prod.fst) := by
  induction ps with
  | nil => intro map; simp [insertAll, newKeys]
  | cons p rest ih =>
    obtain ⟨k, v⟩ := p
    intro map
    show (insertAll (insertKV map k v) rest).map Prod.fst = _
    rw [ih (insertKV map k v)]
    by_cases hmem : k ∈ map.map Prod.fst
    · rw [keys_insertKV_mem map k v hmem]
      show _ = map.map Prod.fst ++ newKeys (map.map Prod.fst) (k :: rest.map Prod.fst)
      rw [newKeys, if_pos hmem]
    · rw [keys_insertKV_not_mem map k v hmem]
      show _ = map.map Prod.fst ++ newKeys (map.map Prod.fst) (k :: rest.map Prod.fst)
      rw [newKeys, if_neg hmem, List.append_assoc]
      refine congrArg (map.map Prod.fst ++ ·) (congrArg (k :: ·) ?_)
      refine newKeys_congr (rest.map Prod.fst) _ _ ?_
      intro x
      simp [or_comm]

/-- C6: whenever `parse_object`'s loop succeeds on an object span's children, the
resulting entry list has pairwise-distinct keys, each key maps to the value of its
last occurrence among the decoded source pairs (last write wins), and the keys appear
in order of first occurrence in the source (insertion order preserved). -/
theorem C6_parse_object_keys (children : List Span) (pairs m' : List (String × Value))
    (hdec : decodePairs children = .ok pairs)
    (hbuild : parse_value_pair.goObject children [] = .ok m') :
    (m'.map Prod.fst).Nodup ∧
    (∀ k, lookupFirst m' k = lookupLast pairs k) ∧
    m'.map Prod.fst = newKeys [] (pairs.map Prod.fst) := by
  have heq := goObject_eq_insertAll children []
  rw [hdec] at heq
  rw [heq] at hbuild
  have hm' : m' = insertAll [] pairs := by
    simpa using hbuild.symm
  subst hm'
  refine ⟨nodup_keys_insertAll pairs [] (by simp), fun k => ?_, ?_⟩
  · rw [lookupFirst_insertAll pairs [] k]
    rcases lookupLast pairs k with _ | v <;> rfl
  · rw [keys_insertAll pairs []]
    rfl

/-- Witness for C6 on a span with the duplicate key `a`: the build keeps `a` at its
first position with its last value, and `b` after it. -/
theorem C6_parse_object_keys_witness :
    ([("a", Value.num "3"), ("b", Value.num "2")].map Prod.fst).Nodup ∧
    (∀ k, lookupFirst [("a", Value.num "3"), ("b", Value.num "2")] k =
      lookupLast [("a", Value.num "1"), ("b", Value.num "2"), ("a", Value.num "3")] k) ∧
    [("a", Value.num "3"), ("b", Value.num "2")].map Prod.fst =
      newKeys [] ([("a", Value.num "1"), ("b", Value.num "2"),
        ("a", Value.num "3")].map Prod.fst) :=
  C6_parse_object_keys
    [Span.mk .pair "" [Span.mk .string "" [Span.mk .character "a" []],
       Span.mk .number "1" []],
     Span.mk .pair "" [Span.mk .string "" [Span.mk .character "b" []],
       Span.mk .number "2" []],
     Span.mk .pair "" [Span.mk .string "" [Span.mk .character "a" []],
       Span.mk .number "3" []]]
    [("a", Value.num "1"), ("b", Value.num "2"), ("a", Value.num "3")]
    [("a", Value.num "3"), ("b", Value.num "2")]
    rfl rfl

/-! ## The grammar engine

Modelled from the spec: `json.pest` is not under `src/`.  §4.1 fixes the productions
(`json := object | array` with surrounding whitespace ignored, `object`, `pair`,
`array`, `value`, `string` with the eight named escapes and `\uXXXX`, `number` with
no leading zero, `boolean`, `null`) and §4.2 fixes the matching discipline
(deterministic PEG: ordered choice, a failed alternative consumes nothing).  The
matchers below consume a prefix of the character list and produce the token span
plus the rest; the recursion is gated by explicit fuel, with the entry point
supplying more fuel than any parse can consume. -/

/-- The implicit whitespace characters. -/
def isWsChar (c : Char) : Bool :=
  c = ' ' || c = '\t' || c = '\r' || c = '\n'

def skipWs (cs : List Char) : List Char :=
  cs.dropWhile isWsChar

/-- A hexadecimal digit (for `\uXXXX`). -/
def isHexChar (c : Char) : Bool :=
  c.isDigit || ('a' ≤ c && c ≤ 'f') || ('A' ≤ c && c ≤ 'F')

/-- The body of a `string` token after the opening quote: a run of `character` and
`escape_sequence` spans up to the closing quote.  The fuel is one unit per consumed
character group; the caller supplies the remaining input length, which always
suffices. -/
def matchStrBody : Nat → List Char → Option (List Span × List Char)
  | 0, _ => none
  | _, [] => none
  | fuel + 1, c :: rest =>
    if c = '"' then
      some ([], rest)
    else if c = '\\' then
      match rest with
      | [] => none
      | e :: rest2 =>
        if e = '"' || e = '\\' || e = '/' || e = 'b' || e = 'f' ||
            e = 'n' || e = 'r' || e = 't' then
          match matchStrBody fuel rest2 with
          | none => none
          | some (sps, r) => some (Span.mk .escape_sequence (String.mk ['\\', e]) [] :: sps, r)
        else if e = 'u' then
          match rest2 with
          | h1 :: h2 :: h3 :: h4 :: rest3 =>
            if isHexChar h1 && isHexChar h2 && isHexChar h3 && isHexChar h4 then
              match matchStrBody fuel rest3 with
              | none => none
              | some (sps, r) =>
                some (Span.mk .escape_sequence (String.mk ['\\', 'u', h1, h2, h3, h4]) [] :: sps, r)
            else none
          | _ => none
        else none
    else
      match matchStrBody fuel rest with
      | none => none
      | some (sps, r) => some (Span.mk .character (String.mk [c]) [] :: sps, r)

/-- `string := '"' (character | escape_sequence)* '"'` (atomic: no inner whitespace
skipping).  The span's children carry the content; the builder never consults a
string span's text. -/
def matchString (cs : List Char) : Option (Span × List Char) :=
  match cs with
  | [] => none
  | c :: rest =>
    if c = '"' then
      match matchStrBody (rest.length + 1) rest with
      | none => none
      | some (sps, r) => some (Span.mk .string "" sps, r)
    else none

/-- `int := "0" | nonzero-digit digit*` (ordered choice, greedy). -/
def matchInt : List Char → Option (List Char × List Char)
  | [] => none
  | c :: rest =>
    if c = '0' then
      some (['0'], rest)
    else if c.isDigit then
      some (c :: rest.takeWhile Char.isDigit, rest.dropWhile Char.isDigit)
    else none

/-- Optional fraction `('.' digit+)?`; an unproductive dot is not consumed. -/
def matchFrac : List Char → List Char × List Char
  | [] => ([], [])
  | c :: rest =>
    if c = '.' then
      let ds := rest.takeWhile Char.isDigit
      if ds.isEmpty then ([], c :: rest)
      else ('.' :: ds, rest.dropWhile Char.isDigit)
    else ([], c :: rest)

/-- Optional exponent `(('e' | 'E') ('+' | '-')? digit+)?`; a failed exponent is not
consumed. -/
def matchExp : List Char → List Char × List Char
  | [] => ([], [])
  | c :: rest =>
    if c = 'e' || c = 'E' then
      match rest with
      | s :: rest2 =>
        if s = '+' || s = '-' then
          let ds := rest2.takeWhile Char.isDigit
          if ds.isEmpty then ([], c :: rest)
          else (c :: s :: ds, rest2.dropWhile Char.isDigit)
        else
          let ds := rest.takeWhile Char.isDigit
          if ds.isEmpty then ([], c :: rest)
          else (c :: ds, rest.dropWhile Char.isDigit)
      | [] => ([], c :: rest)
    else ([], c :: rest)

/-- The optional leading minus sign. -/
def matchSign : List Char → List Char × List Char
  | '-' :: rest => (['-'], rest)
  | cs => ([], cs)

/-- `number := '-'? int frac? exp?` (atomic, greedy); the span records the matched
numeral text. -/
def matchNumber (cs : List Char) : Option (Span × List Char) :=
  match matchInt (matchSign cs).2 with
  | none => none
  | some (ip, cs2) =>
    some (Span.mk .number
      (String.mk ((matchSign cs).1 ++ ip ++ (matchFrac cs2).1 ++ (matchExp (matchFrac cs2).2).1))
      [], (matchExp (matchFrac cs2).2).2)

/-- `boolean := "true" | "false"`. -/
def matchBoolean (cs : List Char) : Option (Span × List Char) :=
  if cs.take 4 = "true".toList then some (Span.mk .boolean "true" [], cs.drop 4)
  else if cs.take 5 = "false".toList then some (Span.mk .boolean "false" [], cs.drop 5)
  else none

/-- `null := "null"`. -/
def matchNull (cs : List Char) : Option (Span × List Char) :=
  if cs.take 4 = "null".toList then some (Span.mk .null "null" [], cs.drop 4)
  else none

mutual
/-- `value := object | array | string | number | boolean | null` (ordered choice). -/
def matchValue : Nat → List Char → Option (Span × List Char)
  | 0, _ => none
  | fuel + 1, cs =>
    match matchObject fuel cs with
    | some r => some r
    | none =>
      match matchArray fuel cs with
      | some r => some r
      | none =>
        match matchString cs with
        | some r => some r
        | none =>
          match matchNumber cs with
          | some r => some r
          | none =>
            match matchBoolean cs with
            | some r => some r
            | none => matchNull cs
termination_by structural fuel => fuel

/-- `object := '\x7b' pair (',' pair)* '\x7d' | '\x7b' '\x7d'`, implicit whitespace
between tokens. -/
def matchObject : Nat → List Char → Option (Span × List Char)
  | 0, _ => none
  | fuel + 1, cs =>
    match cs with
    | [] => none
    | c :: rest =>
      if c = '\x7b' then
        match matchPair fuel (skipWs rest) with
        | some (p1, r1) =>
          match matchPairsTail fuel r1 with
          | some (ps, r2) =>
            match skipWs r2 with
            | c2 :: r3 => if c2 = '\x7d' then some (Span.mk .object "" (p1 :: ps), r3) else none
            | [] => none
          | none => none
        | none =>
          match skipWs rest with
          | c2 :: r3 => if c2 = '\x7d' then some (Span.mk .object "" [], r3) else none
          | [] => none
      else none
termination_by structural fuel => fuel

/-- The `(',' pair)*` loop; a failed iteration consumes nothing. -/
def matchPairsTail : Nat → List Char → Option (List Span × List Char)
  | 0, _ => none
  | fuel + 1, cs =>
    match skipWs cs with
    | c :: rest =>
      if c = ',' then
        match matchPair fuel (skipWs rest) with
        | some (p, r) =>
          match matchPairsTail fuel r with
          | some (ps, r2) => some (p :: ps, r2)
          | none => none
        | none => some ([], cs)
      else some ([], cs)
    | [] => some ([], cs)
termination_by structural fuel => fuel

/-- `pair := string ':' value`, implicit whitespace between tokens. -/
def matchPair : Nat → List Char → Option (Span × List Char)
  | 0, _ => none
  | fuel + 1, cs =>
    match matchString cs with
    | none => none
    | some (kSpan, r1) =>
      match skipWs r1 with
      | c :: r2 =>
        if c = ':' then
          match matchValue fuel (skipWs r2) with
          | some (vSpan, r3) => some (Span.mk .pair "" [kSpan, vSpan], r3)
          | none => none
        else none
      | [] => none
termination_by structural fuel => fuel

/-- `array := '[' value (',' value)* ']' | '[' ']'`; each element span is wrapped in
a `value` span, whose inner pairs the builder unwraps with `into_inner`. -/
def matchArray : Nat → List Char → Option (Span × List Char)
  | 0, _ => none
  | fuel + 1, cs =>
    match cs with
    | [] => none
    | c :: rest =>
      if c = '[' then
        match matchValue fuel (skipWs rest) with
        | some (v1, r1) =>
          match matchElemsTail fuel r1 with
          | some (vs, r2) =>
            match skipWs r2 with
            | c2 :: r3 =>
              if c2 = ']' then
                some (Span.mk .array ""
                  ((Span.mk .value "" [v1]) :: vs.map (fun sp => Span.mk .value "" [sp])), r3)
              else none
            | [] => none
          | none => none
        | none =>
          match skipWs rest with
          | c2 :: r3 => if c2 = ']' then some (Span.mk .array "" [], r3) else none
          | [] => none
      else none
termination_by structural fuel => fuel

/-- The `(',' value)*` loop; a failed iteration consumes nothing. -/
def matchElemsTail : Nat → List Char → Option (List Span × List Char)
  | 0, _ => none
  | fuel + 1, cs =>
    match skipWs cs with
    | c :: rest =>
      if c = ',' then
        match matchValue fuel (skipWs rest) with
        | some (v, r) =>
          match matchElemsTail fuel r with
          | some (vs, r2) => some (v :: vs, r2)
          | none => none
        | none => some ([], cs)
      else some ([], cs)
    | [] => some ([], cs)
termination_by structural fuel => fuel
end

/-- The fuel supplied by the entry point: far more than one step per character plus
slack, so no grammatical parse can exhaust it. -/
def jsonFuel (cs : List Char) : Nat :=
  8 * cs.length + 8

/-- `JSONParser::parse(Rule::json, s)`: `json := object | array` with surrounding
whitespace ignored and end of input required; the result is the `json` span with the
top-level span as its first child. -/
def jsonMatch (json_str : String) : Except ParserError Span :=
  let cs := skipWs json_str.toList
  match
    (match matchObject (jsonFuel json_str.toList) cs with
     | some r => some r
     | none => matchArray (jsonFuel json_str.toList) cs) with
  | some (sp, rest) =>
    if skipWs rest = [] then .ok (Span.mk .json "" [sp])
    else .error .JsonParseError
  | none => .error .JsonParseError

/-- `parse_json` from `parser.rs`: match the grammar, then build the value tree. -/
def parse_json (json_str : String) : Except ParserError Value :=
  match jsonMatch json_str with
  | .error e => .error e
  | .ok sp => parse_value [sp]

theorem decodeEscape_u (hex : List Char) (hlen : hex.length = 4) :
    decodeEscape (String.mk ('\\' :: 'u' :: hex)) =
      match from_str_radix16 (String.mk hex) with
      | none => none
      | some code_point =>
        match from_u32 code_point with
        | none => none
        | some unicode_char => some (String.mk [unicode_char]) := by
  have hlen6 : (String.mk ('\\' :: 'u' :: hex)).toList.length = 6 := by
    show ('\\' :: 'u' :: hex).length = 6
    simp [hlen]
  have hne : ∀ s : String, s.toList.length = 2 → ¬ String.mk ('\\' :: 'u' :: hex) = s := by
    intro s h2 he
    rw [he] at hlen6
    omega
  unfold decodeEscape
  rw [if_neg (hne "\\\"" rfl), if_neg (hne "\\\\" rfl), if_neg (hne "\\/" rfl),
    if_neg (hne "\\b" rfl), if_neg (hne "\\f" rfl), if_neg (hne "\\n" rfl),
    if_neg (hne "\\r" rfl), if_neg (hne "\\t" rfl),
    if_pos (show List.take 2 (String.mk ('\\' :: 'u' :: hex)).toList = ['\\', 'u'] from rfl)]
  rfl

/-- C5: a `\uXXXX` escape whose four hex digits denote a valid Unicode scalar value
decodes to exactly that one character, and one denoting a surrogate or other invalid
code point makes string building fail; concretely, the whole parse maps `"\u00e9"` to
`"é"` and fails outright on `"\ud800"`. -/
theorem C5_unicode_escape :
    (∀ (hex : List Char) (n : Nat), hex.length = 4 →
      from_str_radix16 (String.mk hex) = some n →
      ((n.isValidChar →
        parse_string (Span.mk .string ""
            [Span.mk .escape_sequence (String.mk ('\\' :: 'u' :: hex)) []]) =
          .ok (String.mk [Char.ofNat n])) ∧
       (¬ n.isValidChar →
        parse_string (Span.mk .string ""
            [Span.mk .escape_sequence (String.mk ('\\' :: 'u' :: hex)) []]) =
          .error .JsonParseError))) ∧
    parse_json "\x7b\"k\":\"\\u00e9\"\x7d" = .ok (.obj [("k", .str "é")]) ∧
    parse_json "\x7b\"k\":\"\\ud800\"\x7d" = .error .JsonParseError := by
  refine ⟨?_, rfl, rfl⟩
  intro hex n hlen hradix
  have hbody : parse_string (Span.mk .string ""
      [Span.mk .escape_sequence (String.mk ('\\' :: 'u' :: hex)) []]) =
      match decodeEscape (String.mk ('\\' :: 'u' :: hex)) with
      | none => Except.error ParserError.JsonParseError
      | some escaped => Except.ok ("" ++ escaped) := by
    show (match decodeEscape (String.mk ('\\' :: 'u' :: hex)) with
          | none => Except.error ParserError.JsonParseError
          | some escaped => strLoop [] ("" ++ escaped)) = _
    rcases decodeEscape (String.mk ('\\' :: 'u' :: hex)) with _ | piece
    · rfl
    · rfl
  rw [hbody, decodeEscape_u hex hlen, hradix]
  constructor
  · intro hvalid
    have hu : from_u32 n = some (Char.ofNat n) := by
      unfold from_u32
      rw [if_pos hvalid]
    show (match (match from_u32 n with
                 | none => none
                 | some unicode_char => some (String.mk [unicode_char])) with
          | none => Except.error ParserError.JsonParseError
          | some escaped => Except.ok ("" ++ escaped)) = _
    rw [hu]
    rfl
  · intro hinvalid
    have hu : from_u32 n = none := by
      unfold from_u32
      rw [if_neg hinvalid]
    show (match (match from_u32 n with
                 | none => none
                 | some unicode_char => some (String.mk [unicode_char])) with
          | none => Except.error ParserError.JsonParseError
          | some escaped => Except.ok ("" ++ escaped)) = _
    rw [hu]

/-- Witness for C5 at the two documented escapes: `\u00e9` (valid, `é`) and `\ud800`
(an unpaired surrogate half, rejected). -/
theorem C5_unicode_escape_witness :
    parse_string (Span.mk .string ""
        [Span.mk .escape_sequence (String.mk ('\\' :: 'u' :: ['0', '0', 'e', '9'])) []]) =
      .ok (String.mk [Char.ofNat 233]) ∧
    parse_string (Span.mk .string ""
        [Span.mk .escape_sequence (String.mk ('\\' :: 'u' :: ['d', '8', '0', '0'])) []]) =
      .error .JsonParseError :=
  ⟨(C5_unicode_escape.1 ['0', '0', 'e', '9'] 233 rfl rfl).1 (by decide),
   (C5_unicode_escape.1 ['d', '8', '0', '0'] 55296 rfl rfl).2 (by decide)⟩

/-! ## The declarative grammar (C8)

A context-free reading of the §4.1 productions, as predicates over character lists,
against which the executable grammar engine is proved sound: text the engine accepts
conforms to the grammar, so grammar-violating text is always rejected. -/

/-- A run of implicit whitespace. -/
def Ws (w : List Char) : Prop :=
  ∀ c ∈ w, isWsChar c = true

/-- One `character` or `escape_sequence` inside a string literal. -/
def CharItem (xs : List Char) : Prop :=
  (∃ c, xs = [c] ∧ c ≠ '"' ∧ c ≠ '\\') ∨
  (∃ e, xs = ['\\', e] ∧
    (e = '"' ∨ e = '\\' ∨ e = '/' ∨ e = 'b' ∨ e = 'f' ∨ e = 'n' ∨ e = 'r' ∨ e = 't')) ∨
  (∃ h1 h2 h3 h4, xs = ['\\', 'u', h1, h2, h3, h4] ∧
    isHexChar h1 = true ∧ isHexChar h2 = true ∧ isHexChar h3 = true ∧ isHexChar h4 = true)

/-- `string := '"' (character | escape_sequence)* '"'`. -/
def JStringText (cs : List Char) : Prop :=
  ∃ items : List (List Char),
    cs = '"' :: items.flatten ++ ['"'] ∧ ∀ it ∈ items, CharItem it

/-- `int := "0" | nonzero-digit digit*`. -/
def IntText (xs : List Char) : Prop :=
  xs = ['0'] ∨
  (∃ d ds, xs = d :: ds ∧ d.isDigit = true ∧ d ≠ '0' ∧ ∀ c ∈ ds, c.isDigit = true)

/-- `('.' digit+)?`. -/
def FracText (xs : List Char) : Prop :=
  xs = [] ∨ (∃ ds, xs = '.' :: ds ∧ ds ≠ [] ∧ ∀ c ∈ ds, c.isDigit = true)

/-- `(('e' | 'E') ('+' | '-')? digit+)?`. -/
def ExpText (xs : List Char) : Prop :=
  xs = [] ∨
  (∃ e sg ds, xs = e :: sg ++ ds ∧ (e = 'e' ∨ e = 'E') ∧
    (sg = [] ∨ sg = ['+'] ∨ sg = ['-']) ∧ ds ≠ [] ∧ ∀ c ∈ ds, c.isDigit = true)

/-- `number := '-'? int frac? exp?`. -/
def JNumberText (cs : List Char) : Prop :=
  ∃ sign ip fp ep, cs = sign ++ ip ++ fp ++ ep ∧
    (sign = [] ∨ sign = ['-']) ∧ IntText ip ∧ FracText fp ∧ ExpText ep

mutual
/-- `value := object | array | string | number | boolean | null`. -/
inductive JValueText : List Char → Prop where
  | obj {cs : List Char} : JObjectText cs → JValueText cs
  | arr {cs : List Char} : JArrayText cs → JValueText cs
  | str {cs : List Char} : JStringText cs → JValueText cs
  | num {cs : List Char} : JNumberText cs → JValueText cs
  | boolTrue : JValueText ['t', 'r', 'u', 'e']
  | boolFalse : JValueText ['f', 'a', 'l', 's', 'e']
  | nullLit : JValueText ['n', 'u', 'l', 'l']

/-- `pair := string ':' value` with implicit whitespace. -/
inductive JPairText : List Char → Prop where
  | mk (k w1 w2 v : List Char) : JStringText k → Ws w1 → Ws w2 → JValueText v →
      JPairText (k ++ w1 ++ ':' :: w2 ++ v)

/-- The `(',' pair)*` tail with implicit whitespace. -/
inductive JPairsTailText : List Char → Prop where
  | nil : JPairsTailText []
  | cons (w1 w2 p rest : List Char) : Ws w1 → Ws w2 → JPairText p → JPairsTailText rest →
      JPairsTailText (w1 ++ ',' :: w2 ++ p ++ rest)

/-- `object := '\x7b' pair (',' pair)* '\x7d' | '\x7b' '\x7d'` with implicit
whitespace. -/
inductive JObjectText : List Char → Prop where
  | empty (w : List Char) : Ws w → JObjectText ('\x7b' :: w ++ ['\x7d'])
  | nonempty (w1 p tail w2 : List Char) : Ws w1 → JPairText p → JPairsTailText tail →
      Ws w2 → JObjectText ('\x7b' :: w1 ++ p ++ tail ++ w2 ++ ['\x7d'])

/-- The `(',' value)*` tail with implicit whitespace. -/
inductive JElemsTailText : List Char → Prop where
  | nil : JElemsTailText []
  | cons (w1 w2 v rest : List Char) : Ws w1 → Ws w2 → JValueText v → JElemsTailText rest →
      JElemsTailText (w1 ++ ',' :: w2 ++ v ++ rest)

/-- `array := '[' value (',' value)* ']' | '[' ']'` with implicit whitespace. -/
inductive JArrayText : List Char → Prop where
  | empty (w : List Char) : Ws w → JArrayText ('[' :: w ++ [']'])
  | nonempty (w1 v tail w2 : List Char) : Ws w1 → JValueText v → JElemsTailText tail →
      Ws w2 → JArrayText ('[' :: w1 ++ v ++ tail ++ w2 ++ [']'])
end

/-- `json := object | array`, surrounding whitespace ignored, whole input consumed. -/
def JsonText (cs : List Char) : Prop :=
  ∃ w1 mid w2, cs = w1 ++ mid ++ w2 ∧ Ws w1 ∧ Ws w2 ∧
    (JObjectText mid ∨ JArrayText mid)

theorem skipWs_split (cs : List Char) :
    ∃ w, cs = w ++ skipWs cs ∧ Ws w :=
  ⟨cs.takeWhile isWsChar, (List.takeWhile_append_dropWhile isWsChar cs).symm,
    fun _ hc => List.mem_takeWhile_imp hc⟩

theorem matchStrBody_cons (fuel : Nat) (c : Char) (rest : List Char) :
    matchStrBody (fuel + 1) (c :: rest) =
      (if c = '"' then
        some ([], rest)
      else if c = '\\' then
        match rest with
        | [] => none
        | e :: rest2 =>
          if e = '"' || e = '\\' || e = '/' || e = 'b' || e = 'f' ||
              e = 'n' || e = 'r' || e = 't' then
            match matchStrBody fuel rest2 with
            | none => none
            | some (sps, r) =>
              some (Span.mk .escape_sequence (String.mk ['\\', e]) [] :: sps, r)
          else if e = 'u' then
            match rest2 with
            | h1 :: h2 :: h3 :: h4 :: rest3 =>
              if isHexChar h1 && isHexChar h2 && isHexChar h3 && isHexChar h4 then
                match matchStrBody fuel rest3 with
                | none => none
                | some (sps, r) =>
                  some (Span.mk .escape_sequence
                    (String.mk ['\\', 'u', h1, h2, h3, h4]) [] :: sps, r)
              else none
            | _ => none
          else none
      else
        match matchStrBody fuel rest with
        | none => none
        | some (sps, r) => some (Span.mk .character (String.mk [c]) [] :: sps, r)) := rfl

theorem matchStrBody_sound (fuel : Nat) : ∀ (cs : List Char),
    ∀ sps r, matchStrBody fuel cs = some (sps, r) →
      ∃ items : List (List Char),
        cs = items.flatten ++ '"' :: r ∧ ∀ it ∈ items, CharItem it := by
  induction fuel with
  | zero =>
    intro cs sps r h
    exact absurd h (by simp [matchStrBody])
  | succ n ih =>
    intro cs sps r h
    rcases cs with _ | ⟨c, rest⟩
    · exact absurd h (by simp [matchStrBody])
    · rw [matchStrBody_cons] at h
      by_cases hq : c = '"'
      · rw [if_pos hq] at h
        simp only [Option.some.injEq, Prod.mk.injEq] at h
        obtain ⟨rfl, rfl⟩ := h
        exact ⟨[], by simp [hq], by simp⟩
      · rw [if_neg hq] at h
        by_cases hb : c = '\\'
        · rw [if_pos hb] at h
          rcases rest with _ | ⟨e, rest2⟩
          · exact absurd h (by simp)
          · simp only [] at h
            by_cases hesc : (e = '"' || e = '\\' || e = '/' || e = 'b' || e = 'f' ||
                e = 'n' || e = 'r' || e = 't') = true
            · rw [if_pos hesc] at h
              rcases hrec : matchStrBody n rest2 with _ | ⟨sps1, r1⟩
              · rw [hrec] at h
                exact absurd h (by simp)
              · rw [hrec] at h
                simp only [Option.some.injEq, Prod.mk.injEq] at h
                obtain ⟨rfl, rfl⟩ := h
                obtain ⟨items, heq, hitems⟩ := ih rest2 sps1 _ hrec
                refine ⟨['\\', e] :: items, ?_, ?_⟩
                · rw [hb, heq]
                  rfl
                · intro it hit
                  rcases List.mem_cons.mp hit with rfl | hit
                  · refine Or.inr (Or.inl ⟨e, rfl, ?_⟩)
                    simp only [Bool.or_eq_true, decide_eq_true_eq] at hesc
                    tauto
                  · exact hitems it hit
            · rw [if_neg hesc] at h
              by_cases hu : e = 'u'
              · rw [if_pos hu] at h
                rcases rest2 with _ | ⟨h1, _ | ⟨h2, _ | ⟨h3, _ | ⟨h4, rest3⟩⟩⟩⟩
                · exact absurd h (by simp)
                · exact absurd h (by simp)
                · exact absurd h (by simp)
                · exact absurd h (by simp)
                · simp only [] at h
                  by_cases hhex : (isHexChar h1 && isHexChar h2 && isHexChar h3 &&
                      isHexChar h4) = true
                  · rw [if_pos hhex] at h
                    rcases hrec : matchStrBody n rest3 with _ | ⟨sps1, r1⟩
                    · rw [hrec] at h
                      exact absurd h (by simp)
                    · rw [hrec] at h
                      simp only [Option.some.injEq, Prod.mk.injEq] at h
                      obtain ⟨rfl, rfl⟩ := h
                      obtain ⟨items, heq, hitems⟩ := ih rest3 sps1 _ hrec
                      refine ⟨['\\', 'u', h1, h2, h3, h4] :: items, ?_, ?_⟩
                      · rw [hb, hu, heq]
                        rfl
                      · intro it hit
                        rcases List.mem_cons.mp hit with rfl | hit
                        · simp only [Bool.and_eq_true] at hhex
                          exact Or.inr (Or.inr ⟨h1, h2, h3, h4, rfl,
                            hhex.1.1.1, hhex.1.1.2, hhex.1.2, hhex.2⟩)
                        · exact hitems it hit
                  · rw [if_neg hhex] at h
                    exact absurd h (by simp)
              · rw [if_neg hu] at h
                exact absurd h (by simp)
        · rw [if_neg hb] at h
          rcases hrec : matchStrBody n rest with _ | ⟨sps1, r1⟩
          · rw [hrec] at h
            exact absurd h (by simp)
          · rw [hrec] at h
            simp only [Option.some.injEq, Prod.mk.injEq] at h
            obtain ⟨rfl, rfl⟩ := h
            obtain ⟨items, heq, hitems⟩ := ih rest sps1 _ hrec
            refine ⟨[c] :: items, ?_, ?_⟩
            · rw [heq]
              rfl
            · intro it hit
              rcases List.mem_cons.mp hit with rfl | hit
              · exact Or.inl ⟨c, rfl, hq, hb⟩
              · exact hitems it hit

theorem matchSign_sound (cs : List Char) :
    cs = (matchSign cs).1 ++ (matchSign cs).2 ∧
      ((matchSign cs).1 = [] ∨ (matchSign cs).1 = ['-']) := by
  unfold matchSign
  split
  · exact ⟨rfl, Or.inr rfl⟩
  · exact ⟨rfl, Or.inl rfl⟩

theorem matchInt_sound (cs ip r : List Char) (h : matchInt cs = some (ip, r)) :
    cs = ip ++ r ∧ IntText ip := by
  rcases cs with _ | ⟨c, rest⟩
  · exact absurd h (by simp [matchInt])
  · rw [show matchInt (c :: rest) =
        (if c = '0' then some (['0'], rest)
         else if c.isDigit then
           some (c :: rest.takeWhile Char.isDigit, rest.dropWhile Char.isDigit)
         else none) from rfl] at h
    by_cases h0 : c = '0'
    · rw [if_pos h0] at h
      simp only [Option.some.injEq, Prod.mk.injEq] at h
      obtain ⟨rfl, rfl⟩ := h
      exact ⟨by rw [h0]; rfl, Or.inl rfl⟩
    · rw [if_neg h0] at h
      by_cases hd : c.isDigit = true
      · rw [if_pos hd] at h
        simp only [Option.some.injEq, Prod.mk.injEq] at h
        obtain ⟨rfl, rfl⟩ := h
        refine ⟨by simp [List.takeWhile_append_dropWhile], Or.inr ?_⟩
        exact ⟨c, rest.takeWhile Char.isDigit, rfl, hd, h0,
          fun x hx => List.mem_takeWhile_imp hx⟩
      · rw [if_neg hd] at h
        exact absurd h (by simp)

theorem matchFrac_sound (cs : List Char) :
    cs = (matchFrac cs).1 ++ (matchFrac cs).2 ∧ FracText (matchFrac cs).1 := by
  rcases cs with _ | ⟨c, rest⟩
  · exact ⟨rfl, Or.inl rfl⟩
  · rw [show matchFrac (c :: rest) =
        (if c = '.' then
          if (rest.takeWhile Char.isDigit).isEmpty then ([], c :: rest)
          else ('.' :: rest.takeWhile Char.isDigit, rest.dropWhile Char.isDigit)
         else ([], c :: rest)) from rfl]
    by_cases hdot : c = '.'
    · rw [if_pos hdot]
      by_cases hds : (rest.takeWhile Char.isDigit).isEmpty
      · rw [if_pos hds]
        exact ⟨rfl, Or.inl rfl⟩
      · rw [if_neg hds]
        refine ⟨by simp [hdot, List.takeWhile_append_dropWhile], Or.inr ?_⟩
        refine ⟨rest.takeWhile Char.isDigit, rfl, ?_, fun x hx => List.mem_takeWhile_imp hx⟩
        intro hnil
        rw [hnil] at hds
        exact hds rfl
    · rw [if_neg hdot]
      exact ⟨rfl, Or.inl rfl⟩

theorem matchExp_sound (cs : List Char) :
    cs = (matchExp cs).1 ++ (matchExp cs).2 ∧ ExpText (matchExp cs).1 := by
  rcases cs with _ | ⟨c, rest⟩
  · exact ⟨rfl, Or.inl rfl⟩
  · rw [show matchExp (c :: rest) =
        (if c = 'e' || c = 'E' then
          match rest with
          | s :: rest2 =>
            if s = '+' || s = '-' then
              if (rest2.takeWhile Char.isDigit).isEmpty then ([], c :: rest)
              else (c :: s :: rest2.takeWhile Char.isDigit, rest2.dropWhile Char.isDigit)
            else
              if (rest.takeWhile Char.isDigit).isEmpty then ([], c :: rest)
              else (c :: rest.takeWhile Char.isDigit, rest.dropWhile Char.isDigit)
          | [] => ([], c :: rest)
         else ([], c :: rest)) from rfl]
    by_cases he : (c = 'e' || c = 'E') = true
    · rw [if_pos he]
      have hcP : c = 'e' ∨ c = 'E' := by
        simpa [Bool.or_eq_true, decide_eq_true_eq] using he
      rcases rest with _ | ⟨s, rest2⟩
      · exact ⟨rfl, Or.inl rfl⟩
      · simp only []
        by_cases hs : (s = '+' || s = '-') = true
        · rw [if_pos hs]
          by_cases hds : (rest2.takeWhile Char.isDigit).isEmpty
          · rw [if_pos hds]
            exact ⟨rfl, Or.inl rfl⟩
          · rw [if_neg hds]
            refine ⟨by simp [List.takeWhile_append_dropWhile], Or.inr ?_⟩
            refine ⟨c, [s], rest2.takeWhile Char.isDigit, by simp, hcP, ?_, ?_,
              fun x hx => List.mem_takeWhile_imp hx⟩
            · rcases (by simpa [Bool.or_eq_true, decide_eq_true_eq] using hs :
                  s = '+' ∨ s = '-') with rfl | rfl
              · exact Or.inr (Or.inl rfl)
              · exact Or.inr (Or.inr rfl)
            · intro hnil
              rw [hnil] at hds
              exact hds rfl
        · rw [if_neg hs]
          by_cases hds : ((s :: rest2).takeWhile Char.isDigit).isEmpty
          · rw [if_pos hds]
            exact ⟨rfl, Or.inl rfl⟩
          · rw [if_neg hds]
            refine ⟨by simp [List.takeWhile_append_dropWhile], Or.inr ?_⟩
            refine ⟨c, [], (s :: rest2).takeWhile Char.isDigit, by simp, hcP, Or.inl rfl, ?_,
              fun x hx => List.mem_takeWhile_imp hx⟩
            intro hnil
            rw [hnil] at hds
            exact hds rfl
    · rw [if_neg he]
      exact ⟨rfl, Or.inl rfl⟩

theorem matchNumber_sound (cs : List Char) (sp : Span) (r : List Char)
    (h : matchNumber cs = some (sp, r)) :
    ∃ pre, cs = pre ++ r ∧ JNumberText pre := by
  unfold matchNumber at h
  rcases hint : matchInt (matchSign cs).2 with _ | ⟨ip, cs2⟩
  · rw [hint] at h
    exact absurd h (by simp)
  · rw [hint] at h
    simp only [Option.some.injEq, Prod.mk.injEq] at h
    obtain ⟨-, rfl⟩ := h
    obtain ⟨hsign, hsignP⟩ := matchSign_sound cs
    obtain ⟨hint1, hintP⟩ := matchInt_sound _ ip cs2 hint
    obtain ⟨hfrac, hfracP⟩ := matchFrac_sound cs2
    obtain ⟨hexp, hexpP⟩ := matchExp_sound (matchFrac cs2).2
    refine ⟨(matchSign cs).1 ++ ip ++ (matchFrac cs2).1 ++ (matchExp (matchFrac cs2).2).1,
      ?_, ?_⟩
    · conv_lhs => rw [hsign]
      conv_lhs => rw [hint1]
      conv_lhs => rw [hfrac]
      conv_lhs => rw [hexp]
      simp [List.append_assoc]
    · exact ⟨(matchSign cs).1, ip, (matchFrac cs2).1, (matchExp (matchFrac cs2).2).1,
        rfl, hsignP, hintP, hfracP, hexpP⟩

theorem matchBoolean_sound (cs : List Char) (sp : Span) (r : List Char)
    (h : matchBoolean cs = some (sp, r)) :
    ∃ pre, cs = pre ++ r ∧ (pre = ['t', 'r', 'u', 'e'] ∨ pre = ['f', 'a', 'l', 's', 'e']) := by
  unfold matchBoolean at h
  by_cases ht : cs.take 4 = "true".toList
  · rw [if_pos ht] at h
    simp only [Option.some.injEq, Prod.mk.injEq] at h
    obtain ⟨-, rfl⟩ := h
    exact ⟨cs.take 4, (List.take_append_drop 4 cs).symm, Or.inl ht⟩
  · rw [if_neg ht] at h
    by_cases hf : cs.take 5 = "false".toList
    · rw [if_pos hf] at h
      simp only [Option.some.injEq, Prod.mk.injEq] at h
      obtain ⟨-, rfl⟩ := h
      exact ⟨cs.take 5, (List.take_append_drop 5 cs).symm, Or.inr hf⟩
    · rw [if_neg hf] at h
      exact absurd h (by simp)

theorem matchNull_sound (cs : List Char) (sp : Span) (r : List Char)
    (h : matchNull cs = some (sp, r)) :
    ∃ pre, cs = pre ++ r ∧ pre = ['n', 'u', 'l', 'l'] := by
  unfold matchNull at h
  by_cases hn : cs.take 4 = "null".toList
  · rw [if_pos hn] at h
    simp only [Option.some.injEq, Prod.mk.injEq] at h
    obtain ⟨-, rfl⟩ := h
    exact ⟨cs.take 4, (List.take_append_drop 4 cs).symm, hn⟩
  · rw [if_neg hn] at h
    exact absurd h (by simp)

theorem matchString_sound (cs : List Char) (sp : Span) (r : List Char)
    (h : matchString cs = some (sp, r)) :
    ∃ pre, cs = pre ++ r ∧ JStringText pre := by
  rcases cs with _ | ⟨c, rest⟩
  · exact absurd h (by simp [matchString])
  · rw [matchString] at h
    by_cases hq : c = '"'
    · rw [if_pos hq] at h
      rcases hrec : matchStrBody (rest.length + 1) rest with _ | ⟨sps1, r1⟩
      · rw [hrec] at h
        exact absurd h (by simp)
      · rw [hrec] at h
        simp only [Option.some.injEq, Prod.mk.injEq] at h
        obtain ⟨rfl, rfl⟩ := h
        obtain ⟨items, heq, hitems⟩ :=
          matchStrBody_sound (rest.length + 1) rest sps1 r1 hrec
        refine ⟨'"' :: items.flatten ++ ['"'], ?_, items, rfl, hitems⟩
        rw [hq, heq]
        simp
    · rw [if_neg hq] at h
      exact absurd h (by simp)

theorem matchObject_nil (fuel : Nat) : matchObject (fuel + 1) [] = none := rfl

theorem matchObject_cons (fuel : Nat) (c : Char) (rest : List Char) :
    matchObject (fuel + 1) (c :: rest) =
      (if c = '\x7b' then
        match matchPair fuel (skipWs rest) with
        | some (p1, r1) =>
          match matchPairsTail fuel r1 with
          | some (ps, r2) =>
            match skipWs r2 with
            | c2 :: r3 => if c2 = '\x7d' then some (Span.mk .object "" (p1 :: ps), r3) else none
            | [] => none
          | none => none
        | none =>
          match skipWs rest with
          | c2 :: r3 => if c2 = '\x7d' then some (Span.mk .object "" [], r3) else none
          | [] => none
      else none) := rfl

theorem matchArray_nil (fuel : Nat) : matchArray (fuel + 1) [] = none := rfl

theorem matchArray_cons (fuel : Nat) (c : Char) (rest : List Char) :
    matchArray (fuel + 1) (c :: rest) =
      (if c = '[' then
        match matchValue fuel (skipWs rest) with
        | some (v1, r1) =>
          match matchElemsTail fuel r1 with
          | some (vs, r2) =>
            match skipWs r2 with
            | c2 :: r3 =>
              if c2 = ']' then
                some (Span.mk .array ""
                  ((Span.mk .value "" [v1]) :: vs.map (fun sp => Span.mk .value "" [sp])), r3)
              else none
            | [] => none
          | none => none
        | none =>
          match skipWs rest with
          | c2 :: r3 => if c2 = ']' then some (Span.mk .array "" [], r3) else none
          | [] => none
      else none) := rfl

theorem matchers_sound (fuel : Nat) :
    (∀ cs sp r, matchValue fuel cs = some (sp, r) →
      ∃ pre, cs = pre ++ r ∧ JValueText pre) ∧
    (∀ cs sp r, matchObject fuel cs = some (sp, r) →
      ∃ pre, cs = pre ++ r ∧ JObjectText pre) ∧
    (∀ cs ps r, matchPairsTail fuel cs = some (ps, r) →
      ∃ pre, cs = pre ++ r ∧ JPairsTailText pre) ∧
    (∀ cs sp r, matchPair fuel cs = some (sp, r) →
      ∃ pre, cs = pre ++ r ∧ JPairText pre) ∧
    (∀ cs sp r, matchArray fuel cs = some (sp, r) →
      ∃ pre, cs = pre ++ r ∧ JArrayText pre) ∧
    (∀ cs vs r, matchElemsTail fuel cs = some (vs, r) →
      ∃ pre, cs = pre ++ r ∧ JElemsTailText pre) := by
  induction fuel with
  | zero =>
    refine ⟨?_, ?_, ?_, ?_, ?_, ?_⟩ <;> intro cs a r h <;>
      exact absurd h (by
        simp [matchValue, matchObject, matchPairsTail, matchPair, matchArray, matchElemsTail])
  | succ n ih =>
    obtain ⟨ihV, ihO, ihT, ihP, ihA, ihE⟩ := ih
    refine ⟨?_, ?_, ?_, ?_, ?_, ?_⟩
    · -- value
      intro cs sp r h
      rw [matchValue] at h
      rcases ho : matchObject n cs with _ | ⟨spo, ro⟩
      · rw [ho] at h
        rcases ha : matchArray n cs with _ | ⟨spa, ra⟩
        · rw [ha] at h
          rcases hs : matchString cs with _ | ⟨sps1, rs⟩
          · rw [hs] at h
            rcases hnum : matchNumber cs with _ | ⟨spn, rn⟩
            · rw [hnum] at h
              rcases hb : matchBoolean cs with _ | ⟨spb, rb⟩
              · rw [hb] at h
                obtain ⟨pre, heq, hpre⟩ := matchNull_sound cs sp r h
                subst hpre
                exact ⟨_, heq, JValueText.nullLit⟩
              · rw [hb] at h
                simp only [Option.some.injEq, Prod.mk.injEq] at h
                obtain ⟨rfl, rfl⟩ := h
                obtain ⟨pre, heq, hpre⟩ := matchBoolean_sound cs spb rb hb
                rcases hpre with rfl | rfl
                · exact ⟨_, heq, JValueText.boolTrue⟩
                · exact ⟨_, heq, JValueText.boolFalse⟩
            · rw [hnum] at h
              simp only [Option.some.injEq, Prod.mk.injEq] at h
              obtain ⟨rfl, rfl⟩ := h
              obtain ⟨pre, heq, hpre⟩ := matchNumber_sound cs spn rn hnum
              exact ⟨pre, heq, JValueText.num hpre⟩
          · rw [hs] at h
            simp only [Option.some.injEq, Prod.mk.injEq] at h
            obtain ⟨rfl, rfl⟩ := h
            obtain ⟨pre, heq, hpre⟩ := matchString_sound cs sps1 rs hs
            exact ⟨pre, heq, JValueText.str hpre⟩
        · rw [ha] at h
          simp only [Option.some.injEq, Prod.mk.injEq] at h
          obtain ⟨rfl, rfl⟩ := h
          obtain ⟨pre, heq, hpre⟩ := ihA cs spa ra ha
          exact ⟨pre, heq, JValueText.arr hpre⟩
      · rw [ho] at h
        simp only [Option.some.injEq, Prod.mk.injEq] at h
        obtain ⟨rfl, rfl⟩ := h
        obtain ⟨pre, heq, hpre⟩ := ihO cs spo ro ho
        exact ⟨pre, heq, JValueText.obj hpre⟩
    · -- object
      intro cs sp r h
      rcases cs with _ | ⟨c, rest⟩
      · rw [matchObject_nil] at h
        exact absurd h (by simp)
      · rw [matchObject_cons] at h
        by_cases hc : c = '\x7b'
        · rw [if_pos hc] at h
          rcases hp : matchPair n (skipWs rest) with _ | ⟨p1, r1⟩
          · rw [hp] at h
            simp only [] at h
            rcases hsw : skipWs rest with _ | ⟨c2, r3⟩
            · rw [hsw] at h
              exact absurd h (by simp)
            · rw [hsw] at h
              simp only [] at h
              by_cases hc2 : c2 = '\x7d'
              · rw [if_pos hc2] at h
                simp only [Option.some.injEq, Prod.mk.injEq] at h
                obtain ⟨rfl, rfl⟩ := h
                obtain ⟨w, hw, hWs⟩ := skipWs_split rest
                refine ⟨'\x7b' :: w ++ ['\x7d'], ?_, JObjectText.empty w hWs⟩
                subst hc
                subst hc2
                rw [hw, hsw]
                simp
              · rw [if_neg hc2] at h
                exact absurd h (by simp)
          · rw [hp] at h
            simp only [] at h
            rcases ht : matchPairsTail n r1 with _ | ⟨ps, r2⟩
            · rw [ht] at h
              exact absurd h (by simp)
            · rw [ht] at h
              simp only [] at h
              rcases hsw : skipWs r2 with _ | ⟨c2, r3⟩
              · rw [hsw] at h
                exact absurd h (by simp)
              · rw [hsw] at h
                simp only [] at h
                by_cases hc2 : c2 = '\x7d'
                · rw [if_pos hc2] at h
                  simp only [Option.some.injEq, Prod.mk.injEq] at h
                  obtain ⟨rfl, rfl⟩ := h
                  obtain ⟨w1, hw1, hWs1⟩ := skipWs_split rest
                  obtain ⟨ppre, hpeq, hpP⟩ := ihP (skipWs rest) p1 r1 hp
                  obtain ⟨tpre, hteq, htP⟩ := ihT r1 ps r2 ht
                  obtain ⟨w2, hw2, hWs2⟩ := skipWs_split r2
                  refine ⟨'\x7b' :: w1 ++ ppre ++ tpre ++ w2 ++ ['\x7d'], ?_,
                    JObjectText.nonempty w1 ppre tpre w2 hWs1 hpP htP hWs2⟩
                  subst hc
                  subst hc2
                  rw [hw1, hpeq, hteq, hw2, hsw]
                  simp
                · rw [if_neg hc2] at h
                  exact absurd h (by simp)
        · rw [if_neg hc] at h
          exact absurd h (by simp)
    · -- pairs tail
      intro cs ps r h
      rw [matchPairsTail] at h
      rcases hsw : skipWs cs with _ | ⟨c, rest⟩
      · rw [hsw] at h
        simp only [Option.some.injEq, Prod.mk.injEq] at h
        obtain ⟨rfl, rfl⟩ := h
        exact ⟨[], rfl, JPairsTailText.nil⟩
      · rw [hsw] at h
        simp only [] at h
        by_cases hc : c = ','
        · rw [if_pos hc] at h
          rcases hp : matchPair n (skipWs rest) with _ | ⟨p, r1⟩
          · rw [hp] at h
            simp only [Option.some.injEq, Prod.mk.injEq] at h
            obtain ⟨rfl, rfl⟩ := h
            exact ⟨[], rfl, JPairsTailText.nil⟩
          · rw [hp] at h
            simp only [] at h
            rcases ht : matchPairsTail n r1 with _ | ⟨ps2, r2⟩
            · rw [ht] at h
              exact absurd h (by simp)
            · rw [ht] at h
              simp only [Option.some.injEq, Prod.mk.injEq] at h
              obtain ⟨rfl, rfl⟩ := h
              obtain ⟨w1, hw1, hWs1⟩ := skipWs_split cs
              obtain ⟨w2, hw2, hWs2⟩ := skipWs_split rest
              obtain ⟨ppre, hpeq, hpP⟩ := ihP (skipWs rest) p r1 hp
              obtain ⟨tpre, hteq, htP⟩ := ihT r1 ps2 r2 ht
              refine ⟨w1 ++ ',' :: w2 ++ ppre ++ tpre, ?_,
                JPairsTailText.cons w1 w2 ppre tpre hWs1 hWs2 hpP htP⟩
              subst hc
              rw [hw1, hsw, hw2, hpeq, hteq]
              simp
        · rw [if_neg hc] at h
          simp only [Option.some.injEq, Prod.mk.injEq] at h
          obtain ⟨rfl, rfl⟩ := h
          exact ⟨[], rfl, JPairsTailText.nil⟩
    · -- pair
      intro cs sp r h
      rw [matchPair] at h
      rcases hk : matchString cs with _ | ⟨kSpan, r1⟩
      · rw [hk] at h
        exact absurd h (by simp)
      · rw [hk] at h
        simp only [] at h
        rcases hsw : skipWs r1 with _ | ⟨c, r2⟩
        · rw [hsw] at h
          exact absurd h (by simp)
        · rw [hsw] at h
          simp only [] at h
          by_cases hc : c = ':'
          · rw [if_pos hc] at h
            rcases hv : matchValue n (skipWs r2) with _ | ⟨vSpan, r3⟩
            · rw [hv] at h
              exact absurd h (by simp)
            · rw [hv] at h
              simp only [Option.some.injEq, Prod.mk.injEq] at h
              obtain ⟨rfl, rfl⟩ := h
              obtain ⟨kpre, hkeq, hkP⟩ := matchString_sound cs kSpan r1 hk
              obtain ⟨w1, hw1, hWs1⟩ := skipWs_split r1
              obtain ⟨w2, hw2, hWs2⟩ := skipWs_split r2
              obtain ⟨vpre, hveq, hvP⟩ := ihV (skipWs r2) vSpan r3 hv
              refine ⟨kpre ++ w1 ++ ':' :: w2 ++ vpre, ?_,
                JPairText.mk kpre w1 w2 vpre hkP hWs1 hWs2 hvP⟩
              subst hc
              rw [hkeq, hw1, hsw, hw2, hveq]
              simp
          · rw [if_neg hc] at h
            exact absurd h (by simp)
    · -- array
      intro cs sp r h
      rcases cs with _ | ⟨c, rest⟩
      · rw [matchArray_nil] at h
        exact absurd h (by simp)
      · rw [matchArray_cons] at h
        by_cases hc : c = '['
        · rw [if_pos hc] at h
          rcases hv : matchValue n (skipWs rest) with _ | ⟨v1, r1⟩
          · rw [hv] at h
            simp only [] at h
            rcases hsw : skipWs rest with _ | ⟨c2, r3⟩
            · rw [hsw] at h
              exact absurd h (by simp)
            · rw [hsw] at h
              simp only [] at h
              by_cases hc2 : c2 = ']'
              · rw [if_pos hc2] at h
                simp only [Option.some.injEq, Prod.mk.injEq] at h
                obtain ⟨rfl, rfl⟩ := h
                obtain ⟨w, hw, hWs⟩ := skipWs_split rest
                refine ⟨'[' :: w ++ [']'], ?_, JArrayText.empty w hWs⟩
                subst hc
                subst hc2
                rw [hw, hsw]
                simp
              · rw [if_neg hc2] at h
                exact absurd h (by simp)
          · rw [hv] at h
            simp only [] at h
            rcases ht : matchElemsTail n r1 with _ | ⟨vs, r2⟩
            · rw [ht] at h
              exact absurd h (by simp)
            · rw [ht] at h
              simp only [] at h
              rcases hsw : skipWs r2 with _ | ⟨c2, r3⟩
              · rw [hsw] at h
                exact absurd h (by simp)
              · rw [hsw] at h
                simp only [] at h
                by_cases hc2 : c2 = ']'
                · rw [if_pos hc2] at h
                  simp only [Option.some.injEq, Prod.mk.injEq] at h
                  obtain ⟨rfl, rfl⟩ := h
                  obtain ⟨w1, hw1, hWs1⟩ := skipWs_split rest
                  obtain ⟨vpre, hveq, hvP⟩ := ihV (skipWs rest) v1 r1 hv
                  obtain ⟨tpre, hteq, htP⟩ := ihE r1 vs r2 ht
                  obtain ⟨w2, hw2, hWs2⟩ := skipWs_split r2
                  refine ⟨'[' :: w1 ++ vpre ++ tpre ++ w2 ++ [']'], ?_,
                    JArrayText.nonempty w1 vpre tpre w2 hWs1 hvP htP hWs2⟩
                  subst hc
                  subst hc2
                  rw [hw1, hveq, hteq, hw2, hsw]
                  simp
                · rw [if_neg hc2] at h
                  exact absurd h (by simp)
        · rw [if_neg hc] at h
          exact absurd h (by simp)
    · -- elems tail
      intro cs vs r h
      rw [matchElemsTail] at h
      rcases hsw : skipWs cs with _ | ⟨c, rest⟩
      · rw [hsw] at h
        simp only [Option.some.injEq, Prod.mk.injEq] at h
        obtain ⟨rfl, rfl⟩ := h
        exact ⟨[], rfl, JElemsTailText.nil⟩
      · rw [hsw] at h
        simp only [] at h
        by_cases hc : c = ','
        · rw [if_pos hc] at h
          rcases hv : matchValue n (skipWs rest) with _ | ⟨v, r1⟩
          · rw [hv] at h
            simp only [Option.some.injEq, Prod.mk.injEq] at h
            obtain ⟨rfl, rfl⟩ := h
            exact ⟨[], rfl, JElemsTailText.nil⟩
          · rw [hv] at h
            simp only [] at h
            rcases ht : matchElemsTail n r1 with _ | ⟨vs2, r2⟩
            · rw [ht] at h
              exact absurd h (by simp)
            · rw [ht] at h
              simp only [Option.some.injEq, Prod.mk.injEq] at h
              obtain ⟨rfl, rfl⟩ := h
              obtain ⟨w1, hw1, hWs1⟩ := skipWs_split cs
              obtain ⟨w2, hw2, hWs2⟩ := skipWs_split rest
              obtain ⟨vpre, hveq, hvP⟩ := ihV (skipWs rest) v r1 hv
              obtain ⟨tpre, hteq, htP⟩ := ihE r1 vs2 r2 ht
              refine ⟨w1 ++ ',' :: w2 ++ vpre ++ tpre, ?_,
                JElemsTailText.cons w1 w2 vpre tpre hWs1 hWs2 hvP htP⟩
              subst hc
              rw [hw1, hsw, hw2, hveq, hteq]
              simp
        · rw [if_neg hc] at h
          simp only [Option.some.injEq, Prod.mk.injEq] at h
          obtain ⟨rfl, rfl⟩ := h
          exact ⟨[], rfl, JElemsTailText.nil⟩

theorem jsonMatch_sound (s : String) (sp : Span) (h : jsonMatch s = .ok sp) :
    JsonText s.toList := by
  unfold jsonMatch at h
  simp only [] at h
  rcases ho : matchObject (jsonFuel s.toList) (skipWs s.toList) with _ | ⟨spo, ro⟩
  · rw [ho] at h
    simp only [] at h
    rcases ha : matchArray (jsonFuel s.toList) (skipWs s.toList) with _ | ⟨spa, ra⟩
    · rw [ha] at h
      exact absurd h (by simp)
    · rw [ha] at h
      simp only [] at h
      by_cases hz : skipWs ra = []
      · obtain ⟨pre, heq, hpre⟩ :=
          (matchers_sound (jsonFuel s.toList)).2.2.2.2.1 (skipWs s.toList) spa ra ha
        obtain ⟨w1, hw1, hWs1⟩ := skipWs_split s.toList
        obtain ⟨w2, hw2, hWs2⟩ := skipWs_split ra
        have hra : ra = w2 := by
          rw [hz, List.append_nil] at hw2
          exact hw2
        refine ⟨w1, pre, ra, ?_, hWs1, hra ▸ hWs2, Or.inr hpre⟩
        rw [hw1, heq, List.append_assoc]
      · rw [if_neg hz] at h
        exact absurd h (by simp)
  · rw [ho] at h
    simp only [] at h
    by_cases hz : skipWs ro = []
    · obtain ⟨pre, heq, hpre⟩ :=
        (matchers_sound (jsonFuel s.toList)).2.1 (skipWs s.toList) spo ro ho
      obtain ⟨w1, hw1, hWs1⟩ := skipWs_split s.toList
      obtain ⟨w2, hw2, hWs2⟩ := skipWs_split ro
      have hro : ro = w2 := by
        rw [hz, List.append_nil] at hw2
        exact hw2
      refine ⟨w1, pre, ro, ?_, hWs1, hro ▸ hWs2, Or.inl hpre⟩
      rw [hw1, heq, List.append_assoc]
    · rw [if_neg hz] at h
      exact absurd h (by simp)

/-- C8: any text the whole parse accepts conforms to the declared JSON grammar, so a
grammar-violating input — for example unquoted keys — always yields an error and
never a value (no partial tree exists, the error branch carries none); concretely the
documented example with unquoted keys is rejected. -/
theorem C8_invalid_input_rejected :
    (∀ (s : String) (v : Value), parse_json s = .ok v → JsonText s.toList) ∧
    parse_json "\x7b name: John \x7d" = .error .JsonParseError := by
  constructor
  · intro s v h
    unfold parse_json at h
    rcases hjm : jsonMatch s with e | sp
    · rw [hjm] at h
      exact absurd h (by simp)
    · exact jsonMatch_sound s sp hjm
  · rfl

/-- Witness for C8's universal part: the accepted text `\x7b\x7d` conforms to the
grammar. -/
theorem C8_invalid_input_rejected_witness : JsonText "\x7b\x7d".toList :=
  C8_invalid_input_rejected.1 "\x7b\x7d" (.obj []) rfl

/-! ## Minification and the parse round trip (C3) -/

/-- Lowercase hexadecimal digit character for `n < 16`. -/
def hexNibble (n : Nat) : Char :=
  if n < 10 then Char.ofNat (48 + n) else Char.ofNat (87 + n)

/-- Modelled from the spec: §4.4 minifies through `serde_json::to_string` (external
crate), whose compact form escapes `"`, `\` and the control characters below `0x20`
(the named escapes plus `\u00XX` for the rest) and emits every other character
verbatim. -/
def escapeChar (c : Char) : List Char :=
  if c = '"' then ['\\', '"']
  else if c = '\\' then ['\\', '\\']
  else if c = '\x08' then ['\\', 'b']
  else if c = '\x0C' then ['\\', 'f']
  else if c = '\n' then ['\\', 'n']
  else if c = '\r' then ['\\', 'r']
  else if c = '\t' then ['\\', 't']
  else if c.toNat < 32 then
    ['\\', 'u', '0', '0', hexNibble (c.toNat / 16), hexNibble (c.toNat % 16)]
  else [c]

/-- A minified string literal: quoted, with every character escaped as needed. -/
def encodeString (s : String) : List Char :=
  '"' :: ((s.toList.map escapeChar).flatten ++ ['"'])

/-- Modelled from the spec: §4.4 — the compact serialisation of a value
(`serde_json::Value::to_string`): literals and numerals verbatim, strings quoted and
escaped, arrays and objects comma-joined with no whitespace. -/
def minifyChars : Value → List Char
  | .num n => n.toList
  | .str s => encodeString s
  | .bool b => if b then "true".toList else "false".toList
  | .null => "null".toList
  | .arr [] => ['[', ']']
  | .arr (v :: rest) => '[' :: ((minifyChars v ++ goElemsTail rest) ++ [']'])
  | .obj [] => ['\x7b', '\x7d']
  | .obj ((k, v) :: rest) =>
    '\x7b' :: (((encodeString k ++ (':' :: minifyChars v)) ++ goPairsTail rest) ++ ['\x7d'])
where
  goElemsTail : List Value → List Char
    | [] => []
    | v :: rest => ',' :: (minifyChars v ++ goElemsTail rest)
  goPairsTail : List (String × Value) → List Char
    | [] => []
    | (k, v) :: rest =>
      ',' :: ((encodeString k ++ (':' :: minifyChars v)) ++ goPairsTail rest)

/-- `minify_json` from `parser.rs` (`serde_json::to_string`; emission modelled from
the spec §4.4). -/
def minify_json (json : Value) : String :=
  String.mk (minifyChars json)

/-- The shape invariant of grammar-built values: numerals are grammatical `number`
texts and object key lists are duplicate-free. -/
inductive ValueInv : Value → Prop where
  | null : ValueInv .null
  | bool (b : Bool) : ValueInv (.bool b)
  | num (n : String) : JNumberText n.toList → ValueInv (.num n)
  | str (s : String) : ValueInv (.str s)
  | arr (items : List Value) : (∀ v ∈ items, ValueInv v) → ValueInv (.arr items)
  | obj (entries : List (String × Value)) : ((entries.map Prod.fst).Nodup) →
      (∀ kv ∈ entries, ValueInv kv.2) → ValueInv (.obj entries)

/-- Every `escape_sequence` span in the tree decodes successfully. -/
def escOK : Span → Bool
  | .mk r t cs =>
    (if r = .escape_sequence then (decodeEscape t).isSome else true) && goList cs
where
  goList : List Span → Bool
    | [] => true
    | sp :: rest => escOK sp && goList rest

/-- A sufficient matcher fuel for re-parsing a value's minified emission. -/
def needFuel : Value → Nat
  | .arr [] => 2
  | .arr (v :: rest) => needFuel v + goTailFuel rest + 2
  | .obj [] => 2
  | .obj ((_, v) :: rest) => needFuel v + goPairFuel rest + 3
  | _ => 1
where
  goTailFuel : List Value → Nat
    | [] => 1
    | v :: rest => needFuel v + goTailFuel rest + 1
  goPairFuel : List (String × Value) → Nat
    | [] => 1
    | (_, v) :: rest => needFuel v + goPairFuel rest + 2

theorem fuel_succ (fuel : Nat) (h : 1 ≤ fuel) : ∃ f, fuel = f + 1 :=
  ⟨fuel - 1, by omega⟩

/-- The head characters possible directly after a value emission in a minified
document. -/
def SepBoundary : List Char → Prop
  | [] => True
  | c :: _ => c = ',' ∨ c = ']' ∨ c = '\x7d'

/-- Whether the head of a list fails `p` (vacuously true for the empty list). -/
def headFails (p : Char → Bool) : List Char → Prop
  | [] => True
  | c :: _ => p c = false

theorem sepBoundary_head (c : Char) (l : List Char) (h : SepBoundary (c :: l)) :
    c.isDigit = false ∧ c ≠ '.' ∧ c ≠ 'e' ∧ c ≠ 'E' ∧ isWsChar c = false ∧
      c ≠ '\x7b' ∧ c ≠ '[' ∧ c ≠ '"' ∧ c ≠ '-' ∧ c ≠ 't' ∧ c ≠ 'f' ∧ c ≠ 'n' := by
  rcases h with rfl | rfl | rfl <;> decide

theorem takeWhile_all_append (p : Char → Bool) (l tail : List Char)
    (hall : ∀ c ∈ l, p c = true) (htail : headFails p tail) :
    (l ++ tail).takeWhile p = l ∧ (l ++ tail).dropWhile p = tail := by
  induction l with
  | nil =>
    rcases tail with _ | ⟨c, rest⟩
    · exact ⟨rfl, rfl⟩
    · have hc : p c = false := htail
      exact ⟨by simp [List.takeWhile_cons, hc], by simp [List.dropWhile_cons, hc]⟩
  | cons c rest ih =>
    have hc : p c = true := hall c (List.mem_cons_self c rest)
    have ihr := ih (fun x hx => hall x (List.mem_cons_of_mem c hx))
    exact ⟨by simp [List.takeWhile_cons, hc, ihr.1], by simp [List.dropWhile_cons, hc, ihr.2]⟩

theorem skipWs_cons_not_ws (c : Char) (l : List Char) (h : isWsChar c = false) :
    skipWs (c :: l) = c :: l := by
  simp [skipWs, List.dropWhile_cons, h]

theorem isDigit_ne (c d : Char) (h : c.isDigit = true) (hd : d.isDigit = false) : c ≠ d := by
  intro hh
  subst hh
  rw [hd] at h
  exact Bool.false_ne_true h

theorem isDigit_not_ws (c : Char) (h : c.isDigit = true) : isWsChar c = false := by
  cases ht : isWsChar c with
  | false => rfl
  | true =>
    exfalso
    have hcs : c = ' ' ∨ c = '\t' ∨ c = '\r' ∨ c = '\n' := by
      simpa [isWsChar, Bool.or_eq_true, decide_eq_true_eq, or_assoc] using ht
    rcases hcs with rfl | rfl | rfl | rfl <;> simp [Char.isDigit] at h

theorem insertKV_not_mem (map : List (String × Value)) (k : String) (v : Value)
    (h : k ∉ map.map Prod.fst) : insertKV map k v = map ++ [(k, v)] := by
  induction map with
  | nil => rfl
  | cons e rest ih =>
    obtain ⟨ek, ev⟩ := e
    have hek : ¬ ek = k := fun hh => h (by simp [hh])
    have hrest : k ∉ rest.map Prod.fst := fun hh => h (by simp [hh])
    simp [insertKV, hek, ih hrest]

theorem insertAll_nodup_id (ps : List (String × Value)) :
    ∀ map, ((map ++ ps).map Prod.fst).Nodup → insertAll map ps = map ++ ps := by
  induction ps with
  | nil => intro map _; simp [insertAll]
  | cons p rest ih =>
    obtain ⟨k, v⟩ := p
    intro map hnd
    have hk : k ∉ map.map Prod.fst := by
      intro hmem
      rw [List.map_append] at hnd
      have hdisj := (List.nodup_append.mp hnd).2.2
      exact hdisj hmem (by simp)
    show insertAll (insertKV map k v) rest = map ++ (k, v) :: rest
    rw [insertKV_not_mem map k v hk]
    have hih := ih (map ++ [(k, v)]) (by simpa [List.append_assoc] using hnd)
    simpa [List.append_assoc] using hih

theorem mem_insertKV (map : List (String × Value)) (k : String) (v : Value) :
    ∀ kv ∈ insertKV map k v, kv ∈ map ∨ kv = (k, v) := by
  induction map with
  | nil =>
    intro kv hkv
    simp only [insertKV] at hkv
    rcases List.mem_cons.mp hkv with h | h
    · exact Or.inr h
    · exact absurd h (List.not_mem_nil kv)
  | cons e rest ih =>
    obtain ⟨ek, ev⟩ := e
    intro kv hkv
    by_cases hek : ek = k
    · simp only [insertKV, if_pos hek] at hkv
      rcases List.mem_cons.mp hkv with h | h
      · exact Or.inr (by rw [h, hek])
      · exact Or.inl (List.mem_cons_of_mem _ h)
    · simp only [insertKV, if_neg hek] at hkv
      rcases List.mem_cons.mp hkv with h | h
      · exact Or.inl (h ▸ List.mem_cons_self _ _)
      · rcases ih kv h with h' | h'
        · exact Or.inl (List.mem_cons_of_mem _ h')
        · exact Or.inr h'

theorem mem_insertAll (ps : List (String × Value)) :
    ∀ map kv, kv ∈ insertAll map ps → kv ∈ map ∨ kv ∈ ps := by
  induction ps with
  | nil => intro map kv h; exact Or.inl h
  | cons p rest ih =>
    obtain ⟨k, v⟩ := p
    intro map kv h
    rcases ih (insertKV map k v) kv h with h' | h'
    · rcases mem_insertKV map k v kv h' with h2 | h2
      · exact Or.inl h2
      · exact Or.inr (h2 ▸ List.mem_cons_self _ _)
    · exact Or.inr (List.mem_cons_of_mem _ h')

theorem matchSign_cons_ne (c : Char) (l : List Char) (h : c ≠ '-') :
    matchSign (c :: l) = ([], c :: l) := by
  unfold matchSign
  split
  · rename_i heq
    injection heq with h1 h2
    exact absurd h1 h
  · rfl

theorem matchObject_nil_any : ∀ fuel, matchObject fuel [] = none
  | 0 => rfl
  | _ + 1 => rfl

theorem matchArray_nil_any : ∀ fuel, matchArray fuel [] = none
  | 0 => rfl
  | _ + 1 => rfl

theorem matchObject_cons_ne (fuel : Nat) (c : Char) (l : List Char) (h : c ≠ '\x7b') :
    matchObject fuel (c :: l) = none := by
  cases fuel with
  | zero => rfl
  | succ n => rw [matchObject_cons, if_neg h]

theorem matchArray_cons_ne (fuel : Nat) (c : Char) (l : List Char) (h : c ≠ '[') :
    matchArray fuel (c :: l) = none := by
  cases fuel with
  | zero => rfl
  | succ n => rw [matchArray_cons, if_neg h]

theorem matchString_cons_ne (c : Char) (l : List Char) (h : c ≠ '"') :
    matchString (c :: l) = none := by
  rw [show matchString (c :: l) =
      (if c = '"' then
        match matchStrBody (l.length + 1) l with
        | none => none
        | some (sps, r) => some (Span.mk .string "" sps, r)
       else none) from rfl]
  rw [if_neg h]

theorem matchNumber_cons_ne (c : Char) (l : List Char) (h1 : c.isDigit = false)
    (h2 : c ≠ '-') : matchNumber (c :: l) = none := by
  unfold matchNumber
  rw [matchSign_cons_ne c l h2]
  have h0 : c ≠ '0' := fun hh => by
    subst hh
    exact absurd h1 (by decide)
  rw [show matchInt ((([], c :: l) : List Char × List Char).2) = matchInt (c :: l) from rfl]
  rw [show matchInt (c :: l) =
      (if c = '0' then some (['0'], l)
       else if c.isDigit then
         some (c :: l.takeWhile Char.isDigit, l.dropWhile Char.isDigit)
       else none) from rfl]
  rw [if_neg h0, if_neg (fun hh => Bool.false_ne_true (h1 ▸ hh))]

theorem matchBoolean_cons_ne (c : Char) (l : List Char) (h1 : c ≠ 't') (h2 : c ≠ 'f') :
    matchBoolean (c :: l) = none := by
  unfold matchBoolean
  rw [if_neg, if_neg]
  · intro hEq
    rw [List.take_succ_cons] at hEq
    injection hEq with hh _
    exact h2 hh
  · intro hEq
    rw [List.take_succ_cons] at hEq
    injection hEq with hh _
    exact h1 hh

theorem matchNull_cons_ne (c : Char) (l : List Char) (h : c ≠ 'n') :
    matchNull (c :: l) = none := by
  unfold matchNull
  rw [if_neg]
  intro hEq
  rw [List.take_succ_cons] at hEq
  injection hEq with hh _
  exact h hh

theorem matchValue_cons_fail (fuel : Nat) (c : Char) (l : List Char)
    (h1 : c ≠ '\x7b') (h2 : c ≠ '[') (h3 : c ≠ '"') (h4 : c.isDigit = false)
    (h5 : c ≠ '-') (h6 : c ≠ 't') (h7 : c ≠ 'f') (h8 : c ≠ 'n') :
    matchValue fuel (c :: l) = none := by
  cases fuel with
  | zero => rfl
  | succ n =>
    show (match matchObject n (c :: l) with
      | some r => some r
      | none =>
        match matchArray n (c :: l) with
        | some r => some r
        | none =>
          match matchString (c :: l) with
          | some r => some r
          | none =>
            match matchNumber (c :: l) with
            | some r => some r
            | none =>
              match matchBoolean (c :: l) with
              | some r => some r
              | none => matchNull (c :: l)) = none
    rw [matchObject_cons_ne n c l h1, matchArray_cons_ne n c l h2,
      matchString_cons_ne c l h3, matchNumber_cons_ne c l h4 h5,
      matchBoolean_cons_ne c l h6 h7, matchNull_cons_ne c l h8]

theorem intText_shape (ip : List Char) (h : IntText ip) :
    ∃ d ds, ip = d :: ds ∧ d.isDigit = true ∧ ∀ c ∈ ds, c.isDigit = true := by
  rcases h with rfl | ⟨d, ds, rfl, hd, _, hds⟩
  · exact ⟨'0', [], rfl, by decide, by simp⟩
  · exact ⟨d, ds, rfl, hd, hds⟩

theorem matchInt_run (ip tail : List Char) (hip : IntText ip)
    (htail : headFails Char.isDigit tail) :
    matchInt (ip ++ tail) = some (ip, tail) := by
  rcases hip with rfl | ⟨d, ds, rfl, hd, hd0, hds⟩
  · show matchInt ('0' :: tail) = some (['0'], tail)
    rw [show matchInt ('0' :: tail) =
        (if ('0' : Char) = '0' then some (['0'], tail)
         else if Char.isDigit '0' then
           some ('0' :: tail.takeWhile Char.isDigit, tail.dropWhile Char.isDigit)
         else none) from rfl]
    rw [if_pos rfl]
  · show matchInt (d :: (ds ++ tail)) = some (d :: ds, tail)
    rw [show matchInt (d :: (ds ++ tail)) =
        (if d = '0' then some (['0'], ds ++ tail)
         else if d.isDigit then
           some (d :: (ds ++ tail).takeWhile Char.isDigit, (ds ++ tail).dropWhile Char.isDigit)
         else none) from rfl]
    obtain ⟨ht, hdr⟩ := takeWhile_all_append Char.isDigit ds tail hds htail
    rw [if_neg hd0, if_pos hd, ht, hdr]

theorem matchFrac_no_dot (cs : List Char) (h : ∀ l, cs ≠ '.' :: l) :
    matchFrac cs = ([], cs) := by
  rcases cs with _ | ⟨c, rest⟩
  · rfl
  · have hc : c ≠ '.' := fun hh => h rest (by rw [hh])
    rw [show matchFrac (c :: rest) =
        (if c = '.' then
          if ((rest.takeWhile Char.isDigit).isEmpty) then ([], c :: rest)
          else ('.' :: rest.takeWhile Char.isDigit, rest.dropWhile Char.isDigit)
         else ([], c :: rest)) from rfl]
    rw [if_neg hc]

theorem matchFrac_dot (ds tail : List Char) (hne : ds ≠ [])
    (hds : ∀ c ∈ ds, c.isDigit = true) (htail : headFails Char.isDigit tail) :
    matchFrac (('.' :: ds) ++ tail) = ('.' :: ds, tail) := by
  show matchFrac ('.' :: (ds ++ tail)) = _
  rw [show matchFrac ('.' :: (ds ++ tail)) =
      (if ('.' : Char) = '.' then
        if (((ds ++ tail).takeWhile Char.isDigit).isEmpty) then ([], '.' :: (ds ++ tail))
        else ('.' :: (ds ++ tail).takeWhile Char.isDigit, (ds ++ tail).dropWhile Char.isDigit)
       else ([], '.' :: (ds ++ tail))) from rfl]
  obtain ⟨ht, hdr⟩ := takeWhile_all_append Char.isDigit ds tail hds htail
  have hie : ¬ (ds.isEmpty = true) := by
    simpa [List.isEmpty_iff] using hne
  rw [if_pos rfl, ht, hdr, if_neg hie]

theorem matchExp_no_e (cs : List Char)
    (h : ∀ c l, cs = c :: l → (c = 'e' || c = 'E') = false) : matchExp cs = ([], cs) := by
  rcases cs with _ | ⟨c, rest⟩
  · rfl
  · have hc := h c rest rfl
    rw [show matchExp (c :: rest) =
        (if c = 'e' || c = 'E' then
          match rest with
          | s :: rest2 =>
            if s = '+' || s = '-' then
              if (rest2.takeWhile Char.isDigit).isEmpty then ([], c :: rest)
              else (c :: s :: rest2.takeWhile Char.isDigit, rest2.dropWhile Char.isDigit)
            else
              if (rest.takeWhile Char.isDigit).isEmpty then ([], c :: rest)
              else (c :: rest.takeWhile Char.isDigit, rest.dropWhile Char.isDigit)
          | [] => ([], c :: rest)
         else ([], c :: rest)) from rfl]
    rw [if_neg (fun hh => Bool.false_ne_true (hc ▸ hh))]

theorem matchExp_run (e : Char) (sg ds tail : List Char) (he : e = 'e' ∨ e = 'E')
    (hsg : sg = [] ∨ sg = ['+'] ∨ sg = ['-']) (hne : ds ≠ [])
    (hds : ∀ c ∈ ds, c.isDigit = true) (htail : headFails Char.isDigit tail) :
    matchExp ((e :: (sg ++ ds)) ++ tail) = (e :: (sg ++ ds), tail) := by
  obtain ⟨ht, hdr⟩ := takeWhile_all_append Char.isDigit ds tail hds htail
  have heB : (e = 'e' || e = 'E') = true := by
    rcases he with rfl | rfl <;> rfl
  have hie : ¬ (ds.isEmpty = true) := by
    simpa [List.isEmpty_iff] using hne
  rcases hsg with rfl | rfl | rfl
  · obtain ⟨d, ds', rfl⟩ : ∃ d ds', ds = d :: ds' := by
      rcases ds with _ | ⟨d, ds'⟩
      · exact absurd rfl hne
      · exact ⟨d, ds', rfl⟩
    have hd : d.isDigit = true := hds d (by simp)
    have hdp : d ≠ '+' := isDigit_ne d '+' hd (by decide)
    have hdm : d ≠ '-' := isDigit_ne d '-' hd (by decide)
    have hdpm : ¬ ((d = '+' || d = '-') = true) := by
      simp [hdp, hdm]
    show matchExp (e :: (d :: (ds' ++ tail))) = _
    rw [show matchExp (e :: (d :: (ds' ++ tail))) =
        (if e = 'e' || e = 'E' then
          if d = '+' || d = '-' then
            if (((ds' ++ tail).takeWhile Char.isDigit).isEmpty) then
              ([], e :: (d :: (ds' ++ tail)))
            else (e :: d :: (ds' ++ tail).takeWhile Char.isDigit,
              (ds' ++ tail).dropWhile Char.isDigit)
          else
            if (((d :: (ds' ++ tail)).takeWhile Char.isDigit).isEmpty) then
              ([], e :: (d :: (ds' ++ tail)))
            else (e :: (d :: (ds' ++ tail)).takeWhile Char.isDigit,
              (d :: (ds' ++ tail)).dropWhile Char.isDigit)
         else ([], e :: (d :: (ds' ++ tail)))) from rfl]
    rw [if_pos heB, if_neg hdpm]
    rw [show ((d :: (ds' ++ tail)) : List Char) = (d :: ds') ++ tail from rfl, ht, hdr]
    rw [if_neg hie]
    rfl
  · show matchExp (e :: ('+' :: (ds ++ tail))) = _
    rw [show matchExp (e :: ('+' :: (ds ++ tail))) =
        (if e = 'e' || e = 'E' then
          if ('+' : Char) = '+' || ('+' : Char) = '-' then
            if (((ds ++ tail).takeWhile Char.isDigit).isEmpty) then
              ([], e :: ('+' :: (ds ++ tail)))
            else (e :: '+' :: (ds ++ tail).takeWhile Char.isDigit,
              (ds ++ tail).dropWhile Char.isDigit)
          else
            if ((('+' :: (ds ++ tail)).takeWhile Char.isDigit).isEmpty) then
              ([], e :: ('+' :: (ds ++ tail)))
            else (e :: ('+' :: (ds ++ tail)).takeWhile Char.isDigit,
              ('+' :: (ds ++ tail)).dropWhile Char.isDigit)
         else ([], e :: ('+' :: (ds ++ tail)))) from rfl]
    rw [if_pos heB, if_pos (by decide), ht, hdr, if_neg hie]
    rfl
  · show matchExp (e :: ('-' :: (ds ++ tail))) = _
    rw [show matchExp (e :: ('-' :: (ds ++ tail))) =
        (if e = 'e' || e = 'E' then
          if ('-' : Char) = '+' || ('-' : Char) = '-' then
            if (((ds ++ tail).takeWhile Char.isDigit).isEmpty) then
              ([], e :: ('-' :: (ds ++ tail)))
            else (e :: '-' :: (ds ++ tail).takeWhile Char.isDigit,
              (ds ++ tail).dropWhile Char.isDigit)
          else
            if ((('-' :: (ds ++ tail)).takeWhile Char.isDigit).isEmpty) then
              ([], e :: ('-' :: (ds ++ tail)))
            else (e :: ('-' :: (ds ++ tail)).takeWhile Char.isDigit,
              ('-' :: (ds ++ tail)).dropWhile Char.isDigit)
         else ([], e :: ('-' :: (ds ++ tail)))) from rfl]
    rw [if_pos heB, if_pos (by decide), ht, hdr, if_neg hie]
    rfl

theorem matchNumber_complete (n rest : List Char) (hn : JNumberText n)
    (hb : SepBoundary rest) :
    matchNumber (n ++ rest) = some (Span.mk .number (String.mk n) [], rest) := by
  obtain ⟨sign, ip, fp, ep, rfl, hsign, hip, hfp, hep⟩ := hn
  have hrestD : headFails Char.isDigit rest := by
    rcases rest with _ | ⟨c, l⟩
    · trivial
    · exact (sepBoundary_head c l hb).1
  have hepD : headFails Char.isDigit (ep ++ rest) := by
    rcases hep with rfl | ⟨e, sg, ds, rfl, he, _, _, _⟩
    · exact hrestD
    · show Char.isDigit e = false
      rcases he with rfl | rfl <;> decide
  have hfpD : headFails Char.isDigit (fp ++ (ep ++ rest)) := by
    rcases hfp with rfl | ⟨ds, rfl, _, _⟩
    · exact hepD
    · show Char.isDigit '.' = false
      decide
  have hassoc : (sign ++ ip ++ fp ++ ep) ++ rest =
      sign ++ (ip ++ (fp ++ (ep ++ rest))) := by
    simp [List.append_assoc]
  have h1 : matchSign (sign ++ (ip ++ (fp ++ (ep ++ rest)))) =
      (sign, ip ++ (fp ++ (ep ++ rest))) := by
    rcases hsign with rfl | rfl
    · rw [List.nil_append]
      obtain ⟨d, ds, rfl, hd, _⟩ := intText_shape ip hip
      exact matchSign_cons_ne d (ds ++ (fp ++ (ep ++ rest))) (isDigit_ne d '-' hd (by decide))
    · rfl
  have h2 : matchInt (ip ++ (fp ++ (ep ++ rest))) = some (ip, fp ++ (ep ++ rest)) :=
    matchInt_run ip (fp ++ (ep ++ rest)) hip hfpD
  have h3 : matchFrac (fp ++ (ep ++ rest)) = (fp, ep ++ rest) := by
    rcases hfp with rfl | ⟨ds, rfl, hdne, hds⟩
    · rw [List.nil_append]
      refine matchFrac_no_dot (ep ++ rest) ?_
      intro l hEq
      rcases hep with rfl | ⟨e, sg, ds, rfl, he, _, _, _⟩
      · rcases rest with _ | ⟨c, l'⟩
        · exact absurd hEq (by simp)
        · rw [List.nil_append] at hEq
          simp only [List.cons.injEq] at hEq
          exact absurd hEq.1 (sepBoundary_head c l' hb).2.1
      · simp only [List.cons_append, List.cons.injEq] at hEq
        rcases he with rfl | rfl
        · exact absurd hEq.1 (by decide)
        · exact absurd hEq.1 (by decide)
    · exact matchFrac_dot ds (ep ++ rest) hdne hds hepD
  have h4 : matchExp (ep ++ rest) = (ep, rest) := by
    rcases hep with rfl | ⟨e, sg, ds, rfl, he, hsg, hdne, hds⟩
    · rw [List.nil_append]
      refine matchExp_no_e rest ?_
      intro c l hEq
      subst hEq
      have hfacts := sepBoundary_head c l hb
      simp [hfacts.2.2.1, hfacts.2.2.2.1]
    · exact matchExp_run e sg ds rest he hsg hdne hds hrestD
  rw [hassoc]
  unfold matchNumber
  rw [h1]
  simp only []
  rw [h2]
  simp only []
  rw [h3]
  simp only []
  rw [h4]

theorem isHexChar_hexNibble (m : Nat) (h : m < 16) : isHexChar (hexNibble m) = true := by
  interval_cases m <;> decide

theorem hexVal_hexNibble (m : Nat) (h : m < 16) : hexVal? (hexNibble m) = some m := by
  interval_cases m <;> decide

theorem from_str_radix16_00 (m : Nat) (hm : m < 32) :
    from_str_radix16
      (String.mk ['0', '0', hexNibble (m / 16), hexNibble (m % 16)]) = some m := by
  interval_cases m <;> decide

/-- The span the matcher produces for one source character's escaped emission. -/
def escSpan (c : Char) : Span :=
  if c = '"' ∨ c = '\\' ∨ c.toNat < 32 then
    Span.mk .escape_sequence (String.mk (escapeChar c)) []
  else Span.mk .character (String.mk [c]) []

theorem decodeEscape_escapeChar (c : Char) (h : c = '"' ∨ c = '\\' ∨ c.toNat < 32) :
    decodeEscape (String.mk (escapeChar c)) = some (String.mk [c]) := by
  by_cases h1 : c = '"'
  · subst h1; rfl
  · by_cases h2 : c = '\\'
    · subst h2; rfl
    · by_cases h3 : c = '\x08'
      · subst h3; rfl
      · by_cases h4 : c = '\x0C'
        · subst h4; rfl
        · by_cases h5 : c = '\n'
          · subst h5; rfl
          · by_cases h6 : c = '\r'
            · subst h6; rfl
            · by_cases h7 : c = '\t'
              · subst h7; rfl
              · have hlt : c.toNat < 32 := by
                  rcases h with hc | hc | hc
                  · exact absurd hc h1
                  · exact absurd hc h2
                  · exact hc
                have hesc : escapeChar c = ['\\', 'u', '0', '0',
                    hexNibble (c.toNat / 16), hexNibble (c.toNat % 16)] := by
                  unfold escapeChar
                  rw [if_neg h1, if_neg h2, if_neg h3, if_neg h4, if_neg h5, if_neg h6,
                    if_neg h7, if_pos hlt]
                rw [hesc]
                rw [show (String.mk ['\\', 'u', '0', '0', hexNibble (c.toNat / 16),
                    hexNibble (c.toNat % 16)]) =
                    String.mk ('\\' :: 'u' :: ['0', '0', hexNibble (c.toNat / 16),
                    hexNibble (c.toNat % 16)]) from rfl]
                rw [decodeEscape_u _ (by simp)]
                rw [from_str_radix16_00 c.toNat hlt]
                simp only []
                rw [show from_u32 c.toNat = some (Char.ofNat c.toNat) from by
                  unfold from_u32
                  rw [if_pos (by left; omega)]]
                simp only []
                rw [Char.ofNat_toNat]

theorem matchStrBody_encode_esc (f : Nat) (e : Char) (tail rest : List Char) (sps : List Span)
    (he : e = '"' ∨ e = '\\' ∨ e = '/' ∨ e = 'b' ∨ e = 'f' ∨ e = 'n' ∨ e = 'r' ∨ e = 't')
    (hrec : matchStrBody f tail = some (sps, rest)) :
    matchStrBody (f + 1) ('\\' :: e :: tail) =
      some (Span.mk .escape_sequence (String.mk ['\\', e]) [] :: sps, rest) := by
  rw [matchStrBody_cons, if_neg (by decide), if_pos rfl]
  simp only []
  have heB : (e = '"' || e = '\\' || e = '/' || e = 'b' || e = 'f' ||
      e = 'n' || e = 'r' || e = 't') = true := by
    rcases he with rfl | rfl | rfl | rfl | rfl | rfl | rfl | rfl <;> rfl
  rw [if_pos heB, hrec]

theorem matchStrBody_encode_u (f : Nat) (h1 h2 h3 h4 : Char) (tail rest : List Char)
    (sps : List Span)
    (hh : (isHexChar h1 && isHexChar h2 && isHexChar h3 && isHexChar h4) = true)
    (hrec : matchStrBody f tail = some (sps, rest)) :
    matchStrBody (f + 1) ('\\' :: 'u' :: h1 :: h2 :: h3 :: h4 :: tail) =
      some (Span.mk .escape_sequence (String.mk ['\\', 'u', h1, h2, h3, h4]) [] :: sps,
        rest) := by
  rw [matchStrBody_cons, if_neg (by decide), if_pos rfl]
  simp only []
  rw [if_neg (by decide), if_pos (by trivial)]
  rw [if_pos hh, hrec]

theorem matchStrBody_encode_char (f : Nat) (c : Char) (tail rest : List Char) (sps : List Span)
    (hq : c ≠ '"') (hb : c ≠ '\\') (hrec : matchStrBody f tail = some (sps, rest)) :
    matchStrBody (f + 1) (c :: tail) =
      some (Span.mk .character (String.mk [c]) [] :: sps, rest) := by
  rw [matchStrBody_cons, if_neg hq, if_neg hb, hrec]

theorem matchStrBody_encode (l : List Char) : ∀ (fuel : Nat) (rest : List Char),
    ((l.map escapeChar).flatten).length < fuel →
    matchStrBody fuel ((l.map escapeChar).flatten ++ ('"' :: rest)) =
      some (l.map escSpan, rest) := by
  induction l with
  | nil =>
    intro fuel rest hf
    obtain ⟨f, rfl⟩ := fuel_succ fuel (by omega)
    show matchStrBody (f + 1) ('"' :: rest) = some ([], rest)
    rw [matchStrBody_cons, if_pos rfl]
  | cons c l' ih =>
    intro fuel rest hf
    have hflat : ((c :: l').map escapeChar).flatten =
        escapeChar c ++ (l'.map escapeChar).flatten := by simp
    rw [hflat] at hf ⊢
    rw [List.length_append] at hf
    obtain ⟨f, rfl⟩ := fuel_succ fuel (by omega)
    rw [show ((c :: l').map escSpan) = escSpan c :: l'.map escSpan from rfl]
    by_cases h1 : c = '"'
    · subst h1
      rw [show escapeChar '"' = ['\\', '"'] from rfl]
      rw [show escSpan '"' = Span.mk .escape_sequence (String.mk ['\\', '"']) [] from rfl]
      exact matchStrBody_encode_esc f '"' _ rest _ (Or.inl rfl)
        (ih f rest (by rw [show (escapeChar '"').length = 2 from rfl] at hf; omega))
    · by_cases h2 : c = '\\'
      · subst h2
        rw [show escapeChar '\\' = ['\\', '\\'] from rfl]
        rw [show escSpan '\\' = Span.mk .escape_sequence (String.mk ['\\', '\\']) [] from rfl]
        exact matchStrBody_encode_esc f '\\' _ rest _ (Or.inr (Or.inl rfl))
          (ih f rest (by rw [show (escapeChar '\\').length = 2 from rfl] at hf; omega))
      · by_cases h3 : c = '\x08'
        · subst h3
          rw [show escapeChar '\x08' = ['\\', 'b'] from rfl]
          rw [show escSpan '\x08' =
            Span.mk .escape_sequence (String.mk ['\\', 'b']) [] from rfl]
          exact matchStrBody_encode_esc f 'b' _ rest _
            (Or.inr (Or.inr (Or.inr (Or.inl rfl))))
            (ih f rest (by rw [show (escapeChar '\x08').length = 2 from rfl] at hf; omega))
        · by_cases h4 : c = '\x0C'
          · subst h4
            rw [show escapeChar '\x0C' = ['\\', 'f'] from rfl]
            rw [show escSpan '\x0C' =
              Span.mk .escape_sequence (String.mk ['\\', 'f']) [] from rfl]
            exact matchStrBody_encode_esc f 'f' _ rest _
              (Or.inr (Or.inr (Or.inr (Or.inr (Or.inl rfl)))))
              (ih f rest (by rw [show (escapeChar '\x0C').length = 2 from rfl] at hf; omega))
          · by_cases h5 : c = '\n'
            · subst h5
              rw [show escapeChar '\n' = ['\\', 'n'] from rfl]
              rw [show escSpan '\n' =
                Span.mk .escape_sequence (String.mk ['\\', 'n']) [] from rfl]
              exact matchStrBody_encode_esc f 'n' _ rest _
                (Or.inr (Or.inr (Or.inr (Or.inr (Or.inr (Or.inl rfl))))))
                (ih f rest (by rw [show (escapeChar '\n').length = 2 from rfl] at hf; omega))
            · by_cases h6 : c = '\r'
              · subst h6
                rw [show escapeChar '\r' = ['\\', 'r'] from rfl]
                rw [show escSpan '\r' =
                  Span.mk .escape_sequence (String.mk ['\\', 'r']) [] from rfl]
                exact matchStrBody_encode_esc f 'r' _ rest _
                  (Or.inr (Or.inr (Or.inr (Or.inr (Or.inr (Or.inr (Or.inl rfl)))))))
                  (ih f rest
                    (by rw [show (escapeChar '\r').length = 2 from rfl] at hf; omega))
              · by_cases h7 : c = '\t'
                · subst h7
                  rw [show escapeChar '\t' = ['\\', 't'] from rfl]
                  rw [show escSpan '\t' =
                    Span.mk .escape_sequence (String.mk ['\\', 't']) [] from rfl]
                  exact matchStrBody_encode_esc f 't' _ rest _
                    (Or.inr (Or.inr (Or.inr (Or.inr (Or.inr (Or.inr (Or.inr rfl)))))))
                    (ih f rest
                      (by rw [show (escapeChar '\t').length = 2 from rfl] at hf; omega))
                · by_cases hctl : c.toNat < 32
                  · have hesc : escapeChar c = ['\\', 'u', '0', '0',
                        hexNibble (c.toNat / 16), hexNibble (c.toNat % 16)] := by
                      unfold escapeChar
                      rw [if_neg h1, if_neg h2, if_neg h3, if_neg h4, if_neg h5, if_neg h6,
                        if_neg h7, if_pos hctl]
                    have hspan : escSpan c = Span.mk .escape_sequence
                        (String.mk ['\\', 'u', '0', '0', hexNibble (c.toNat / 16),
                          hexNibble (c.toNat % 16)]) [] := by
                      unfold escSpan
                      rw [if_pos (Or.inr (Or.inr hctl)), hesc]
                    rw [hesc] at hf ⊢
                    rw [hspan]
                    exact matchStrBody_encode_u f '0' '0'
                      (hexNibble (c.toNat / 16)) (hexNibble (c.toNat % 16)) _ rest _
                      (by rw [isHexChar_hexNibble (c.toNat / 16) (by omega),
                        isHexChar_hexNibble (c.toNat % 16) (by omega)]; rfl)
                      (ih f rest (by
                        rw [show (['\\', 'u', '0', '0', hexNibble (c.toNat / 16),
                          hexNibble (c.toNat % 16)] : List Char).length = 6 from rfl] at hf
                        omega))
                  · have hesc : escapeChar c = [c] := by
                      unfold escapeChar
                      rw [if_neg h1, if_neg h2, if_neg h3, if_neg h4, if_neg h5, if_neg h6,
                        if_neg h7, if_neg hctl]
                    have hspan : escSpan c = Span.mk .character (String.mk [c]) [] := by
                      unfold escSpan
                      rw [if_neg]
                      intro hh
                      rcases hh with hh | hh | hh
                      · exact h1 hh
                      · exact h2 hh
                      · exact hctl hh
                    rw [hesc] at hf ⊢
                    rw [hspan]
                    exact matchStrBody_encode_char f c _ rest _ h1 h2
                      (ih f rest (by
                        rw [show ([c] : List Char).length = 1 from rfl] at hf; omega))

theorem matchString_encode (s : String) (rest : List Char) :
    matchString (encodeString s ++ rest) =
      some (Span.mk .string "" (s.toList.map escSpan), rest) := by
  show matchString ('"' :: (((s.toList.map escapeChar).flatten ++ ['"']) ++ rest)) = _
  rw [show matchString ('"' :: (((s.toList.map escapeChar).flatten ++ ['"']) ++ rest)) =
      (if ('"' : Char) = '"' then
        match matchStrBody ((((s.toList.map escapeChar).flatten ++ ['"']) ++ rest).length + 1)
            (((s.toList.map escapeChar).flatten ++ ['"']) ++ rest) with
        | none => none
        | some (sps, r) => some (Span.mk .string "" sps, r)
       else none) from rfl]
  rw [if_pos rfl]
  have hform : (((s.toList.map escapeChar).flatten ++ ['"']) ++ rest) =
      ((s.toList.map escapeChar).flatten ++ ('"' :: rest)) := by simp
  rw [hform]
  rw [matchStrBody_encode s.toList _ rest
    (by simp only [List.length_append, List.length_cons]; omega)]

theorem strLoop_escSpans (l : List Char) : ∀ acc : List Char,
    strLoop (l.map escSpan) (String.mk acc) = .ok (String.mk (acc ++ l)) := by
  induction l with
  | nil =>
    intro acc
    rw [List.append_nil]
    rfl
  | cons c l' ih =>
    intro acc
    rw [List.map_cons]
    by_cases hesc : c = '"' ∨ c = '\\' ∨ c.toNat < 32
    · rw [show escSpan c = Span.mk .escape_sequence (String.mk (escapeChar c)) [] from by
        unfold escSpan; rw [if_pos hesc]]
      rw [show strLoop (Span.mk .escape_sequence (String.mk (escapeChar c)) []
            :: l'.map escSpan) (String.mk acc) =
          (match decodeEscape (String.mk (escapeChar c)) with
           | none => .error .JsonParseError
           | some escaped => strLoop (l'.map escSpan) (String.mk acc ++ escaped)) from rfl]
      rw [decodeEscape_escapeChar c hesc]
      simp only []
      rw [show (String.mk acc ++ String.mk [c]) = String.mk (acc ++ [c]) from rfl]
      rw [ih (acc ++ [c])]
      rw [show ((acc ++ [c]) ++ l') = acc ++ (c :: l') from by simp]
    · rw [show escSpan c = Span.mk .character (String.mk [c]) [] from by
        unfold escSpan; rw [if_neg hesc]]
      rw [show strLoop (Span.mk .character (String.mk [c]) [] :: l'.map escSpan)
            (String.mk acc) =
          strLoop (l'.map escSpan) (String.mk acc ++ String.mk [c]) from rfl]
      rw [show (String.mk acc ++ String.mk [c]) = String.mk (acc ++ [c]) from rfl]
      rw [ih (acc ++ [c])]
      rw [show ((acc ++ [c]) ++ l') = acc ++ (c :: l') from by simp]

theorem parse_string_encode (s : String) :
    parse_string (Span.mk .string "" (s.toList.map escSpan)) = .ok s := by
  show strLoop (s.toList.map escSpan) "" = .ok s
  have h := strLoop_escSpans s.toList []
  rw [show (String.mk [] : String) = "" from rfl] at h
  rw [h]
  rw [show (String.mk ([] ++ s.toList)) = s from by cases s; rfl]

theorem matchValue_eq (fuel : Nat) (cs : List Char) :
    matchValue (fuel + 1) cs =
      (match matchObject fuel cs with
       | some r => some r
       | none =>
         match matchArray fuel cs with
         | some r => some r
         | none =>
           match matchString cs with
           | some r => some r
           | none =>
             match matchNumber cs with
             | some r => some r
             | none =>
               match matchBoolean cs with
               | some r => some r
               | none => matchNull cs) := rfl

theorem matchPair_eq (fuel : Nat) (cs : List Char) :
    matchPair (fuel + 1) cs =
      (match matchString cs with
       | none => none
       | some (kSpan, r1) =>
         match skipWs r1 with
         | c :: r2 =>
           if c = ':' then
             match matchValue fuel (skipWs r2) with
             | some (vSpan, r3) => some (Span.mk .pair "" [kSpan, vSpan], r3)
             | none => none
           else none
         | [] => none) := rfl

theorem matchPairsTail_eq (fuel : Nat) (cs : List Char) :
    matchPairsTail (fuel + 1) cs =
      (match skipWs cs with
       | c :: rest =>
         if c = ',' then
           match matchPair fuel (skipWs rest) with
           | some (p, r) =>
             match matchPairsTail fuel r with
             | some (ps, r2) => some (p :: ps, r2)
             | none => none
           | none => some ([], cs)
         else some ([], cs)
       | [] => some ([], cs)) := rfl

theorem matchElemsTail_eq (fuel : Nat) (cs : List Char) :
    matchElemsTail (fuel + 1) cs =
      (match skipWs cs with
       | c :: rest =>
         if c = ',' then
           match matchValue fuel (skipWs rest) with
           | some (v, r) =>
             match matchElemsTail fuel r with
             | some (vs, r2) => some (v :: vs, r2)
             | none => none
           | none => some ([], cs)
         else some ([], cs)
       | [] => some ([], cs)) := rfl

theorem matchPair_cons_ne (fuel : Nat) (c : Char) (l : List Char) (h : c ≠ '"') :
    matchPair fuel (c :: l) = none := by
  cases fuel with
  | zero => rfl
  | succ f => rw [matchPair_eq, matchString_cons_ne c l h]

theorem decodePairs_pair_cons (kSpan vSpan : Span) (sps : List Span) :
    decodePairs (Span.mk .pair "" [kSpan, vSpan] :: sps) =
      (match parse_string kSpan with
       | .error e => .error e
       | .ok key =>
         match parse_value_pair.goValue [vSpan] with
         | .error e => .error e
         | .ok value => (fun ps => (key, value) :: ps) <$> decodePairs sps) := rfl

theorem goArray_value_cons (sp : Span) (sps : List Span) :
    parse_value_pair.goArray (Span.mk .value "" [sp] :: sps) =
      (match parse_value_pair sp with
       | .error e => .error e
       | .ok value => (fun vs => value :: vs) <$> parse_value_pair.goArray sps) := rfl

theorem jNumberText_head (cs : List Char) (h : JNumberText cs) :
    ∃ d t, cs = d :: t ∧ (d.isDigit = true ∨ d = '-') := by
  obtain ⟨sign, ip, fp, ep, rfl, hsign, hip, _, _⟩ := h
  rcases hsign with rfl | rfl
  · obtain ⟨d, ds, rfl, hd, _⟩ := intText_shape ip hip
    exact ⟨d, (ds ++ fp) ++ ep, by simp, Or.inl hd⟩
  · exact ⟨'-', (ip ++ fp) ++ ep, by simp, Or.inr rfl⟩

theorem minify_head (v : Value) (hinv : ValueInv v) :
    ∃ c t, minifyChars v = c :: t ∧ isWsChar c = false := by
  cases hinv with
  | null => exact ⟨'n', _, rfl, by decide⟩
  | bool b =>
    cases b
    · exact ⟨'f', _, rfl, by decide⟩
    · exact ⟨'t', _, rfl, by decide⟩
  | num n hn =>
    obtain ⟨d, t, hcons, hd⟩ := jNumberText_head n.toList hn
    refine ⟨d, t, hcons, ?_⟩
    rcases hd with hd | rfl
    · exact isDigit_not_ws d hd
    · decide
  | str s => exact ⟨'"', _, rfl, by decide⟩
  | arr items _ =>
    rcases items with _ | ⟨v1, rest⟩
    · exact ⟨'[', _, rfl, by decide⟩
    · exact ⟨'[', _, rfl, by decide⟩
  | obj entries _ _ =>
    rcases entries with _ | ⟨⟨k, v1⟩, rest⟩
    · exact ⟨'\x7b', _, rfl, by decide⟩
    · exact ⟨'\x7b', _, rfl, by decide⟩

theorem matchElemsTail_complete (vs : List Value)
    (hinv : ∀ v ∈ vs, ValueInv v)
    (hIH : ∀ v ∈ vs, ∀ (fuel : Nat) (rest : List Char), SepBoundary rest →
      needFuel v ≤ fuel →
      ∃ sp, matchValue fuel (minifyChars v ++ rest) = some (sp, rest) ∧
        parse_value_pair sp = .ok v) :
    ∀ (fuel : Nat) (rest : List Char), needFuel.goTailFuel vs ≤ fuel →
      ∃ sps, matchElemsTail fuel (minifyChars.goElemsTail vs ++ (']' :: rest)) =
          some (sps, ']' :: rest) ∧
        parse_value_pair.goArray (sps.map (fun sp => Span.mk .value "" [sp])) = .ok vs := by
  induction vs with
  | nil =>
    intro fuel rest hf
    have hf' : 1 ≤ fuel := hf
    obtain ⟨f, rfl⟩ := fuel_succ fuel (by omega)
    refine ⟨[], ?_, rfl⟩
    show matchElemsTail (f + 1) (']' :: rest) = some ([], ']' :: rest)
    rw [matchElemsTail_eq, skipWs_cons_not_ws ']' rest (by decide)]
    simp only []
    rw [if_neg (by decide)]
  | cons v vs' ih =>
    intro fuel rest hf
    have hf' : needFuel v + needFuel.goTailFuel vs' + 1 ≤ fuel := hf
    obtain ⟨f, rfl⟩ := fuel_succ fuel (by omega)
    have hbRest : SepBoundary (minifyChars.goElemsTail vs' ++ (']' :: rest)) := by
      rcases vs' with _ | ⟨w, ws⟩
      · exact Or.inr (Or.inl rfl)
      · exact Or.inl rfl
    obtain ⟨sp1, hm1, hb1⟩ := hIH v (by simp) f (minifyChars.goElemsTail vs' ++ (']' :: rest))
      hbRest (by omega)
    obtain ⟨sps', hm2, hb2⟩ := ih (fun w hw => hinv w (by simp [hw]))
      (fun w hw => hIH w (by simp [hw])) f rest (by omega)
    obtain ⟨hc, ht, hcons, hcws⟩ := minify_head v (hinv v (by simp))
    have hskip : skipWs (minifyChars v ++ (minifyChars.goElemsTail vs' ++ (']' :: rest))) =
        minifyChars v ++ (minifyChars.goElemsTail vs' ++ (']' :: rest)) := by
      rw [hcons, List.cons_append]
      exact skipWs_cons_not_ws hc _ hcws
    refine ⟨sp1 :: sps', ?_, ?_⟩
    · rw [show minifyChars.goElemsTail (v :: vs') ++ (']' :: rest) =
          ',' :: (minifyChars v ++ (minifyChars.goElemsTail vs' ++ (']' :: rest))) from by
        show (',' :: (minifyChars v ++ minifyChars.goElemsTail vs')) ++ (']' :: rest) = _
        simp [List.append_assoc]]
      rw [matchElemsTail_eq, skipWs_cons_not_ws ',' _ (by decide)]
      simp only []
      rw [if_pos (by trivial), hskip, hm1]
      simp only []
      rw [hm2]
    · rw [List.map_cons, goArray_value_cons, hb1]
      simp only []
      rw [hb2]
      rfl

theorem matchPair_complete (k : String) (v : Value) (hinv : ValueInv v)
    (hIH : ∀ (fuel : Nat) (rest : List Char), SepBoundary rest → needFuel v ≤ fuel →
      ∃ sp, matchValue fuel (minifyChars v ++ rest) = some (sp, rest) ∧
        parse_value_pair sp = .ok v) :
    ∀ (fuel : Nat) (rest : List Char), SepBoundary rest → needFuel v + 1 ≤ fuel →
      ∃ vSpan,
        matchPair fuel ((encodeString k ++ (':' :: minifyChars v)) ++ rest) =
          some (Span.mk .pair ""
            [Span.mk .string "" (k.toList.map escSpan), vSpan], rest) ∧
        parse_value_pair vSpan = .ok v := by
  intro fuel rest hb hf
  obtain ⟨f, rfl⟩ := fuel_succ fuel (by omega)
  obtain ⟨sp, hm, hbuild⟩ := hIH f rest hb (by omega)
  obtain ⟨hc, ht, hcons, hcws⟩ := minify_head v hinv
  have hskip : skipWs (minifyChars v ++ rest) = minifyChars v ++ rest := by
    rw [hcons, List.cons_append]
    exact skipWs_cons_not_ws hc _ hcws
  refine ⟨sp, ?_, hbuild⟩
  rw [matchPair_eq]
  rw [show (encodeString k ++ (':' :: minifyChars v)) ++ rest =
      encodeString k ++ ((':' :: minifyChars v) ++ rest) from List.append_assoc _ _ _]
  rw [matchString_encode k ((':' :: minifyChars v) ++ rest)]
  simp only []
  rw [show ((':' :: minifyChars v) ++ rest) = ':' :: (minifyChars v ++ rest) from rfl]
  rw [skipWs_cons_not_ws ':' _ (by decide)]
  simp only []
  rw [if_pos (by trivial), hskip, hm]

theorem matchPairsTail_complete (ps : List (String × Value))
    (hinv : ∀ kv ∈ ps, ValueInv kv.2)
    (hIH : ∀ kv ∈ ps, ∀ (fuel : Nat) (rest : List Char), SepBoundary rest →
      needFuel kv.2 ≤ fuel →
      ∃ sp, matchValue fuel (minifyChars kv.2 ++ rest) = some (sp, rest) ∧
        parse_value_pair sp = .ok kv.2) :
    ∀ (fuel : Nat) (rest : List Char), needFuel.goPairFuel ps ≤ fuel →
      ∃ sps, matchPairsTail fuel (minifyChars.goPairsTail ps ++ ('\x7d' :: rest)) =
          some (sps, '\x7d' :: rest) ∧
        decodePairs sps = .ok ps := by
  induction ps with
  | nil =>
    intro fuel rest hf
    have hf' : 1 ≤ fuel := hf
    obtain ⟨f, rfl⟩ := fuel_succ fuel (by omega)
    refine ⟨[], ?_, rfl⟩
    show matchPairsTail (f + 1) ('\x7d' :: rest) = some ([], '\x7d' :: rest)
    rw [matchPairsTail_eq, skipWs_cons_not_ws '\x7d' rest (by decide)]
    simp only []
    rw [if_neg (by decide)]
  | cons p ps' ih =>
    obtain ⟨k, v⟩ := p
    intro fuel rest hf
    have hf' : needFuel v + needFuel.goPairFuel ps' + 2 ≤ fuel := hf
    obtain ⟨f, rfl⟩ := fuel_succ fuel (by omega)
    have hbRest : SepBoundary (minifyChars.goPairsTail ps' ++ ('\x7d' :: rest)) := by
      rcases ps' with _ | ⟨⟨k2, w⟩, ws⟩
      · exact Or.inr (Or.inr rfl)
      · exact Or.inl rfl
    obtain ⟨vSpan, hmp, hbv⟩ := matchPair_complete k v (hinv ⟨k, v⟩ (by simp))
      (hIH ⟨k, v⟩ (by simp)) f (minifyChars.goPairsTail ps' ++ ('\x7d' :: rest))
      hbRest (by omega)
    obtain ⟨sps', hmt, hdec⟩ := ih (fun kv hkv => hinv kv (by simp [hkv]))
      (fun kv hkv => hIH kv (by simp [hkv])) f rest (by omega)
    refine ⟨Span.mk .pair "" [Span.mk .string "" (k.toList.map escSpan), vSpan] :: sps',
      ?_, ?_⟩
    · rw [show minifyChars.goPairsTail ((k, v) :: ps') ++ ('\x7d' :: rest) =
          ',' :: ((encodeString k ++ (':' :: minifyChars v)) ++
            (minifyChars.goPairsTail ps' ++ ('\x7d' :: rest))) from by
        show (',' :: ((encodeString k ++ (':' :: minifyChars v)) ++
          minifyChars.goPairsTail ps')) ++ ('\x7d' :: rest) = _
        simp [List.append_assoc]]
      rw [matchPairsTail_eq, skipWs_cons_not_ws ',' _ (by decide)]
      simp only []
      rw [if_pos (by trivial)]
      have hskipP : skipWs ((encodeString k ++ (':' :: minifyChars v)) ++
          (minifyChars.goPairsTail ps' ++ ('\x7d' :: rest))) =
          (encodeString k ++ (':' :: minifyChars v)) ++
            (minifyChars.goPairsTail ps' ++ ('\x7d' :: rest)) := by
        show skipWs ('"' :: _) = _
        exact skipWs_cons_not_ws '"' _ (by decide)
      rw [hskipP, hmp]
      simp only []
      rw [hmt]
    · rw [decodePairs_pair_cons, parse_string_encode k]
      simp only []
      rw [show parse_value_pair.goValue [vSpan] = parse_value_pair vSpan from rfl, hbv]
      simp only []
      rw [hdec]
      rfl

theorem needFuel_pos (v : Value) : 1 ≤ needFuel v := by
  cases v with
  | null => exact le_refl 1
  | bool b => exact le_refl 1
  | num n => exact le_refl 1
  | str s => exact le_refl 1
  | arr items =>
    rcases items with _ | ⟨a, b⟩
    · show (1 : Nat) ≤ 2
      omega
    · show 1 ≤ needFuel a + needFuel.goTailFuel b + 2
      omega
  | obj entries =>
    rcases entries with _ | ⟨⟨k, w⟩, b⟩
    · show (1 : Nat) ≤ 2
      omega
    · show 1 ≤ needFuel w + needFuel.goPairFuel b + 3
      omega

theorem matchArray_complete (items : List Value)
    (hinv : ∀ v ∈ items, ValueInv v)
    (hIH : ∀ v ∈ items, ∀ (fuel : Nat) (rest : List Char), SepBoundary rest →
      needFuel v ≤ fuel →
      ∃ sp, matchValue fuel (minifyChars v ++ rest) = some (sp, rest) ∧
        parse_value_pair sp = .ok v) :
    ∀ (fuel : Nat) (rest : List Char), needFuel (.arr items) ≤ fuel + 1 →
      ∃ sp, matchArray fuel (minifyChars (.arr items) ++ rest) = some (sp, rest) ∧
        parse_value_pair sp = .ok (.arr items) := by
  intro fuel rest hf
  rcases items with _ | ⟨v1, items'⟩
  · have hf' : 2 ≤ fuel + 1 := hf
    obtain ⟨f, rfl⟩ := fuel_succ fuel (by omega)
    refine ⟨Span.mk .array "" [], ?_, rfl⟩
    show matchArray (f + 1) ('[' :: (']' :: rest)) = _
    rw [matchArray_cons, if_pos (by trivial)]
    have hv : matchValue f (skipWs (']' :: rest)) = none := by
      rw [skipWs_cons_not_ws ']' rest (by decide)]
      refine matchValue_cons_fail f ']' rest ?_ ?_ ?_ ?_ ?_ ?_ ?_ ?_ <;> decide
    rw [hv]
    simp only []
    rw [skipWs_cons_not_ws ']' rest (by decide)]
    simp only []
    rw [if_pos (by trivial)]
  · have hf' : needFuel v1 + needFuel.goTailFuel items' + 2 ≤ fuel + 1 := hf
    obtain ⟨f, rfl⟩ := fuel_succ fuel (by omega)
    have hbT : SepBoundary (minifyChars.goElemsTail items' ++ (']' :: rest)) := by
      rcases items' with _ | ⟨w, ws⟩
      · exact Or.inr (Or.inl rfl)
      · exact Or.inl rfl
    obtain ⟨sp1, hm1, hb1⟩ := hIH v1 (by simp) f
      (minifyChars.goElemsTail items' ++ (']' :: rest)) hbT (by omega)
    obtain ⟨sps, hmt, hbt⟩ := matchElemsTail_complete items'
      (fun w hw => hinv w (by simp [hw])) (fun w hw => hIH w (by simp [hw])) f rest (by omega)
    obtain ⟨hc, ht, hcons, hcws⟩ := minify_head v1 (hinv v1 (by simp))
    have hskip : skipWs (minifyChars v1 ++ (minifyChars.goElemsTail items' ++ (']' :: rest))) =
        minifyChars v1 ++ (minifyChars.goElemsTail items' ++ (']' :: rest)) := by
      rw [hcons, List.cons_append]
      exact skipWs_cons_not_ws hc _ hcws
    refine ⟨Span.mk .array "" (Span.mk .value "" [sp1] ::
      sps.map (fun sp => Span.mk .value "" [sp])), ?_, ?_⟩
    · show matchArray (f + 1)
        ('[' :: (((minifyChars v1 ++ minifyChars.goElemsTail items') ++ [']']) ++ rest)) = _
      rw [matchArray_cons, if_pos (by trivial)]
      rw [show (((minifyChars v1 ++ minifyChars.goElemsTail items') ++ [']']) ++ rest) =
          minifyChars v1 ++ (minifyChars.goElemsTail items' ++ (']' :: rest)) from by
        simp [List.append_assoc]]
      rw [hskip, hm1]
      simp only []
      rw [hmt]
      simp only []
      rw [skipWs_cons_not_ws ']' rest (by decide)]
      simp only []
      rw [if_pos (by trivial)]
    · show (Value.arr <$> parse_value_pair.goArray (Span.mk .value "" [sp1] ::
        sps.map (fun sp => Span.mk .value "" [sp]))) = _
      rw [goArray_value_cons, hb1]
      simp only []
      rw [hbt]
      rfl

theorem matchObject_complete (entries : List (String × Value))
    (hnodup : (entries.map Prod.fst).Nodup)
    (hinv : ∀ kv ∈ entries, ValueInv kv.2)
    (hIH : ∀ kv ∈ entries, ∀ (fuel : Nat) (rest : List Char), SepBoundary rest →
      needFuel kv.2 ≤ fuel →
      ∃ sp, matchValue fuel (minifyChars kv.2 ++ rest) = some (sp, rest) ∧
        parse_value_pair sp = .ok kv.2) :
    ∀ (fuel : Nat) (rest : List Char), needFuel (.obj entries) ≤ fuel + 1 →
      ∃ sp, matchObject fuel (minifyChars (.obj entries) ++ rest) = some (sp, rest) ∧
        parse_value_pair sp = .ok (.obj entries) := by
  intro fuel rest hf
  rcases entries with _ | ⟨⟨k, v⟩, ps⟩
  · have hf' : 2 ≤ fuel + 1 := hf
    obtain ⟨f, rfl⟩ := fuel_succ fuel (by omega)
    refine ⟨Span.mk .object "" [], ?_, rfl⟩
    show matchObject (f + 1) ('\x7b' :: ('\x7d' :: rest)) = _
    rw [matchObject_cons, if_pos (by trivial)]
    rw [skipWs_cons_not_ws '\x7d' rest (by decide)]
    rw [matchPair_cons_ne f '\x7d' rest (by decide)]
    simp only []
    rw [if_pos (by trivial)]
  · have hf' : needFuel v + needFuel.goPairFuel ps + 3 ≤ fuel + 1 := hf
    obtain ⟨f, rfl⟩ := fuel_succ fuel (by omega)
    have hbT : SepBoundary (minifyChars.goPairsTail ps ++ ('\x7d' :: rest)) := by
      rcases ps with _ | ⟨⟨k2, w⟩, ws⟩
      · exact Or.inr (Or.inr rfl)
      · exact Or.inl rfl
    obtain ⟨vSpan, hmp, hbv⟩ := matchPair_complete k v (hinv ⟨k, v⟩ (by simp))
      (hIH ⟨k, v⟩ (by simp)) f (minifyChars.goPairsTail ps ++ ('\x7d' :: rest)) hbT (by omega)
    obtain ⟨sps, hmt, hdec⟩ := matchPairsTail_complete ps
      (fun kv hkv => hinv kv (by simp [hkv])) (fun kv hkv => hIH kv (by simp [hkv]))
      f rest (by omega)
    refine ⟨Span.mk .object ""
      (Span.mk .pair "" [Span.mk .string "" (k.toList.map escSpan), vSpan] :: sps), ?_, ?_⟩
    · show matchObject (f + 1) ('\x7b' :: ((((encodeString k ++ (':' :: minifyChars v)) ++
        minifyChars.goPairsTail ps) ++ ['\x7d']) ++ rest)) = _
      rw [matchObject_cons, if_pos (by trivial)]
      rw [show ((((encodeString k ++ (':' :: minifyChars v)) ++
          minifyChars.goPairsTail ps) ++ ['\x7d']) ++ rest) =
          (encodeString k ++ (':' :: minifyChars v)) ++
            (minifyChars.goPairsTail ps ++ ('\x7d' :: rest)) from by
        simp [List.append_assoc]]
      have hskipP : skipWs ((encodeString k ++ (':' :: minifyChars v)) ++
          (minifyChars.goPairsTail ps ++ ('\x7d' :: rest))) =
          (encodeString k ++ (':' :: minifyChars v)) ++
            (minifyChars.goPairsTail ps ++ ('\x7d' :: rest)) := by
        show skipWs ('"' :: _) = _
        exact skipWs_cons_not_ws '"' _ (by decide)
      rw [hskipP, hmp]
      simp only []
      rw [hmt]
      simp only []
      rw [skipWs_cons_not_ws '\x7d' rest (by decide)]
      simp only []
      rw [if_pos (by trivial)]
    · show (Value.obj <$> parse_value_pair.goObject (Span.mk .pair ""
        [Span.mk .string "" (k.toList.map escSpan), vSpan] :: sps) []) = _
      rw [goObject_eq_insertAll, decodePairs_pair_cons, parse_string_encode k]
      simp only []
      rw [show parse_value_pair.goValue [vSpan] = parse_value_pair vSpan from rfl, hbv]
      simp only []
      rw [hdec]
      have hins : insertAll [] ((k, v) :: ps) = (k, v) :: ps :=
        insertAll_nodup_id ((k, v) :: ps) [] (by simpa using hnodup)
      show Except.ok (Value.obj (insertAll [] ((k, v) :: ps))) =
        Except.ok (Value.obj ((k, v) :: ps))
      rw [hins]

theorem matchValue_complete (v : Value) : ValueInv v →
    ∀ (fuel : Nat) (rest : List Char), SepBoundary rest → needFuel v ≤ fuel →
    ∃ sp, matchValue fuel (minifyChars v ++ rest) = some (sp, rest) ∧
      parse_value_pair sp = .ok v := by
  induction v using value_induction with
  | hnull =>
    intro _ fuel rest hb hf
    have hf' : 1 ≤ fuel := hf
    obtain ⟨f, rfl⟩ := fuel_succ fuel (by omega)
    have hO : matchObject f (minifyChars Value.null ++ rest) = none :=
      matchObject_cons_ne f 'n' _ (by decide)
    have hA : matchArray f (minifyChars Value.null ++ rest) = none :=
      matchArray_cons_ne f 'n' _ (by decide)
    have hS : matchString (minifyChars Value.null ++ rest) = none :=
      matchString_cons_ne 'n' _ (by decide)
    have hN : matchNumber (minifyChars Value.null ++ rest) = none :=
      matchNumber_cons_ne 'n' _ (by decide) (by decide)
    have hB : matchBoolean (minifyChars Value.null ++ rest) = none :=
      matchBoolean_cons_ne 'n' _ (by decide) (by decide)
    have hNull : matchNull (minifyChars Value.null ++ rest) =
      some (Span.mk .null "null" [], rest) := rfl
    refine ⟨Span.mk .null "null" [], ?_, rfl⟩
    rw [matchValue_eq, hO, hA, hS, hN, hB, hNull]
  | hbool b =>
    intro _ fuel rest hb hf
    have hf' : 1 ≤ fuel := hf
    obtain ⟨f, rfl⟩ := fuel_succ fuel (by omega)
    cases b
    · have hO : matchObject f (minifyChars (Value.bool false) ++ rest) = none :=
        matchObject_cons_ne f 'f' _ (by decide)
      have hA : matchArray f (minifyChars (Value.bool false) ++ rest) = none :=
        matchArray_cons_ne f 'f' _ (by decide)
      have hS : matchString (minifyChars (Value.bool false) ++ rest) = none :=
        matchString_cons_ne 'f' _ (by decide)
      have hN : matchNumber (minifyChars (Value.bool false) ++ rest) = none :=
        matchNumber_cons_ne 'f' _ (by decide) (by decide)
      have hB : matchBoolean (minifyChars (Value.bool false) ++ rest) =
        some (Span.mk .boolean "false" [], rest) := rfl
      refine ⟨Span.mk .boolean "false" [], ?_, rfl⟩
      rw [matchValue_eq, hO, hA, hS, hN, hB]
    · have hO : matchObject f (minifyChars (Value.bool true) ++ rest) = none :=
        matchObject_cons_ne f 't' _ (by decide)
      have hA : matchArray f (minifyChars (Value.bool true) ++ rest) = none :=
        matchArray_cons_ne f 't' _ (by decide)
      have hS : matchString (minifyChars (Value.bool true) ++ rest) = none :=
        matchString_cons_ne 't' _ (by decide)
      have hN : matchNumber (minifyChars (Value.bool true) ++ rest) = none :=
        matchNumber_cons_ne 't' _ (by decide) (by decide)
      have hB : matchBoolean (minifyChars (Value.bool true) ++ rest) =
        some (Span.mk .boolean "true" [], rest) := rfl
      refine ⟨Span.mk .boolean "true" [], ?_, rfl⟩
      rw [matchValue_eq, hO, hA, hS, hN, hB]
  | hnum n =>
    intro hinv fuel rest hb hf
    have hn : JNumberText n.toList := by
      cases hinv with | num _ h => exact h
    have hf' : 1 ≤ fuel := hf
    obtain ⟨f, rfl⟩ := fuel_succ fuel (by omega)
    obtain ⟨d, t, hcons, hd⟩ := jNumberText_head n.toList hn
    have hne : d ≠ '\x7b' ∧ d ≠ '[' ∧ d ≠ '"' := by
      rcases hd with hd | rfl
      · exact ⟨isDigit_ne d '\x7b' hd (by decide), isDigit_ne d '[' hd (by decide),
          isDigit_ne d '"' hd (by decide)⟩
      · exact ⟨by decide, by decide, by decide⟩
    have hm := matchNumber_complete n.toList rest hn hb
    rw [hcons] at hm
    have htext : String.mk (d :: t) = n := by
      rw [← hcons]
      rfl
    rw [show minifyChars (Value.num n) = n.toList from rfl, hcons]
    have hO : matchObject f ((d :: t) ++ rest) = none :=
      matchObject_cons_ne f d (t ++ rest) hne.1
    have hA : matchArray f ((d :: t) ++ rest) = none :=
      matchArray_cons_ne f d (t ++ rest) hne.2.1
    have hS : matchString ((d :: t) ++ rest) = none :=
      matchString_cons_ne d (t ++ rest) hne.2.2
    refine ⟨Span.mk .number (String.mk (d :: t)) [], ?_, ?_⟩
    · rw [matchValue_eq, hO, hA, hS]
      simp only []
      rw [hm]
    · show Except.ok (Value.num (String.mk (d :: t))) = Except.ok (Value.num n)
      rw [htext]
  | hstr s =>
    intro _ fuel rest hb hf
    have hf' : 1 ≤ fuel := hf
    obtain ⟨f, rfl⟩ := fuel_succ fuel (by omega)
    have hO : matchObject f (minifyChars (Value.str s) ++ rest) = none :=
      matchObject_cons_ne f '"' _ (by decide)
    have hA : matchArray f (minifyChars (Value.str s) ++ rest) = none :=
      matchArray_cons_ne f '"' _ (by decide)
    have hS : matchString (minifyChars (Value.str s) ++ rest) =
        some (Span.mk .string "" (s.toList.map escSpan), rest) := matchString_encode s rest
    refine ⟨Span.mk .string "" (s.toList.map escSpan), ?_, ?_⟩
    · rw [matchValue_eq, hO, hA]
      simp only []
      rw [hS]
    · show Value.str <$> parse_string (Span.mk .string "" (s.toList.map escSpan)) = _
      rw [parse_string_encode s]
      rfl
  | harr items ihm =>
    intro hinv fuel rest hb hf
    have hmem : ∀ w ∈ items, ValueInv w := by
      cases hinv with | arr _ h => exact h
    obtain ⟨f, rfl⟩ :=
      fuel_succ fuel (by have := needFuel_pos (Value.arr items); omega)
    obtain ⟨sp, hm, hb'⟩ := matchArray_complete items hmem
      (fun w hw => ihm w hw (hmem w hw)) f rest hf
    have hO : matchObject f (minifyChars (Value.arr items) ++ rest) = none := by
      rcases items with _ | ⟨v1, items'⟩
      · exact matchObject_cons_ne f '[' _ (by decide)
      · exact matchObject_cons_ne f '[' _ (by decide)
    refine ⟨sp, ?_, hb'⟩
    rw [matchValue_eq, hO]
    simp only []
    rw [hm]
  | hobj entries ihm =>
    intro hinv fuel rest hb hf
    obtain ⟨hnd, hmem⟩ : ((entries.map Prod.fst).Nodup) ∧ (∀ kv ∈ entries, ValueInv kv.2) := by
      cases hinv with | obj _ h1 h2 => exact ⟨h1, h2⟩
    obtain ⟨f, rfl⟩ :=
      fuel_succ fuel (by have := needFuel_pos (Value.obj entries); omega)
    obtain ⟨sp, hm, hb'⟩ := matchObject_complete entries hnd hmem
      (fun kv hkv => ihm kv hkv (hmem kv hkv)) f rest hf
    refine ⟨sp, ?_, hb'⟩
    rw [matchValue_eq, hm]

theorem escOK_mk (r : Rule) (t : String) (cs : List Span) :
    escOK (Span.mk r t cs) =
      ((if r = .escape_sequence then (decodeEscape t).isSome else true) &&
        escOK.goList cs) := rfl

theorem escOK_goList_cons (sp : Span) (sps : List Span) :
    escOK.goList (sp :: sps) = (escOK sp && escOK.goList sps) := rfl

theorem strLoop_ok_of_escOK (sps : List Span) :
    ∀ acc, escOK.goList sps = true → ∃ s, strLoop sps acc = .ok s := by
  induction sps with
  | nil => intro acc _; exact ⟨acc, rfl⟩
  | cons sp rest ih =>
    intro acc h
    obtain ⟨r, t, cs⟩ := sp
    rw [escOK_goList_cons] at h
    obtain ⟨h1, h2⟩ := (Bool.and_eq_true _ _).mp h
    cases r with
    | character => exact ih (acc ++ t) h2
    | escape_sequence =>
      have hdec : (decodeEscape t).isSome = true := by
        rw [escOK_mk] at h1
        have hx := ((Bool.and_eq_true _ _).mp h1).1
        simpa using hx
      obtain ⟨e, he⟩ := Option.isSome_iff_exists.mp hdec
      rw [show strLoop (Span.mk .escape_sequence t cs :: rest) acc =
          (match decodeEscape t with
           | none => Except.error ParserError.JsonParseError
           | some escaped => strLoop rest (acc ++ escaped)) from rfl]
      rw [he]
      exact ih (acc ++ e) h2
    | json => exact ih acc h2
    | object => exact ih acc h2
    | array => exact ih acc h2
    | pair => exact ih acc h2
    | string => exact ih acc h2
    | number => exact ih acc h2
    | boolean => exact ih acc h2
    | null => exact ih acc h2
    | value => exact ih acc h2

theorem parse_string_ok_of_escOK (sp : Span) (h : escOK sp = true) :
    ∃ s, parse_string sp = .ok s := by
  obtain ⟨r, t, cs⟩ := sp
  rw [escOK_mk] at h
  exact strLoop_ok_of_escOK cs "" ((Bool.and_eq_true _ _).mp h).2

theorem parse_value_pair_number (t : String) (cs : List Span) :
    parse_value_pair (Span.mk .number t cs) = .ok (.num t) := rfl

theorem matchNumber_text (cs : List Char) (sp : Span) (r : List Char)
    (h : matchNumber cs = some (sp, r)) :
    sp = Span.mk .number sp.text [] ∧ JNumberText sp.text.toList := by
  unfold matchNumber at h
  rcases hint : matchInt (matchSign cs).2 with _ | ⟨ip, csMid⟩
  · rw [hint] at h
    exact absurd h (by simp)
  · rw [hint] at h
    simp only [Option.some.injEq, Prod.mk.injEq] at h
    obtain ⟨heq, -⟩ := h
    subst heq
    obtain ⟨-, hsignP⟩ := matchSign_sound cs
    obtain ⟨-, hintP⟩ := matchInt_sound _ ip csMid hint
    obtain ⟨-, hfracP⟩ := matchFrac_sound csMid
    obtain ⟨-, hexpP⟩ := matchExp_sound (matchFrac csMid).2
    exact ⟨rfl, (matchSign cs).1, ip, (matchFrac csMid).1, (matchExp (matchFrac csMid).2).1,
      rfl, hsignP, hintP, hfracP, hexpP⟩

/-- A span that builds successfully when its escapes decode, and whose build result
always satisfies the value invariant. -/
def BuildOK (sp : Span) : Prop :=
  (escOK sp = true → ∃ v, parse_value_pair sp = .ok v) ∧
  (∀ v, parse_value_pair sp = .ok v → ValueInv v)

/-- The shape and build facts of a `pair` span produced by the matcher. -/
def PairOK (sp : Span) : Prop :=
  ∃ kSpan vSpan, sp = Span.mk .pair "" [kSpan, vSpan] ∧ BuildOK vSpan

/-- The shape and build facts of an array element wrapper span. -/
def WrapOK (sp : Span) : Prop :=
  ∃ inner, sp = Span.mk .value "" [inner] ∧ BuildOK inner

theorem matchString_buildOK (cs : List Char) (sp : Span) (r : List Char)
    (h : matchString cs = some (sp, r)) : BuildOK sp := by
  rcases cs with _ | ⟨c, rest⟩
  · exact absurd h (by simp [matchString])
  · rw [show matchString (c :: rest) = (if c = '"' then
        match matchStrBody (rest.length + 1) rest with
        | none => none
        | some (sps, r2) => some (Span.mk .string "" sps, r2)
       else none) from rfl] at h
    by_cases hq : c = '"'
    · rw [if_pos hq] at h
      rcases hsb : matchStrBody (rest.length + 1) rest with _ | ⟨sps, r2⟩
      · rw [hsb] at h
        exact absurd h (by simp)
      · rw [hsb] at h
        simp only [Option.some.injEq, Prod.mk.injEq] at h
        obtain ⟨rfl, rfl⟩ := h
        constructor
        · intro hesc
          rw [escOK_mk] at hesc
          obtain ⟨-, hch⟩ := (Bool.and_eq_true _ _).mp hesc
          obtain ⟨s, hs⟩ := strLoop_ok_of_escOK sps "" hch
          refine ⟨.str s, ?_⟩
          show Value.str <$> parse_string (Span.mk .string "" sps) = _
          rw [show parse_string (Span.mk .string "" sps) = strLoop sps "" from rfl, hs]
          rfl
        · intro v hv
          rcases hps : parse_string (Span.mk .string "" sps) with e | s
          · rw [show parse_value_pair (Span.mk .string "" sps) =
              Value.str <$> parse_string (Span.mk .string "" sps) from rfl, hps] at hv
            exact absurd hv (by simp [Except.map])
          · rw [show parse_value_pair (Span.mk .string "" sps) =
              Value.str <$> parse_string (Span.mk .string "" sps) from rfl, hps] at hv
            rw [show (Value.str <$> (Except.ok s : Except ParserError String)) =
              Except.ok (Value.str s) from rfl] at hv
            cases hv
            exact ValueInv.str s
    · rw [if_neg hq] at h
      exact absurd h (by simp)

theorem matchNumber_buildOK (cs : List Char) (sp : Span) (r : List Char)
    (h : matchNumber cs = some (sp, r)) : BuildOK sp := by
  obtain ⟨hshape, htext⟩ := matchNumber_text cs sp r h
  rw [hshape]
  constructor
  · intro _
    exact ⟨.num sp.text, parse_value_pair_number sp.text []⟩
  · intro v hv
    rw [parse_value_pair_number] at hv
    cases hv
    exact ValueInv.num sp.text htext

theorem matchBoolean_buildOK (cs : List Char) (sp : Span) (r : List Char)
    (h : matchBoolean cs = some (sp, r)) : BuildOK sp := by
  unfold matchBoolean at h
  by_cases ht : cs.take 4 = "true".toList
  · rw [if_pos ht] at h
    simp only [Option.some.injEq, Prod.mk.injEq] at h
    obtain ⟨rfl, rfl⟩ := h
    refine ⟨fun _ => ⟨.bool true, rfl⟩, fun v hv => ?_⟩
    rw [show parse_value_pair (Span.mk .boolean "true" []) =
      Except.ok (Value.bool true) from rfl] at hv
    cases hv
    exact ValueInv.bool true
  · rw [if_neg ht] at h
    by_cases hf : cs.take 5 = "false".toList
    · rw [if_pos hf] at h
      simp only [Option.some.injEq, Prod.mk.injEq] at h
      obtain ⟨rfl, rfl⟩ := h
      refine ⟨fun _ => ⟨.bool false, rfl⟩, fun v hv => ?_⟩
      rw [show parse_value_pair (Span.mk .boolean "false" []) =
        Except.ok (Value.bool false) from rfl] at hv
      cases hv
      exact ValueInv.bool false
    · rw [if_neg hf] at h
      exact absurd h (by simp)

theorem matchNull_buildOK (cs : List Char) (sp : Span) (r : List Char)
    (h : matchNull cs = some (sp, r)) : BuildOK sp := by
  unfold matchNull at h
  by_cases hn : cs.take 4 = "null".toList
  · rw [if_pos hn] at h
    simp only [Option.some.injEq, Prod.mk.injEq] at h
    obtain ⟨rfl, rfl⟩ := h
    refine ⟨fun _ => ⟨.null, rfl⟩, fun v hv => ?_⟩
    rw [show parse_value_pair (Span.mk .null "null" []) =
      Except.ok Value.null from rfl] at hv
    cases hv
    exact ValueInv.null
  · rw [if_neg hn] at h
    exact absurd h (by simp)

theorem decodePairs_props (children : List Span)
    (h : ∀ sp ∈ children, PairOK sp) :
    (escOK.goList children = true → ∃ ps, decodePairs children = .ok ps) ∧
    (∀ ps, decodePairs children = .ok ps → ∀ kv ∈ ps, ValueInv kv.2) := by
  induction children with
  | nil =>
    refine ⟨fun _ => ⟨[], rfl⟩, ?_⟩
    intro ps hps kv hkv
    cases hps
    exact absurd hkv (List.not_mem_nil kv)
  | cons c rest ih =>
    obtain ⟨kSpan, vSpan, hceq, hBv⟩ := h c (by simp)
    subst hceq
    have hrest := ih (fun sp hsp => h sp (by simp [hsp]))
    constructor
    · intro hesc
      rw [escOK_goList_cons] at hesc
      obtain ⟨h1, h2⟩ := (Bool.and_eq_true _ _).mp hesc
      rw [escOK_mk] at h1
      obtain ⟨-, hch⟩ := (Bool.and_eq_true _ _).mp h1
      rw [escOK_goList_cons] at hch
      obtain ⟨hk, hch2⟩ := (Bool.and_eq_true _ _).mp hch
      rw [escOK_goList_cons] at hch2
      obtain ⟨hv, -⟩ := (Bool.and_eq_true _ _).mp hch2
      obtain ⟨ks, hks⟩ := parse_string_ok_of_escOK kSpan hk
      obtain ⟨vv, hvv⟩ := hBv.1 hv
      obtain ⟨ps, hps⟩ := hrest.1 h2
      refine ⟨(ks, vv) :: ps, ?_⟩
      rw [decodePairs_pair_cons, hks]
      simp only []
      rw [show parse_value_pair.goValue [vSpan] = parse_value_pair vSpan from rfl, hvv]
      simp only []
      rw [hps]
      rfl
    · intro ps hps kv hkv
      rw [decodePairs_pair_cons] at hps
      rcases hks : parse_string kSpan with e | ks
      · rw [hks] at hps
        exact absurd hps (by simp)
      · rw [hks] at hps
        simp only [] at hps
        rcases hvv : parse_value_pair vSpan with e | vv
        · rw [show parse_value_pair.goValue [vSpan] = parse_value_pair vSpan from rfl,
            hvv] at hps
          exact absurd hps (by simp)
        · rw [show parse_value_pair.goValue [vSpan] = parse_value_pair vSpan from rfl,
            hvv] at hps
          simp only [] at hps
          rcases hdp : decodePairs rest with e | ps'
          · rw [hdp] at hps
            exact absurd hps (by simp [Except.map])
          · rw [hdp] at hps
            rw [show ((fun ps2 => (ks, vv) :: ps2) <$>
              (Except.ok ps' : Except ParserError (List (String × Value)))) =
              Except.ok ((ks, vv) :: ps') from rfl] at hps
            cases hps
            rcases List.mem_cons.mp hkv with rfl | hkv'
            · exact hBv.2 vv hvv
            · exact hrest.2 ps' hdp kv hkv'

theorem goArray_props (sps : List Span) (h : ∀ sp ∈ sps, WrapOK sp) :
    (escOK.goList sps = true → ∃ vs, parse_value_pair.goArray sps = .ok vs) ∧
    (∀ vs, parse_value_pair.goArray sps = .ok vs → ∀ v ∈ vs, ValueInv v) := by
  induction sps with
  | nil =>
    refine ⟨fun _ => ⟨[], rfl⟩, ?_⟩
    intro vs hvs v hv
    cases hvs
    exact absurd hv (List.not_mem_nil v)
  | cons c rest ih =>
    obtain ⟨inner, hceq, hBi⟩ := h c (by simp)
    subst hceq
    have hrest := ih (fun sp hsp => h sp (by simp [hsp]))
    constructor
    · intro hesc
      rw [escOK_goList_cons] at hesc
      obtain ⟨h1, h2⟩ := (Bool.and_eq_true _ _).mp hesc
      rw [escOK_mk] at h1
      obtain ⟨-, hch⟩ := (Bool.and_eq_true _ _).mp h1
      rw [escOK_goList_cons] at hch
      obtain ⟨hi, -⟩ := (Bool.and_eq_true _ _).mp hch
      obtain ⟨vv, hvv⟩ := hBi.1 hi
      obtain ⟨vs, hvs⟩ := hrest.1 h2
      refine ⟨vv :: vs, ?_⟩
      rw [goArray_value_cons, hvv]
      simp only []
      rw [hvs]
      rfl
    · intro vs hvs v hv
      rw [goArray_value_cons] at hvs
      rcases hvv : parse_value_pair inner with e | vv
      · rw [hvv] at hvs
        exact absurd hvs (by simp)
      · rw [hvv] at hvs
        simp only [] at hvs
        rcases hrec : parse_value_pair.goArray rest with e | vs'
        · rw [hrec] at hvs
          exact absurd hvs (by simp [Except.map])
        · rw [hrec] at hvs
          rw [show ((fun vs2 => vv :: vs2) <$>
            (Except.ok vs' : Except ParserError (List Value))) =
            Except.ok (vv :: vs') from rfl] at hvs
          cases hvs
          rcases List.mem_cons.mp hv with h0 | hv'
          · rw [h0]
            exact hBi.2 vv hvv
          · exact hrest.2 vs' hrec v hv'

theorem object_span_buildOK (children : List Span) (h : ∀ p ∈ children, PairOK p) :
    BuildOK (Span.mk .object "" children) := by
  constructor
  · intro hesc
    rw [escOK_mk] at hesc
    obtain ⟨-, hch⟩ := (Bool.and_eq_true _ _).mp hesc
    obtain ⟨ps0, hps0⟩ := (decodePairs_props children h).1 hch
    refine ⟨.obj (insertAll [] ps0), ?_⟩
    show Value.obj <$> parse_value_pair.goObject children [] = _
    rw [goObject_eq_insertAll, hps0]
    rfl
  · intro v hv
    have hv' : Value.obj <$> ((fun ps => insertAll [] ps) <$> decodePairs children) =
        Except.ok v := by
      rw [← goObject_eq_insertAll]
      exact hv
    rcases hdp : decodePairs children with e | ps0
    · rw [hdp] at hv'
      exact absurd hv' (by simp [Except.map])
    · rw [hdp] at hv'
      rw [show (Value.obj <$> ((fun ps => insertAll ([] : List (String × Value)) ps) <$>
        (Except.ok ps0 : Except ParserError (List (String × Value))))) =
        Except.ok (Value.obj (insertAll [] ps0)) from rfl] at hv'
      cases hv'
      refine ValueInv.obj _ (nodup_keys_insertAll ps0 [] (by simp)) ?_
      intro kv hkv
      rcases mem_insertAll ps0 [] kv hkv with h0 | h0
      · exact absurd h0 (List.not_mem_nil kv)
      · exact (decodePairs_props children h).2 ps0 hdp kv h0

theorem array_span_buildOK (children : List Span) (h : ∀ p ∈ children, WrapOK p) :
    BuildOK (Span.mk .array "" children) := by
  constructor
  · intro hesc
    rw [escOK_mk] at hesc
    obtain ⟨-, hch⟩ := (Bool.and_eq_true _ _).mp hesc
    obtain ⟨vs, hvs⟩ := (goArray_props children h).1 hch
    refine ⟨.arr vs, ?_⟩
    show Value.arr <$> parse_value_pair.goArray children = _
    rw [hvs]
    rfl
  · intro v hv
    have hv' : Value.arr <$> parse_value_pair.goArray children = Except.ok v := hv
    rcases hga : parse_value_pair.goArray children with e | vs
    · rw [hga] at hv'
      exact absurd hv' (by simp [Except.map])
    · rw [hga] at hv'
      rw [show (Value.arr <$> (Except.ok vs : Except ParserError (List Value))) =
        Except.ok (Value.arr vs) from rfl] at hv'
      cases hv'
      exact ValueInv.arr vs ((goArray_props children h).2 vs hga)

theorem matchers_build (fuel : Nat) :
    (∀ cs sp r, matchValue fuel cs = some (sp, r) → BuildOK sp) ∧
    (∀ cs sp r, matchObject fuel cs = some (sp, r) → BuildOK sp) ∧
    (∀ cs ps r, matchPairsTail fuel cs = some (ps, r) → ∀ p ∈ ps, PairOK p) ∧
    (∀ cs sp r, matchPair fuel cs = some (sp, r) → PairOK sp) ∧
    (∀ cs sp r, matchArray fuel cs = some (sp, r) → BuildOK sp) ∧
    (∀ cs vs r, matchElemsTail fuel cs = some (vs, r) → ∀ p ∈ vs, BuildOK p) := by
  induction fuel with
  | zero =>
    refine ⟨?_, ?_, ?_, ?_, ?_, ?_⟩ <;> intro cs a r h <;>
      exact absurd h (by
        simp [matchValue, matchObject, matchPairsTail, matchPair, matchArray, matchElemsTail])
  | succ n ih =>
    obtain ⟨ihV, ihO, ihT, ihP, ihA, ihE⟩ := ih
    refine ⟨?_, ?_, ?_, ?_, ?_, ?_⟩
    · -- value
      intro cs sp r h
      rw [matchValue] at h
      rcases ho : matchObject n cs with _ | ⟨spo, ro⟩
      · rw [ho] at h
        rcases ha : matchArray n cs with _ | ⟨spa, ra⟩
        · rw [ha] at h
          rcases hs : matchString cs with _ | ⟨sps1, rs⟩
          · rw [hs] at h
            rcases hnum : matchNumber cs with _ | ⟨spn, rn⟩
            · rw [hnum] at h
              rcases hbool : matchBoolean cs with _ | ⟨spb, rb⟩
              · rw [hbool] at h
                exact matchNull_buildOK cs sp r h
              · rw [hbool] at h
                simp only [Option.some.injEq, Prod.mk.injEq] at h
                obtain ⟨rfl, rfl⟩ := h
                exact matchBoolean_buildOK cs spb rb hbool
            · rw [hnum] at h
              simp only [Option.some.injEq, Prod.mk.injEq] at h
              obtain ⟨rfl, rfl⟩ := h
              exact matchNumber_buildOK cs spn rn hnum
          · rw [hs] at h
            simp only [Option.some.injEq, Prod.mk.injEq] at h
            obtain ⟨rfl, rfl⟩ := h
            exact matchString_buildOK cs sps1 rs hs
        · rw [ha] at h
          simp only [Option.some.injEq, Prod.mk.injEq] at h
          obtain ⟨rfl, rfl⟩ := h
          exact ihA cs spa ra ha
      · rw [ho] at h
        simp only [Option.some.injEq, Prod.mk.injEq] at h
        obtain ⟨rfl, rfl⟩ := h
        exact ihO cs spo ro ho
    · -- object
      intro cs sp r h
      rcases cs with _ | ⟨c, rest⟩
      · rw [matchObject_nil] at h
        exact absurd h (by simp)
      · rw [matchObject_cons] at h
        by_cases hc : c = '\x7b'
        · rw [if_pos hc] at h
          rcases hp : matchPair n (skipWs rest) with _ | ⟨p1, r1⟩
          · rw [hp] at h
            simp only [] at h
            rcases hsw : skipWs rest with _ | ⟨c2, r3⟩
            · rw [hsw] at h
              exact absurd h (by simp)
            · rw [hsw] at h
              simp only [] at h
              by_cases hc2 : c2 = '\x7d'
              · rw [if_pos hc2] at h
                simp only [Option.some.injEq, Prod.mk.injEq] at h
                obtain ⟨rfl, rfl⟩ := h
                exact object_span_buildOK []
                  (fun p hp2 => absurd hp2 (List.not_mem_nil p))
              · rw [if_neg hc2] at h
                exact absurd h (by simp)
          · rw [hp] at h
            simp only [] at h
            rcases ht : matchPairsTail n r1 with _ | ⟨ps, r2⟩
            · rw [ht] at h
              exact absurd h (by simp)
            · rw [ht] at h
              simp only [] at h
              rcases hsw : skipWs r2 with _ | ⟨c2, r3⟩
              · rw [hsw] at h
                exact absurd h (by simp)
              · rw [hsw] at h
                simp only [] at h
                by_cases hc2 : c2 = '\x7d'
                · rw [if_pos hc2] at h
                  simp only [Option.some.injEq, Prod.mk.injEq] at h
                  obtain ⟨rfl, rfl⟩ := h
                  refine object_span_buildOK (p1 :: ps) ?_
                  intro p hp2
                  rcases List.mem_cons.mp hp2 with h0 | h0
                  · rw [h0]
                    exact ihP (skipWs rest) p1 r1 hp
                  · exact ihT r1 ps r2 ht p h0
                · rw [if_neg hc2] at h
                  exact absurd h (by simp)
        · rw [if_neg hc] at h
          exact absurd h (by simp)
    · -- pairs tail
      intro cs ps r h
      rw [matchPairsTail] at h
      rcases hsw : skipWs cs with _ | ⟨c, rest⟩
      · rw [hsw] at h
        simp only [Option.some.injEq, Prod.mk.injEq] at h
        obtain ⟨rfl, rfl⟩ := h
        exact fun p hp => absurd hp (List.not_mem_nil p)
      · rw [hsw] at h
        simp only [] at h
        by_cases hc : c = ','
        · rw [if_pos hc] at h
          rcases hp : matchPair n (skipWs rest) with _ | ⟨p, r1⟩
          · rw [hp] at h
            simp only [Option.some.injEq, Prod.mk.injEq] at h
            obtain ⟨rfl, rfl⟩ := h
            exact fun p hp2 => absurd hp2 (List.not_mem_nil p)
          · rw [hp] at h
            simp only [] at h
            rcases ht : matchPairsTail n r1 with _ | ⟨ps2, r2⟩
            · rw [ht] at h
              exact absurd h (by simp)
            · rw [ht] at h
              simp only [Option.some.injEq, Prod.mk.injEq] at h
              obtain ⟨rfl, rfl⟩ := h
              intro q hq
              rcases List.mem_cons.mp hq with h0 | h0
              · rw [h0]
                exact ihP (skipWs rest) p r1 hp
              · exact ihT r1 ps2 r2 ht q h0
        · rw [if_neg hc] at h
          simp only [Option.some.injEq, Prod.mk.injEq] at h
          obtain ⟨rfl, rfl⟩ := h
          exact fun p hp => absurd hp (List.not_mem_nil p)
    · -- pair
      intro cs sp r h
      rw [matchPair] at h
      rcases hk : matchString cs with _ | ⟨kSpan, r1⟩
      · rw [hk] at h
        exact absurd h (by simp)
      · rw [hk] at h
        simp only [] at h
        rcases hsw : skipWs r1 with _ | ⟨c, r2⟩
        · rw [hsw] at h
          exact absurd h (by simp)
        · rw [hsw] at h
          simp only [] at h
          by_cases hc : c = ':'
          · rw [if_pos hc] at h
            rcases hv : matchValue n (skipWs r2) with _ | ⟨vSpan, r3⟩
            · rw [hv] at h
              exact absurd h (by simp)
            · rw [hv] at h
              simp only [Option.some.injEq, Prod.mk.injEq] at h
              obtain ⟨rfl, rfl⟩ := h
              exact ⟨kSpan, vSpan, rfl, ihV (skipWs r2) vSpan r3 hv⟩
          · rw [if_neg hc] at h
            exact absurd h (by simp)
    · -- array
      intro cs sp r h
      rcases cs with _ | ⟨c, rest⟩
      · rw [matchArray_nil] at h
        exact absurd h (by simp)
      · rw [matchArray_cons] at h
        by_cases hc : c = '['
        · rw [if_pos hc] at h
          rcases hv : matchValue n (skipWs rest) with _ | ⟨v1, r1⟩
          · rw [hv] at h
            simp only [] at h
            rcases hsw : skipWs rest with _ | ⟨c2, r3⟩
            · rw [hsw] at h
              exact absurd h (by simp)
            · rw [hsw] at h
              simp only [] at h
              by_cases hc2 : c2 = ']'
              · rw [if_pos hc2] at h
                simp only [Option.some.injEq, Prod.mk.injEq] at h
                obtain ⟨rfl, rfl⟩ := h
                exact array_span_buildOK []
                  (fun p hp2 => absurd hp2 (List.not_mem_nil p))
              · rw [if_neg hc2] at h
                exact absurd h (by simp)
          · rw [hv] at h
            simp only [] at h
            rcases ht : matchElemsTail n r1 with _ | ⟨vs, r2⟩
            · rw [ht] at h
              exact absurd h (by simp)
            · rw [ht] at h
              simp only [] at h
              rcases hsw : skipWs r2 with _ | ⟨c2, r3⟩
              · rw [hsw] at h
                exact absurd h (by simp)
              · rw [hsw] at h
                simp only [] at h
                by_cases hc2 : c2 = ']'
                · rw [if_pos hc2] at h
                  simp only [Option.some.injEq, Prod.mk.injEq] at h
                  obtain ⟨rfl, rfl⟩ := h
                  refine array_span_buildOK _ ?_
                  intro p hp2
                  rcases List.mem_cons.mp hp2 with h0 | h0
                  · rw [h0]
                    exact ⟨v1, rfl, ihV (skipWs rest) v1 r1 hv⟩
                  · obtain ⟨inner, hin, heq⟩ := List.mem_map.mp h0
                    exact ⟨inner, heq.symm, ihE r1 vs r2 ht inner hin⟩
                · rw [if_neg hc2] at h
                  exact absurd h (by simp)
        · rw [if_neg hc] at h
          exact absurd h (by simp)
    · -- elems tail
      intro cs vs r h
      rw [matchElemsTail] at h
      rcases hsw : skipWs cs with _ | ⟨c, rest⟩
      · rw [hsw] at h
        simp only [Option.some.injEq, Prod.mk.injEq] at h
        obtain ⟨rfl, rfl⟩ := h
        exact fun p hp => absurd hp (List.not_mem_nil p)
      · rw [hsw] at h
        simp only [] at h
        by_cases hc : c = ','
        · rw [if_pos hc] at h
          rcases hv : matchValue n (skipWs rest) with _ | ⟨v, r1⟩
          · rw [hv] at h
            simp only [Option.some.injEq, Prod.mk.injEq] at h
            obtain ⟨rfl, rfl⟩ := h
            exact fun p hp => absurd hp (List.not_mem_nil p)
          · rw [hv] at h
            simp only [] at h
            rcases ht : matchElemsTail n r1 with _ | ⟨vs2, r2⟩
            · rw [ht] at h
              exact absurd h (by simp)
            · rw [ht] at h
              simp only [Option.some.injEq, Prod.mk.injEq] at h
              obtain ⟨rfl, rfl⟩ := h
              intro q hq
              rcases List.mem_cons.mp hq with h0 | h0
              · rw [h0]
                exact ihV (skipWs rest) v r1 hv
              · exact ihE r1 vs2 r2 ht q h0
        · rw [if_neg hc] at h
          simp only [Option.some.injEq, Prod.mk.injEq] at h
          obtain ⟨rfl, rfl⟩ := h
          exact fun p hp => absurd hp (List.not_mem_nil p)

theorem needFuel_goTail_le (vs : List Value)
    (h : ∀ v ∈ vs, needFuel v ≤ 2 * (minifyChars v).length + 1) :
    needFuel.goTailFuel vs ≤ 2 * (minifyChars.goElemsTail vs).length + 1 := by
  induction vs with
  | nil =>
    show (1 : Nat) ≤ 2 * ([] : List Char).length + 1
    simp
  | cons v rest ih =>
    have h1 := h v (by simp)
    have h2 := ih (fun w hw => h w (by simp [hw]))
    show needFuel v + needFuel.goTailFuel rest + 1 ≤
      2 * (',' :: (minifyChars v ++ minifyChars.goElemsTail rest)).length + 1
    simp only [List.length_cons, List.length_append]
    omega

theorem needFuel_goPair_le (ps : List (String × Value))
    (h : ∀ kv ∈ ps, needFuel kv.2 ≤ 2 * (minifyChars kv.2).length + 1) :
    needFuel.goPairFuel ps ≤ 2 * (minifyChars.goPairsTail ps).length + 1 := by
  induction ps with
  | nil =>
    show (1 : Nat) ≤ 2 * ([] : List Char).length + 1
    simp
  | cons p rest ih =>
    obtain ⟨k, v⟩ := p
    have h1 : needFuel v ≤ 2 * (minifyChars v).length + 1 := h ⟨k, v⟩ (by simp)
    have h2 := ih (fun kv hkv => h kv (by simp [hkv]))
    show needFuel v + needFuel.goPairFuel rest + 2 ≤
      2 * (',' :: ((encodeString k ++ (':' :: minifyChars v)) ++
        minifyChars.goPairsTail rest)).length + 1
    simp only [List.length_cons, List.length_append]
    omega

theorem needFuel_le (v : Value) : needFuel v ≤ 2 * (minifyChars v).length + 1 := by
  induction v using value_induction with
  | hnull =>
    show (1 : Nat) ≤ 2 * 4 + 1
    omega
  | hbool b =>
    cases b
    · show (1 : Nat) ≤ 2 * 5 + 1
      omega
    · show (1 : Nat) ≤ 2 * 4 + 1
      omega
  | hnum n =>
    show (1 : Nat) ≤ 2 * n.toList.length + 1
    omega
  | hstr s =>
    show (1 : Nat) ≤ 2 * (encodeString s).length + 1
    omega
  | harr items ihm =>
    rcases items with _ | ⟨v1, rest⟩
    · show (2 : Nat) ≤ 2 * 2 + 1
      omega
    · have h1 := ihm v1 (by simp)
      have h2 := needFuel_goTail_le rest (fun w hw => ihm w (by simp [hw]))
      show needFuel v1 + needFuel.goTailFuel rest + 2 ≤
        2 * ('[' :: ((minifyChars v1 ++ minifyChars.goElemsTail rest) ++ [']'])).length + 1
      simp only [List.length_cons, List.length_append]
      omega
  | hobj entries ihm =>
    rcases entries with _ | ⟨⟨k, v1⟩, rest⟩
    · show (2 : Nat) ≤ 2 * 2 + 1
      omega
    · have h1 : needFuel v1 ≤ 2 * (minifyChars v1).length + 1 := ihm ⟨k, v1⟩ (by simp)
      have h2 := needFuel_goPair_le rest (fun kv hkv => ihm kv (by simp [hkv]))
      show needFuel v1 + needFuel.goPairFuel rest + 3 ≤
        2 * ('\x7b' :: (((encodeString k ++ (':' :: minifyChars v1)) ++
          minifyChars.goPairsTail rest) ++ ['\x7d'])).length + 1
      simp only [List.length_cons, List.length_append]
      omega

theorem matchObject_shape (fuel : Nat) (cs : List Char) (sp : Span) (r : List Char)
    (h : matchObject fuel cs = some (sp, r)) :
    ∃ children, sp = Span.mk .object "" children := by
  cases fuel with
  | zero => exact absurd h (by simp [matchObject])
  | succ n =>
    rcases cs with _ | ⟨c, rest⟩
    · rw [matchObject_nil] at h
      exact absurd h (by simp)
    · rw [matchObject_cons] at h
      by_cases hc : c = '\x7b'
      · rw [if_pos hc] at h
        rcases hp : matchPair n (skipWs rest) with _ | ⟨p1, r1⟩
        · rw [hp] at h
          simp only [] at h
          rcases hsw : skipWs rest with _ | ⟨c2, r3⟩
          · rw [hsw] at h
            exact absurd h (by simp)
          · rw [hsw] at h
            simp only [] at h
            by_cases hc2 : c2 = '\x7d'
            · rw [if_pos hc2] at h
              simp only [Option.some.injEq, Prod.mk.injEq] at h
              exact ⟨[], h.1.symm⟩
            · rw [if_neg hc2] at h
              exact absurd h (by simp)
        · rw [hp] at h
          simp only [] at h
          rcases ht : matchPairsTail n r1 with _ | ⟨ps, r2⟩
          · rw [ht] at h
            exact absurd h (by simp)
          · rw [ht] at h
            simp only [] at h
            rcases hsw : skipWs r2 with _ | ⟨c2, r3⟩
            · rw [hsw] at h
              exact absurd h (by simp)
            · rw [hsw] at h
              simp only [] at h
              by_cases hc2 : c2 = '\x7d'
              · rw [if_pos hc2] at h
                simp only [Option.some.injEq, Prod.mk.injEq] at h
                exact ⟨p1 :: ps, h.1.symm⟩
              · rw [if_neg hc2] at h
                exact absurd h (by simp)
      · rw [if_neg hc] at h
        exact absurd h (by simp)

theorem matchArray_shape (fuel : Nat) (cs : List Char) (sp : Span) (r : List Char)
    (h : matchArray fuel cs = some (sp, r)) :
    ∃ children, sp = Span.mk .array "" children := by
  cases fuel with
  | zero => exact absurd h (by simp [matchArray])
  | succ n =>
    rcases cs with _ | ⟨c, rest⟩
    · rw [matchArray_nil] at h
      exact absurd h (by simp)
    · rw [matchArray_cons] at h
      by_cases hc : c = '['
      · rw [if_pos hc] at h
        rcases hv : matchValue n (skipWs rest) with _ | ⟨v1, r1⟩
        · rw [hv] at h
          simp only [] at h
          rcases hsw : skipWs rest with _ | ⟨c2, r3⟩
          · rw [hsw] at h
            exact absurd h (by simp)
          · rw [hsw] at h
            simp only [] at h
            by_cases hc2 : c2 = ']'
            · rw [if_pos hc2] at h
              simp only [Option.some.injEq, Prod.mk.injEq] at h
              exact ⟨[], h.1.symm⟩
            · rw [if_neg hc2] at h
              exact absurd h (by simp)
        · rw [hv] at h
          simp only [] at h
          rcases ht : matchElemsTail n r1 with _ | ⟨vs, r2⟩
          · rw [ht] at h
            exact absurd h (by simp)
          · rw [ht] at h
            simp only [] at h
            rcases hsw : skipWs r2 with _ | ⟨c2, r3⟩
            · rw [hsw] at h
              exact absurd h (by simp)
            · rw [hsw] at h
              simp only [] at h
              by_cases hc2 : c2 = ']'
              · rw [if_pos hc2] at h
                simp only [Option.some.injEq, Prod.mk.injEq] at h
                exact ⟨_, h.1.symm⟩
              · rw [if_neg hc2] at h
                exact absurd h (by simp)
      · rw [if_neg hc] at h
        exact absurd h (by simp)

theorem minify_arr_head (vs : List Value) :
    ∃ t, minifyChars (Value.arr vs) = '[' :: t := by
  rcases vs with _ | ⟨a, b⟩
  · exact ⟨_, rfl⟩
  · exact ⟨_, rfl⟩

theorem minify_obj_head (es : List (String × Value)) :
    ∃ t, minifyChars (Value.obj es) = '\x7b' :: t := by
  rcases es with _ | ⟨⟨k, w⟩, b⟩
  · exact ⟨_, rfl⟩
  · exact ⟨_, rfl⟩

theorem jsonMatch_eq (s : String) :
    jsonMatch s =
      (match
        (match matchObject (jsonFuel s.toList) (skipWs s.toList) with
         | some r => some r
         | none => matchArray (jsonFuel s.toList) (skipWs s.toList)) with
       | some (sp, rest) =>
         if skipWs rest = [] then .ok (Span.mk .json "" [sp])
         else .error .JsonParseError
       | none => .error .JsonParseError) := rfl

theorem parse_json_ok_of_escOK (s : String) (sp : Span) (hjm0 : jsonMatch s = .ok sp)
    (hesc : escOK sp = true) : ∃ v, parse_json s = .ok v := by
  have hpj : parse_json s = parse_value [sp] := by
    unfold parse_json
    rw [hjm0]
  have hjm := hjm0
  rw [jsonMatch_eq] at hjm
  rcases ho : matchObject (jsonFuel s.toList) (skipWs s.toList) with _ | ⟨spo, ro⟩
  · rw [ho] at hjm
    simp only [] at hjm
    rcases ha : matchArray (jsonFuel s.toList) (skipWs s.toList) with _ | ⟨spa, ra⟩
    · rw [ha] at hjm
      exact absurd hjm (by simp)
    · rw [ha] at hjm
      simp only [] at hjm
      by_cases hr : skipWs ra = []
      · rw [if_pos hr] at hjm
        cases hjm
        have hB := (matchers_build (jsonFuel s.toList)).2.2.2.2.1 _ _ _ ha
        rw [escOK_mk] at hesc
        obtain ⟨-, hch⟩ := (Bool.and_eq_true _ _).mp hesc
        rw [escOK_goList_cons] at hch
        obtain ⟨hesc1, -⟩ := (Bool.and_eq_true _ _).mp hch
        obtain ⟨v, hv⟩ := hB.1 hesc1
        refine ⟨v, ?_⟩
        rw [hpj]
        show parse_value_pair spa = .ok v
        exact hv
      · rw [if_neg hr] at hjm
        exact absurd hjm (by simp)
  · rw [ho] at hjm
    simp only [] at hjm
    by_cases hr : skipWs ro = []
    · rw [if_pos hr] at hjm
      cases hjm
      have hB := (matchers_build (jsonFuel s.toList)).2.1 _ _ _ ho
      rw [escOK_mk] at hesc
      obtain ⟨-, hch⟩ := (Bool.and_eq_true _ _).mp hesc
      rw [escOK_goList_cons] at hch
      obtain ⟨hesc1, -⟩ := (Bool.and_eq_true _ _).mp hch
      obtain ⟨v, hv⟩ := hB.1 hesc1
      refine ⟨v, ?_⟩
      rw [hpj]
      show parse_value_pair spo = .ok v
      exact hv
    · rw [if_neg hr] at hjm
      exact absurd hjm (by simp)

theorem parse_json_minify_arr (vs : List Value) (hinv : ValueInv (Value.arr vs)) :
    parse_json (minify_json (Value.arr vs)) = .ok (Value.arr vs) := by
  have hmem : ∀ w ∈ vs, ValueInv w := by
    cases hinv with | arr _ hh => exact hh
  obtain ⟨t, hT⟩ := minify_arr_head vs
  have hfuel : needFuel (Value.arr vs) ≤
      jsonFuel ((minify_json (Value.arr vs)).toList) + 1 := by
    have hle := needFuel_le (Value.arr vs)
    show _ ≤ 8 * (minifyChars (Value.arr vs)).length + 8 + 1
    omega
  obtain ⟨sp2, hm2, hb3⟩ := matchArray_complete vs hmem
    (fun w hw => matchValue_complete w (hmem w hw))
    (jsonFuel ((minify_json (Value.arr vs)).toList)) [] hfuel
  rw [List.append_nil] at hm2
  have hskip : skipWs ((minify_json (Value.arr vs)).toList) =
      minifyChars (Value.arr vs) := by
    show skipWs (minifyChars (Value.arr vs)) = _
    rw [hT]
    exact skipWs_cons_not_ws '[' t (by decide)
  have hO : matchObject (jsonFuel ((minify_json (Value.arr vs)).toList))
      (minifyChars (Value.arr vs)) = none := by
    rw [hT]
    exact matchObject_cons_ne _ '[' t (by decide)
  unfold parse_json
  rw [jsonMatch_eq, hskip, hO]
  simp only []
  rw [hm2]
  simp only []
  rw [if_pos (show skipWs ([] : List Char) = [] from rfl)]
  show parse_value_pair sp2 = Except.ok (Value.arr vs)
  exact hb3

theorem parse_json_minify_obj (es : List (String × Value)) (hinv : ValueInv (Value.obj es)) :
    parse_json (minify_json (Value.obj es)) = .ok (Value.obj es) := by
  obtain ⟨hnd, hmem⟩ : ((es.map Prod.fst).Nodup) ∧ (∀ kv ∈ es, ValueInv kv.2) := by
    cases hinv with | obj _ h1 h2 => exact ⟨h1, h2⟩
  obtain ⟨t, hT⟩ := minify_obj_head es
  have hfuel : needFuel (Value.obj es) ≤
      jsonFuel ((minify_json (Value.obj es)).toList) + 1 := by
    have hle := needFuel_le (Value.obj es)
    show _ ≤ 8 * (minifyChars (Value.obj es)).length + 8 + 1
    omega
  obtain ⟨sp2, hm2, hb3⟩ := matchObject_complete es hnd hmem
    (fun kv hkv => matchValue_complete kv.2 (hmem kv hkv))
    (jsonFuel ((minify_json (Value.obj es)).toList)) [] hfuel
  rw [List.append_nil] at hm2
  have hskip : skipWs ((minify_json (Value.obj es)).toList) =
      minifyChars (Value.obj es) := by
    show skipWs (minifyChars (Value.obj es)) = _
    rw [hT]
    exact skipWs_cons_not_ws '\x7b' t (by decide)
  unfold parse_json
  rw [jsonMatch_eq, hskip, hm2]
  simp only []
  rw [if_pos (show skipWs ([] : List Char) = [] from rfl)]
  show parse_value_pair sp2 = Except.ok (Value.obj es)
  exact hb3

theorem parse_json_minify (s : String) (v : Value) (h : parse_json s = .ok v) :
    parse_json (minify_json v) = .ok v := by
  unfold parse_json at h
  rcases hjm0 : jsonMatch s with e | jsp
  · rw [hjm0] at h
    exact absurd h (by simp)
  · rw [hjm0] at h
    rw [jsonMatch_eq] at hjm0
    rcases ho : matchObject (jsonFuel s.toList) (skipWs s.toList) with _ | ⟨spo, ro⟩
    · rw [ho] at hjm0
      simp only [] at hjm0
      rcases ha : matchArray (jsonFuel s.toList) (skipWs s.toList) with _ | ⟨spa, ra⟩
      · rw [ha] at hjm0
        exact absurd hjm0 (by simp)
      · rw [ha] at hjm0
        simp only [] at hjm0
        by_cases hr : skipWs ra = []
        · rw [if_pos hr] at hjm0
          cases hjm0
          have hbuild : parse_value_pair spa = .ok v := h
          have hB := (matchers_build (jsonFuel s.toList)).2.2.2.2.1 _ _ _ ha
          have hinv : ValueInv v := hB.2 v hbuild
          obtain ⟨children, rfl⟩ := matchArray_shape _ _ _ _ ha
          have hb2 : Value.arr <$> parse_value_pair.goArray children = Except.ok v :=
            hbuild
          rcases hga : parse_value_pair.goArray children with e2 | vs
          · rw [hga] at hb2
            exact absurd hb2 (by simp [Except.map])
          · rw [hga] at hb2
            rw [show (Value.arr <$> (Except.ok vs : Except ParserError (List Value))) =
              Except.ok (Value.arr vs) from rfl] at hb2
            cases hb2
            exact parse_json_minify_arr vs hinv
        · rw [if_neg hr] at hjm0
          exact absurd hjm0 (by simp)
    · rw [ho] at hjm0
      simp only [] at hjm0
      by_cases hr : skipWs ro = []
      · rw [if_pos hr] at hjm0
        cases hjm0
        have hbuild : parse_value_pair spo = .ok v := h
        have hB := (matchers_build (jsonFuel s.toList)).2.1 _ _ _ ho
        have hinv : ValueInv v := hB.2 v hbuild
        obtain ⟨children, rfl⟩ := matchObject_shape _ _ _ _ ho
        have hb2 : Value.obj <$> parse_value_pair.goObject children [] = Except.ok v :=
          hbuild
        rcases hgo : parse_value_pair.goObject children [] with e2 | es
        · rw [hgo] at hb2
          exact absurd hb2 (by simp [Except.map])
        · rw [hgo] at hb2
          rw [show (Value.obj <$>
            (Except.ok es : Except ParserError (List (String × Value)))) =
            Except.ok (Value.obj es) from rfl] at hb2
          cases hb2
          exact parse_json_minify_obj es hinv
      · rw [if_neg hr] at hjm0
        exact absurd hjm0 (by simp)

/-- C3: counterexample to the round-trip claim as stated.  The text holding a lone
`\ud800` escape is accepted by the grammar — the engine produces a token tree and the
text conforms to the declarative grammar — yet `parse_json` returns
`Err(JsonParseError)` instead of a value, because `char::from_u32` rejects the
surrogate during string building.  So grammar acceptance alone does not guarantee a
successful parse, contrary to the claim. -/
theorem C3_roundtrip_counterexample :
    (jsonMatch "\x7b\"k\":\"\\ud800\"\x7d").isOk = true ∧
    JsonText "\x7b\"k\":\"\\ud800\"\x7d".toList ∧
    parse_json "\x7b\"k\":\"\\ud800\"\x7d" = .error .JsonParseError := by
  refine ⟨rfl, ?_, rfl⟩
  exact jsonMatch_sound _ _ rfl

/-- C3 (amended): a grammar-accepted text builds a value as soon as every escape
sequence in its token tree decodes (`escOK`), and re-parsing the minified
serialisation of any value obtained from a successful parse returns exactly that
value. -/
theorem C3_minify_roundtrip :
    (∀ (s : String) (sp : Span), jsonMatch s = .ok sp → escOK sp = true →
      ∃ v, parse_json s = .ok v) ∧
    (∀ (s : String) (v : Value), parse_json s = .ok v →
      parse_json (minify_json v) = .ok v) :=
  ⟨parse_json_ok_of_escOK, parse_json_minify⟩

/-- Witness for C3: the escape-free text `[1,"a"]` is matched with all escapes valid
and hence parses to some value, and the value parsed from `{"a":1}` survives the
minify round trip. -/
theorem C3_minify_roundtrip_witness :
    (∃ v, parse_json "[1,\"a\"]" = .ok v) ∧
    parse_json (minify_json (Value.obj [("a", Value.num "1")])) =
      .ok (Value.obj [("a", Value.num "1")]) :=
  ⟨C3_minify_roundtrip.1 "[1,\"a\"]" _ rfl rfl,
   C3_minify_roundtrip.2 "\x7b\"a\":1\x7d" (Value.obj [("a", Value.num "1")]) rfl⟩

end MainParser
